import Mathlib

set_option maxHeartbeats 2000000
set_option maxRecDepth 3000

/-!
# ActionScheduler — shallow embedding and verification

This file embeds the `ActionScheduler` Arduino library (a statically allocated,
delta-encoded timeline scheduler for delayed and periodic callbacks) into Lean
and proves properties of the embedding.

Modelling conventions:
* A C function pointer is modelled by `Option Nat`: `none` is a `NULL`
  callback, `some k` is a distinct non-null callback identified by the token
  `k`.  Pointer equality becomes equality of tokens.
* The `void* arg` payload is modelled by a `Nat` (it is never inspected).
* `uint32_t` arithmetic is `Nat` arithmetic with an explicit `% u32Mod` where
  the C code can overflow (the `+=` delta folds and `mProceedingTime`); all
  the subtractions in the source are guarded by comparisons, so truncated
  `Nat` subtraction agrees with the C unsigned subtraction there.
* `uint8_t usedCounter` increments are taken `% 256`; packed handles
  (`uint16_t`) are taken `% 65536`; `uint32_t` arguments of the public
  operations are truncated `% u32Mod` at the call boundary, mirroring the C
  parameter types.  `mActiveNodes` is `uint16_t` in the source; its value is
  bounded by the pool capacity (at most 255) whenever it is incremented, so no
  truncation is modelled for it.
* The C `while`/`do-while` loops become fuelled recursions.  Every loop of the
  source terminates on well-formed states within the given fuel (the free-slot
  scan and the chain walks visit each slot at most once); `proceed`'s firing
  loop can genuinely diverge in C (a node with reload interval 0 refires
  forever), and in the model the fuel simply runs out, returning the state
  reached so far.
* During `proceed` the scheduler calls back into client code.  The behaviour
  of a callback is supplied by an environment `env : Nat → CbBehavior`: a
  callback either just returns a disposition, or first calls `unschedule` on
  the handle of the very slot being fired (the self-cancellation scenario of
  the specification) and then returns a disposition.
-/

namespace ASched

/-- Return disposition of an action callback (`ActionReturn_t`). -/
inductive ActionReturn where
  | oneshot
  | reload
  deriving DecidableEq, Repr

/-- Semantic behaviour of a callback during `proceed`: either purely return a
disposition, or first call `unschedule` on the handle of the slot being fired
and then return the disposition. -/
inductive CbBehavior where
  | ret (r : ActionReturn)
  | unschedSelf (r : ActionReturn)
  deriving DecidableEq, Repr

/-- One pool slot (`ActionNode_t`).  `callback = none` models a `NULL`
function pointer. -/
structure ActionNode where
  callback : Option Nat
  delayToPrevious : Nat
  reload : Nat
  arg : Nat
  usedCounter : Nat
  previousNodeIdx : Nat
  nextNodeIdx : Nat
  deriving DecidableEq, Repr

def u32Mod : Nat := 4294967296

def u16Mod : Nat := 65536

/-- The reserved invalid handle (`ACTION_SCHEDULER_ID_INVALID`). -/
def ACTION_SCHEDULER_ID_INVALID : Nat := 0

def ActionNode.initial : ActionNode :=
  { callback := none, delayToPrevious := 0, reload := 0, arg := 0,
    usedCounter := 0, previousNodeIdx := 0, nextNodeIdx := 0 }

/-- The scheduler state.  `maxNodes` plays `ACTION_SCHEDULER_MAX_NODES`
(a compile-time constant, 1..255); `nodes` is the `mNodes` array (its length
is `maxNodes` for every state built by the public operations). -/
structure Scheduler where
  maxNodes : Nat
  nodes : List ActionNode
  mNodeStartIdx : Nat
  mNodeEndIdx : Nat
  mActiveNodes : Nat
  mProceedingTime : Nat
  mActiveNodesWaterMark : Nat
  deriving DecidableEq, Repr

/-- Read `mNodes[i]`. -/
def Scheduler.node (s : Scheduler) (i : Nat) : ActionNode :=
  s.nodes.getD i ActionNode.initial

/-- Write `mNodes[i]`. -/
def Scheduler.setNode (s : Scheduler) (i : Nat) (n : ActionNode) : Scheduler :=
  { s with nodes := s.nodes.set i n }

/-- The scan body of `getFreeSlot`: starting at slot `i`, walk forward
(wrapping modulo `maxNodes`) until reaching `mNodeEndIdx`, returning the first
slot whose callback is `NULL`.  The C `for` loop stops before ever examining
`mNodeEndIdx` itself.  `fuel = maxNodes` always suffices: the walk visits at
most `maxNodes - 1` slots before reaching `mNodeEndIdx`. -/
def getFreeSlotAux (s : Scheduler) : Nat → Nat → Option Nat
  | _, 0 => none
  | i, fuel+1 =>
    if i = s.mNodeEndIdx then none
    else if (s.node i).callback = none then some i
    else getFreeSlotAux s ((i + 1) % s.maxNodes) fuel

/-- `ActionScheduler::getFreeSlot`: find a free slot, scanning from just after
`mNodeEndIdx`.  Returns `none` where the C code returns `false`. -/
def getFreeSlot (s : Scheduler) : Option Nat :=
  getFreeSlotAux s ((s.mNodeEndIdx + 1) % s.maxNodes) s.maxNodes

/-- `ActionScheduler::generateActionIdAt`: pack the slot index and the slot's
generation counter into a `uint16_t` handle, `idx | (usedCounter << 8)`. -/
def generateActionIdAt (s : Scheduler) (idx : Nat) : Nat :=
  (Nat.lor idx ((s.node idx).usedCounter <<< 8)) % u16Mod

/-- `ActionScheduler::removeNodeAt`, translated statement by statement.  The
callback field is cleared first; the chain splice depends on whether the node
is the only one, the head, the tail, an interior node, or an isolated node. -/
def removeNodeAt (s : Scheduler) (idx : Nat) : Scheduler :=
  if idx < s.maxNodes then
    let s1 := s.setNode idx { s.node idx with callback := none }
    if s1.mActiveNodes > 1 then
      if idx = s1.mNodeStartIdx then
        let nextCursor := (s1.node idx).nextNodeIdx
        let s2 := s1.setNode nextCursor
          { s1.node nextCursor with previousNodeIdx := nextCursor }
        let s3 := { s2 with mActiveNodes := s2.mActiveNodes - 1 }
        let timeleft := (s3.node s3.mNodeStartIdx).delayToPrevious
        let s4 := { s3 with mNodeStartIdx := nextCursor }
        s4.setNode s4.mNodeStartIdx
          { s4.node s4.mNodeStartIdx with
            delayToPrevious :=
              ((s4.node s4.mNodeStartIdx).delayToPrevious + timeleft) % u32Mod }
      else if idx = s1.mNodeEndIdx then
        let previousCursor := (s1.node idx).previousNodeIdx
        let s2 := s1.setNode previousCursor
          { s1.node previousCursor with nextNodeIdx := previousCursor }
        let s3 := { s2 with mNodeEndIdx := previousCursor }
        { s3 with mActiveNodes := s3.mActiveNodes - 1 }
      else
        if (s1.node idx).previousNodeIdx = idx ∧ (s1.node idx).nextNodeIdx = idx then
          s1
        else
          let previousCursor := (s1.node idx).previousNodeIdx
          let nextCursor := (s1.node idx).nextNodeIdx
          let s2 := s1.setNode previousCursor
            { s1.node previousCursor with nextNodeIdx := nextCursor }
          let s3 := s2.setNode nextCursor
            { s2.node nextCursor with
              previousNodeIdx := previousCursor,
              delayToPrevious :=
                ((s2.node nextCursor).delayToPrevious
                  + (s2.node idx).delayToPrevious) % u32Mod }
          { s3 with mActiveNodes := s3.mActiveNodes - 1 }
    else if s1.mActiveNodes = 1 then
      if idx ≠ s1.mNodeStartIdx then s1
      else { s1 with mActiveNodes := 0, mNodeStartIdx := idx, mNodeEndIdx := idx }
    else s1
  else s

/-- The search loop of `ActionScheduler::insertNode`: walk the chain from
`idxB`, subtracting each visited delta from the remaining `delay`, while the
visited node's `delayToPrevious ≤ delay`; `idxA` tracks the last visited node
(`none` plays the C index `-1`).  Returns `(idxA, idxB, remaining delay)`:
`idxB = none` means the walk ran past the tail.  The walk visits each chain
node at most once, so `fuel = maxNodes + 1` suffices on well-formed states. -/
def insertFind (s : Scheduler) : Nat → Option Nat → Nat → Nat →
    Option Nat × Option Nat × Nat
  | delay, idxA, idxB, 0 => (idxA, some idxB, delay)
  | delay, idxA, idxB, fuel+1 =>
    if (s.node idxB).delayToPrevious ≤ delay then
      let delay1 := delay - (s.node idxB).delayToPrevious
      if idxB = s.mNodeEndIdx then (some idxB, none, delay1)
      else insertFind s delay1 (some idxB) ((s.node idxB).nextNodeIdx) fuel
    else (idxA, some idxB, delay)

/-- `ActionScheduler::insertNode`: link slot `idx` into the (nonempty) chain
at the position determined by `delay`, in the three cases of the source
(before the head, after the tail, between two nodes). -/
def insertNode (s : Scheduler) (idx delay : Nat) : Scheduler :=
  let f := insertFind s delay none s.mNodeStartIdx (s.maxNodes + 1)
  let s1 := s.setNode idx { s.node idx with delayToPrevious := f.2.2 }
  match f.1, f.2.1 with
  | none, some idxB =>
    let s2 := s1.setNode idx
      { s1.node idx with previousNodeIdx := idx, nextNodeIdx := idxB }
    let s3 := s2.setNode idxB
      { s2.node idxB with
        previousNodeIdx := idx,
        delayToPrevious :=
          (s2.node idxB).delayToPrevious - (s2.node idx).delayToPrevious }
    { s3 with mNodeStartIdx := idx }
  | some idxA, none =>
    let s2 := s1.setNode idx
      { s1.node idx with previousNodeIdx := idxA, nextNodeIdx := idx }
    let s3 := s2.setNode idxA { s2.node idxA with nextNodeIdx := idx }
    { s3 with mNodeEndIdx := idx }
  | some idxA, some idxB =>
    let s2 := s1.setNode idx
      { s1.node idx with previousNodeIdx := idxA, nextNodeIdx := idxB }
    let s3 := s2.setNode idxA { s2.node idxA with nextNodeIdx := idx }
    s3.setNode idxB
      { s3.node idxB with
        previousNodeIdx := idx,
        delayToPrevious :=
          (s3.node idxB).delayToPrevious - (s3.node idx).delayToPrevious }
  | none, none => s1

/-- `ActionScheduler::unschedule`.  The handle is a `uint16_t`; the slot index
is its low byte, the expected generation its high byte.  Returns the new
state, the success flag, and the value left in the caller's handle variable
(the source writes `ACTION_SCHEDULER_ID_INVALID` through the pointer on
success and leaves the handle unchanged on failure). -/
def unschedule (s : Scheduler) (actionId0 : Nat) : Scheduler × Bool × Nat :=
  let actionId := actionId0 % u16Mod
  if actionId ≠ ACTION_SCHEDULER_ID_INVALID then
    let id := actionId % 256
    let counter := actionId / 256
    if id < s.maxNodes ∧ (s.node id).callback ≠ none
        ∧ (s.node id).usedCounter = counter then
      (removeNodeAt s id, true, ACTION_SCHEDULER_ID_INVALID)
    else (s, false, actionId)
  else (s, false, actionId)

/-- Interpretation of one callback invocation `cb(arg)` inside `proceed`.
`cur` is the slot being fired (already detached from the chain); a
`CbBehavior.unschedSelf` callback calls `unschedule` with the handle of that
slot, exactly as a client holding the handle returned at registration would.
A `none` callback would be a `NULL` function pointer call in C (undefined
behaviour); it is unreachable from well-formed states and modelled as a pure
one-shot return. -/
def interpCb (env : Nat → CbBehavior) (s : Scheduler) (cur : Nat)
    (cb : Option Nat) : Scheduler × ActionReturn :=
  match cb with
  | none => (s, ActionReturn.oneshot)
  | some k =>
    match env k with
    | CbBehavior.ret r => (s, r)
    | CbBehavior.unschedSelf r => ((unschedule s (generateActionIdAt s cur)).1, r)

/-- One iteration of `proceed`'s firing loop, given that the loop condition
holds: consume the head's delta, detach the head, run its callback, and apply
the returned disposition (one-shot frees the slot; reload reinserts it unless
the callback already cancelled it).  Returns the new state, the consumed
delta, and the log entry `(slot, callback)` of the invocation. -/
def proceedIter (env : Nat → CbBehavior) (s : Scheduler) :
    Scheduler × Nat × (Nat × Option Nat) :=
  let d0 := (s.node s.mNodeStartIdx).delayToPrevious
  let s1 := { s with mProceedingTime := (s.mProceedingTime + d0) % u32Mod }
  let cur := s1.mNodeStartIdx
  let s2 := { s1 with mActiveNodes := s1.mActiveNodes - 1 }
  let cb := (s2.node cur).callback
  let s3 :=
    if s2.mActiveNodes > 0 then
      let nextCursor := (s2.node cur).nextNodeIdx
      let t1 := s2.setNode nextCursor
        { s2.node nextCursor with previousNodeIdx := nextCursor }
      let t2 := { t1 with mNodeStartIdx := nextCursor }
      t2.setNode cur { t2.node cur with nextNodeIdx := cur }
    else
      s2.setNode cur { s2.node cur with nextNodeIdx := cur }
  let p := interpCb env s3 cur cb
  let s4 := p.1
  let s5 :=
    match p.2 with
    | ActionReturn.oneshot => s4.setNode cur { s4.node cur with callback := none }
    | ActionReturn.reload =>
      if (s4.node cur).callback ≠ none then
        let s6 :=
          if s4.mActiveNodes = 0 then
            s4.setNode cur
              { s4.node cur with delayToPrevious := (s4.node cur).reload }
          else insertNode s4 cur ((s4.node cur).reload)
        { s6 with mActiveNodes := s6.mActiveNodes + 1 }
      else s4
  (s5, d0, (cur, cb))

/-- The firing loop of `ActionScheduler::proceed`, fuelled.  Accumulates the
log of callback invocations in order. -/
def proceedLoop (env : Nat → CbBehavior) :
    Nat → Scheduler → Nat → List (Nat × Option Nat) →
    Scheduler × Nat × List (Nat × Option Nat)
  | 0, s, e, log => (s, e, log)
  | fuel+1, s, e, log =>
    if (s.node s.mNodeStartIdx).delayToPrevious ≤ e ∧ s.mActiveNodes > 0 then
      let r := proceedIter env s
      proceedLoop env fuel r.1 (e - r.2.1) (log ++ [r.2.2])
    else (s, e, log)

/-- Fuel used by the public `proceed` for the firing loop.  On well-formed
states with all reload intervals positive, the loop performs at most
`(e + 1) * (maxNodes + 1)` iterations; a node with reload interval 0 makes
the C loop diverge, and makes the model run out of fuel. -/
def proceedFuel (s : Scheduler) (e : Nat) : Nat :=
  (e + 2) * (s.maxNodes + 2)

/-- The epilogue of `ActionScheduler::proceed`: after the firing loop, if the
chain is nonempty, charge the unconsumed elapsed time to the head's delta and
to `mProceedingTime`.  The boolean is the C return value (whether any callback
fired). -/
def proceedPost (r : Scheduler × Nat × List (Nat × Option Nat)) :
    Scheduler × Bool × List (Nat × Option Nat) :=
  let s1 := r.1
  let eLeft := r.2.1
  let log := r.2.2
  let s2 :=
    if s1.mActiveNodes > 0 then
      let t := s1.setNode s1.mNodeStartIdx
        { s1.node s1.mNodeStartIdx with
          delayToPrevious := (s1.node s1.mNodeStartIdx).delayToPrevious - eLeft }
      { t with mProceedingTime := (t.mProceedingTime + eLeft) % u32Mod }
    else s1
  (s2, !log.isEmpty, log)

/-- `ActionScheduler::proceed` with its invocation log: run the firing loop,
then the epilogue. -/
def proceedFull (env : Nat → CbBehavior) (s : Scheduler) (timeElapsedMs0 : Nat) :
    Scheduler × Bool × List (Nat × Option Nat) :=
  let e := timeElapsedMs0 % u32Mod
  proceedPost (proceedLoop env (proceedFuel s e) s e [])

/-- `ActionScheduler::proceed`, the public signature. -/
def proceed (env : Nat → CbBehavior) (s : Scheduler) (timeElapsedMs : Nat) :
    Scheduler × Bool :=
  let r := proceedFull env s timeElapsedMs
  (r.1, r.2.1)

/-- `ActionScheduler::scheduleReload`: register a periodic action.  Returns
the new state and the packed handle, `ACTION_SCHEDULER_ID_INVALID` on
failure. -/
def scheduleReload (s : Scheduler) (delayedTime0 reload0 : Nat)
    (cb : Option Nat) (arg : Nat) : Scheduler × Nat :=
  let delayedTime := delayedTime0 % u32Mod
  let reload := reload0 % u32Mod
  if cb = none ∨ s.mActiveNodes ≥ s.maxNodes then
    (s, ACTION_SCHEDULER_ID_INVALID)
  else if s.mActiveNodes = 0 then
    match getFreeSlot s with
    | none => (s, ACTION_SCHEDULER_ID_INVALID)
    | some freeCursor =>
      let s1 := s.setNode freeCursor
        { s.node freeCursor with
          usedCounter := ((s.node freeCursor).usedCounter + 1) % 256,
          previousNodeIdx := freeCursor,
          nextNodeIdx := freeCursor,
          delayToPrevious := delayedTime,
          callback := cb,
          arg := arg,
          reload := reload }
      let s2 := { s1 with
        mNodeStartIdx := freeCursor,
        mNodeEndIdx := freeCursor,
        mActiveNodes := s1.mActiveNodes + 1 }
      let actionId := generateActionIdAt s2 freeCursor
      let s3 :=
        if s2.mActiveNodes > s2.mActiveNodesWaterMark then
          { s2 with mActiveNodesWaterMark := s2.mActiveNodes }
        else s2
      (s3, actionId)
  else
    match getFreeSlot s with
    | none => (s, ACTION_SCHEDULER_ID_INVALID)
    | some freeCursor =>
      let s1 := s.setNode freeCursor
        { s.node freeCursor with
          usedCounter := ((s.node freeCursor).usedCounter + 1) % 256,
          callback := cb,
          arg := arg,
          delayToPrevious := delayedTime,
          reload := reload }
      let s2 := { s1 with mActiveNodes := s1.mActiveNodes + 1 }
      let s3 := insertNode s2 freeCursor delayedTime
      let actionId := generateActionIdAt s3 freeCursor
      let s4 :=
        if s3.mActiveNodes > s3.mActiveNodesWaterMark then
          { s3 with mActiveNodesWaterMark := s3.mActiveNodes }
        else s3
      (s4, actionId)

/-- `ActionScheduler::schedule`: a one-shot action is a periodic action whose
reload interval equals its delay. -/
def schedule (s : Scheduler) (delayedTime : Nat) (cb : Option Nat) (arg : Nat) :
    Scheduler × Nat :=
  scheduleReload s delayedTime delayedTime cb arg

/-- The do-while walk of `ActionScheduler::unscheduleAll`: visit the chain
following next links saved before each possible removal, removing every node
whose callback equals `cb`, and stop after visiting the node that was
`mNodeEndIdx` at the start of its iteration. -/
def unscheduleAllLoop (cb : Option Nat) :
    Nat → Scheduler → Nat → Bool → Scheduler × Bool
  | 0, s, _, ret => (s, ret)
  | fuel+1, s, cursor, ret =>
    let currentCursor := cursor
    let nextCursor := (s.node currentCursor).nextNodeIdx
    let isEnd := currentCursor = s.mNodeEndIdx
    let p :=
      if (s.node currentCursor).callback = cb then
        (removeNodeAt s currentCursor, true)
      else (s, ret)
    if isEnd then p else unscheduleAllLoop cb fuel p.1 nextCursor p.2

/-- `ActionScheduler::unscheduleAll`. -/
def unscheduleAll (s : Scheduler) (cb : Option Nat) : Scheduler × Bool :=
  unscheduleAllLoop cb (s.maxNodes + 1) s s.mNodeStartIdx false

/-- `ActionScheduler::clear`: reset every slot and the chain bookkeeping.
Note the source does not reset `mActiveNodesWaterMark` here. -/
def clear (s : Scheduler) : Scheduler :=
  { s with
    nodes := List.replicate s.maxNodes ActionNode.initial,
    mNodeStartIdx := 0,
    mNodeEndIdx := 0,
    mActiveNodes := 0,
    mProceedingTime := 0 }

/-- The constructor `ActionScheduler::ActionScheduler`: zero the bookkeeping
(including the watermark) and `clear()`. -/
def initialScheduler (maxN : Nat) : Scheduler :=
  clear
    { maxNodes := maxN,
      nodes := List.replicate maxN ActionNode.initial,
      mNodeStartIdx := 0,
      mNodeEndIdx := 0,
      mActiveNodes := 0,
      mProceedingTime := 0,
      mActiveNodesWaterMark := 0 }

/-- `ActionScheduler::getNextEventDelay`. -/
def getNextEventDelay (s : Scheduler) : Nat :=
  if s.mActiveNodes > 0 then (s.node s.mNodeStartIdx).delayToPrevious
  else u32Mod - 1

/-- `ActionScheduler::getProceedingTime`. -/
def getProceedingTime (s : Scheduler) : Nat := s.mProceedingTime

/-- `ActionScheduler::clearProceedingTime`. -/
def clearProceedingTime (s : Scheduler) : Scheduler :=
  { s with mProceedingTime := 0 }

/-- The scan of `ActionScheduler::isCallbackArmed`: walk every slot starting
just after `mNodeStartIdx` (wrapping), stopping at `mNodeStartIdx`, reporting
whether some visited slot's callback field equals `cb`. -/
def isArmedScan (s : Scheduler) (cb : Option Nat) : Nat → Nat → Bool
  | _, 0 => false
  | i, fuel+1 =>
    if i = s.mNodeStartIdx then false
    else if (s.node i).callback = cb then true
    else isArmedScan s cb ((i + 1) % s.maxNodes) fuel

/-- `ActionScheduler::isCallbackArmed`. -/
def isCallbackArmed (s : Scheduler) (cb : Option Nat) : Bool :=
  if s.mActiveNodes > 0 ∧ (s.node s.mNodeStartIdx).callback = cb then true
  else isArmedScan s cb ((s.mNodeStartIdx + 1) % s.maxNodes) s.maxNodes

/-- `ActionScheduler::getActiveNodesWaterMark`. -/
def getActiveNodesWaterMark (s : Scheduler) : Nat := s.mActiveNodesWaterMark

/-! ## Chain representation

The timeline is an intrusive doubly linked list threaded through the pool.
`Rep s l` says that the list `l` of slot indices is a faithful reading of the
chain of state `s`: `l` is the chain from head to tail, the link fields agree
with adjacency in `l`, the head and tail are self-referential on their outer
side, exactly the members of `l` are occupied, and the member deltas are
small enough that the C `uint32_t` arithmetic never wraps. -/

/-- The delta-to-previous of slot `i`. -/
def nodeDelta (s : Scheduler) (i : Nat) : Nat := (s.node i).delayToPrevious

/-- The total of the member deltas of `l`. -/
def sumD (s : Scheduler) (l : List Nat) : Nat := (l.map (nodeDelta s)).sum

/-- Adjacency of two slots in the intrusive list. -/
def linkRel (s : Scheduler) (a b : Nat) : Prop :=
  (s.node a).nextNodeIdx = b ∧ (s.node b).previousNodeIdx = a

/-- `l` is a faithful reading of the chain structure of `s` (links, cursors,
bounds); occupancy of the pool is tracked separately by `Occ`, because during
one iteration of `proceed` the detached firing slot is occupied without being
chained. -/
structure RepC (s : Scheduler) (l : List Nat) : Prop where
  len : s.nodes.length = s.maxNodes
  maxpos : 0 < s.maxNodes
  maxle : s.maxNodes ≤ 255
  nodup : l.Nodup
  memlt : ∀ i ∈ l, i < s.maxNodes
  startlt : s.mNodeStartIdx < s.maxNodes
  endlt : s.mNodeEndIdx < s.maxNodes
  head_start : ∀ a ∈ l.head?, a = s.mNodeStartIdx
  last_end : ∀ a ∈ l.getLast?, a = s.mNodeEndIdx
  empty_se : l = [] → s.mNodeStartIdx = s.mNodeEndIdx
  links : l.Chain' (linkRel s)
  head_prev : ∀ a ∈ l.head?, (s.node a).previousNodeIdx = a
  last_next : ∀ a ∈ l.getLast?, (s.node a).nextNodeIdx = a
  sumlt : sumD s l < u32Mod
  reloadlt : ∀ i ∈ l, (s.node i).reload < u32Mod

/-- Pool occupancy: exactly the chain members hold a non-null callback. -/
def Occ (s : Scheduler) (l : List Nat) : Prop :=
  ∀ i, i < s.maxNodes → ((s.node i).callback ≠ none ↔ i ∈ l)

/-- The cumulative delta of member `j`: the sum of the deltas from the head of
`l` up to and including `j` (garbage when `j ∉ l`).  By the timeline
invariant this is `j`'s remaining time until firing. -/
def cumOf (s : Scheduler) : List Nat → Nat → Nat
  | [], _ => 0
  | a :: rest, j =>
    if a = j then nodeDelta s a else nodeDelta s a + cumOf s rest j

/-- The chain of `s` read off the state: follow `nextNodeIdx` from
`mNodeStartIdx`, `mActiveNodes` many nodes. -/
def chainFrom (s : Scheduler) : Nat → Nat → List Nat
  | _, 0 => []
  | i, k+1 => i :: chainFrom s ((s.node i).nextNodeIdx) k

def chainList (s : Scheduler) : List Nat :=
  chainFrom s s.mNodeStartIdx s.mActiveNodes

/-- Well-formedness of a scheduler state between public operations. -/
def Wf (s : Scheduler) : Prop :=
  RepC s (chainList s) ∧ Occ s (chainList s)
  ∧ s.mActiveNodes = (chainList s).length

/-! ### List and frame helper lemmas -/

theorem getD_set_eq {α : Type} (l : List α) (i : Nat) (a d : α)
    (h : i < l.length) : (l.set i a).getD i d = a := by
  induction l generalizing i with
  | nil => simp at h
  | cons x xs ih =>
    cases i with
    | zero => rfl
    | succ i => exact ih i (by simpa using h)

theorem getD_set_ne {α : Type} (l : List α) (i j : Nat) (a d : α)
    (h : j ≠ i) : (l.set i a).getD j d = l.getD j d := by
  induction l generalizing i j with
  | nil => rfl
  | cons x xs ih =>
    cases i with
    | zero => cases j with
      | zero => exact absurd rfl h
      | succ j => rfl
    | succ i => cases j with
      | zero => rfl
      | succ j => exact ih i j (by omega)

@[simp] theorem setNode_maxNodes (s : Scheduler) (i : Nat) (n : ActionNode) :
    (s.setNode i n).maxNodes = s.maxNodes := rfl

@[simp] theorem setNode_start (s : Scheduler) (i : Nat) (n : ActionNode) :
    (s.setNode i n).mNodeStartIdx = s.mNodeStartIdx := rfl

@[simp] theorem setNode_end (s : Scheduler) (i : Nat) (n : ActionNode) :
    (s.setNode i n).mNodeEndIdx = s.mNodeEndIdx := rfl

@[simp] theorem setNode_active (s : Scheduler) (i : Nat) (n : ActionNode) :
    (s.setNode i n).mActiveNodes = s.mActiveNodes := rfl

@[simp] theorem setNode_pt (s : Scheduler) (i : Nat) (n : ActionNode) :
    (s.setNode i n).mProceedingTime = s.mProceedingTime := rfl

@[simp] theorem setNode_wm (s : Scheduler) (i : Nat) (n : ActionNode) :
    (s.setNode i n).mActiveNodesWaterMark = s.mActiveNodesWaterMark := rfl

@[simp] theorem setNode_length (s : Scheduler) (i : Nat) (n : ActionNode) :
    (s.setNode i n).nodes.length = s.nodes.length := by
  simp [Scheduler.setNode]

theorem node_set_self (s : Scheduler) (i : Nat) (n : ActionNode)
    (h : i < s.nodes.length) : (s.setNode i n).node i = n :=
  getD_set_eq s.nodes i n ActionNode.initial h

theorem node_set_ne (s : Scheduler) (i j : Nat) (n : ActionNode)
    (h : j ≠ i) : (s.setNode i n).node j = s.node j :=
  getD_set_ne s.nodes i j n ActionNode.initial h

/-! ### Facts about `cumOf` and `sumD` -/

theorem cumOf_cons (s : Scheduler) (a : Nat) (rest : List Nat) (j : Nat) :
    cumOf s (a :: rest) j
      = if a = j then nodeDelta s a else nodeDelta s a + cumOf s rest j := rfl

theorem sumD_cons (s : Scheduler) (a : Nat) (rest : List Nat) :
    sumD s (a :: rest) = nodeDelta s a + sumD s rest := by
  simp [sumD]

theorem sumD_append (s : Scheduler) (l1 l2 : List Nat) :
    sumD s (l1 ++ l2) = sumD s l1 + sumD s l2 := by
  simp [sumD]

theorem cumOf_le_sumD (s : Scheduler) (l : List Nat) (j : Nat) (h : j ∈ l) :
    cumOf s l j ≤ sumD s l := by
  induction l with
  | nil => simp at h
  | cons a rest ih =>
    rw [cumOf_cons, sumD_cons]
    by_cases ha : a = j
    · rw [if_pos ha]; exact Nat.le_add_right _ _
    · rw [if_neg ha]
      have hj : j ∈ rest := by
        rcases List.mem_cons.mp h with h' | h'
        · exact absurd h'.symm ha
        · exact h'
      exact Nat.add_le_add_left (ih hj) _

/-- Members of a `Nodup` list have position-independent cumulative sums:
`cumOf` over an append, member in the left part. -/
theorem cumOf_append_left (s : Scheduler) (l1 l2 : List Nat) (j : Nat)
    (h : j ∈ l1) : cumOf s (l1 ++ l2) j = cumOf s l1 j := by
  induction l1 with
  | nil => simp at h
  | cons a rest ih =>
    rw [List.cons_append, cumOf_cons, cumOf_cons]
    by_cases ha : a = j
    · rw [if_pos ha, if_pos ha]
    · rw [if_neg ha, if_neg ha]
      have hj : j ∈ rest := by
        rcases List.mem_cons.mp h with h' | h'
        · exact absurd h'.symm ha
        · exact h'
      rw [ih hj]

/-- `cumOf` over an append, member in the right part. -/
theorem cumOf_append_right (s : Scheduler) (l1 l2 : List Nat) (j : Nat)
    (h : j ∉ l1) : cumOf s (l1 ++ l2) j = sumD s l1 + cumOf s l2 j := by
  induction l1 with
  | nil => simp [sumD]
  | cons a rest ih =>
    rw [List.cons_append, cumOf_cons, sumD_cons]
    have ha : a ≠ j := fun hc => h (hc ▸ List.mem_cons_self a rest)
    rw [if_neg ha, ih (fun hc => h (List.mem_cons_of_mem a hc)), Nat.add_assoc]

/-- `cumOf` only depends on the deltas of the members up to and including
`j`. -/
theorem cumOf_congr (s t : Scheduler) (l : List Nat) (j : Nat)
    (h : ∀ i ∈ l, nodeDelta t i = nodeDelta s i) :
    cumOf t l j = cumOf s l j := by
  induction l with
  | nil => rfl
  | cons a rest ih =>
    rw [cumOf_cons, cumOf_cons, h a (List.mem_cons_self a rest)]
    by_cases ha : a = j
    · rw [if_pos ha, if_pos ha]
    · rw [if_neg ha, if_neg ha,
        ih (fun i hi => h i (List.mem_cons_of_mem a hi))]

theorem sumD_congr (s t : Scheduler) (l : List Nat)
    (h : ∀ i ∈ l, nodeDelta t i = nodeDelta s i) : sumD t l = sumD s l := by
  induction l with
  | nil => rfl
  | cons a rest ih =>
    rw [sumD_cons, sumD_cons, h a (List.mem_cons_self a rest),
      ih (fun i hi => h i (List.mem_cons_of_mem a hi))]

/-! ### Link-chain congruence

`linkRel` adjacency along a list only reads the `nextNodeIdx` of every
element but the last and the `previousNodeIdx` of every element but the
first. -/

theorem chain'_of_congr (s t : Scheduler) (l : List Nat)
    (h : List.Chain' (linkRel s) l)
    (hnext : ∀ a ∈ l.dropLast, (t.node a).nextNodeIdx = (s.node a).nextNodeIdx)
    (hprev : ∀ a ∈ l.tail, (t.node a).previousNodeIdx = (s.node a).previousNodeIdx) :
    List.Chain' (linkRel t) l := by
  induction l with
  | nil => exact List.chain'_nil
  | cons a rest ih =>
    cases rest with
    | nil => exact List.chain'_singleton a
    | cons b rest' =>
      rw [List.chain'_cons] at h ⊢
      refine ⟨⟨?_, ?_⟩, ?_⟩
      · rw [hnext a (by simp [List.dropLast])]
        exact h.1.1
      · rw [hprev b (by simp)]
        exact h.1.2
      · refine ih h.2 (fun x hx => hnext x ?_) (fun x hx => hprev x ?_)
        · exact List.mem_cons_of_mem a hx
        · exact List.mem_cons_of_mem b hx

/-! ### `removeNodeAt`: one unfolding lemma per source branch -/

/-- Removing with an empty chain only clears the callback field. -/
theorem removeNodeAt_zero_spec (s : Scheduler) (idx : Nat)
    (hlt : idx < s.maxNodes) (hact : s.mActiveNodes = 0) :
    removeNodeAt s idx = s.setNode idx { s.node idx with callback := none } := by
  simp only [removeNodeAt, setNode_active, setNode_start]
  rw [if_pos hlt, if_neg (by omega), if_neg (by omega)]

/-- Removing the only chain node: clear the callback, empty the chain, park
both cursors on the removed slot. -/
theorem removeNodeAt_only_spec (s : Scheduler) (idx : Nat)
    (hlt : idx < s.maxNodes) (hact : s.mActiveNodes = 1)
    (hstart : idx = s.mNodeStartIdx) :
    removeNodeAt s idx =
      { s.setNode idx { s.node idx with callback := none } with
        mActiveNodes := 0, mNodeStartIdx := idx, mNodeEndIdx := idx } := by
  simp only [removeNodeAt, setNode_active, setNode_start]
  rw [if_pos hlt, if_neg (by omega), if_pos hact,
    if_neg (fun hcon => hcon hstart)]

/-- Removing a slot that is not the single chain node (chain of size one):
only the callback is cleared. -/
theorem removeNodeAt_isolated1_spec (s : Scheduler) (idx : Nat)
    (hlt : idx < s.maxNodes) (hact : s.mActiveNodes = 1)
    (hns : idx ≠ s.mNodeStartIdx) :
    removeNodeAt s idx = s.setNode idx { s.node idx with callback := none } := by
  simp only [removeNodeAt, setNode_active, setNode_start]
  rw [if_pos hlt, if_neg (by omega), if_pos hact, if_pos hns]

/-- Removing an isolated self-linked slot while the chain has two or more
nodes: only the callback is cleared (the double-removal guard). -/
theorem removeNodeAt_isolated2_spec (s : Scheduler) (idx : Nat)
    (hlt : idx < s.maxNodes) (hact : 1 < s.mActiveNodes)
    (hns : idx ≠ s.mNodeStartIdx) (hne : idx ≠ s.mNodeEndIdx)
    (hprev : (s.node idx).previousNodeIdx = idx)
    (hnext : (s.node idx).nextNodeIdx = idx)
    (hilen : idx < s.nodes.length) :
    removeNodeAt s idx = s.setNode idx { s.node idx with callback := none } := by
  simp only [removeNodeAt, setNode_active, setNode_start, setNode_end]
  rw [if_pos hlt, if_pos hact, if_neg hns, if_neg hne,
    node_set_self s idx _ hilen, if_pos ⟨hprev, hnext⟩]

/-- Removing the chain head when the chain has two or more nodes: the
successor `b` becomes head and self-referential on its previous link, and the
removed head's remaining delta is folded into `b`'s delta. -/
theorem removeNodeAt_head_spec (s : Scheduler) (idx b : Nat)
    (hlt : idx < s.maxNodes) (hact : 1 < s.mActiveNodes)
    (hstart : idx = s.mNodeStartIdx)
    (hb : (s.node idx).nextNodeIdx = b) (hbne : b ≠ idx)
    (hilen : idx < s.nodes.length) (hblen : b < s.nodes.length) :
    removeNodeAt s idx =
      ({ s.setNode idx { s.node idx with callback := none } with
          mActiveNodes := s.mActiveNodes - 1,
          mNodeStartIdx := b }).setNode b
        { s.node b with
          previousNodeIdx := b,
          delayToPrevious :=
            ((s.node b).delayToPrevious + (s.node idx).delayToPrevious) % u32Mod } := by
  simp only [removeNodeAt, setNode_active, setNode_start]
  rw [if_pos hlt, if_pos hact, if_pos hstart]
  have hib : idx ≠ b := Ne.symm hbne
  rw [← hstart]
  simp only [node_set_self s idx _ hilen, hb]
  simp only [Scheduler.setNode, Scheduler.node]
  simp [getD_set_eq, getD_set_ne, hb, hbne, hib, List.set_set, hilen, hblen]

/-- Removing the chain tail when the chain has two or more nodes: the
predecessor `p` becomes tail and self-referential on its next link; no delta
changes. -/
theorem removeNodeAt_tail_spec (s : Scheduler) (idx p : Nat)
    (hlt : idx < s.maxNodes) (hact : 1 < s.mActiveNodes)
    (hns : idx ≠ s.mNodeStartIdx) (hend : idx = s.mNodeEndIdx)
    (hp : (s.node idx).previousNodeIdx = p) (hpne : p ≠ idx)
    (hilen : idx < s.nodes.length) (hplen : p < s.nodes.length) :
    removeNodeAt s idx =
      { (s.setNode idx { s.node idx with callback := none }).setNode p
          { s.node p with nextNodeIdx := p } with
        mNodeEndIdx := p,
        mActiveNodes := s.mActiveNodes - 1 } := by
  simp only [removeNodeAt, setNode_active, setNode_start, setNode_end]
  rw [if_pos hlt, if_pos hact, if_neg hns, if_pos hend]
  have hip : idx ≠ p := Ne.symm hpne
  simp only [node_set_self s idx _ hilen, hp]
  simp only [Scheduler.setNode, Scheduler.node]
  simp [getD_set_eq, getD_set_ne, hp, hpne, hip, List.set_set, hilen, hplen]

/-- Removing an interior node (neither head nor tail, properly linked): the
neighbours are spliced together and the removed delta is folded into the
successor's delta. -/
theorem removeNodeAt_mid_spec (s : Scheduler) (idx p b : Nat)
    (hlt : idx < s.maxNodes) (hact : 1 < s.mActiveNodes)
    (hns : idx ≠ s.mNodeStartIdx) (hne : idx ≠ s.mNodeEndIdx)
    (hp : (s.node idx).previousNodeIdx = p) (hb : (s.node idx).nextNodeIdx = b)
    (hpne : p ≠ idx) (hbne : b ≠ idx) (hpb : p ≠ b)
    (hilen : idx < s.nodes.length) (hplen : p < s.nodes.length)
    (hblen : b < s.nodes.length) :
    removeNodeAt s idx =
      { ((s.setNode idx { s.node idx with callback := none }).setNode p
          { s.node p with nextNodeIdx := b }).setNode b
          { s.node b with
            previousNodeIdx := p,
            delayToPrevious :=
              ((s.node b).delayToPrevious + (s.node idx).delayToPrevious) % u32Mod } with
        mActiveNodes := s.mActiveNodes - 1 } := by
  simp only [removeNodeAt, setNode_active, setNode_start, setNode_end]
  rw [if_pos hlt, if_pos hact, if_neg hns, if_neg hne]
  have hip : idx ≠ p := Ne.symm hpne
  have hib : idx ≠ b := Ne.symm hbne
  have hbp : b ≠ p := Ne.symm hpb
  simp only [node_set_self s idx _ hilen, hp, hb]
  rw [if_neg (fun hcon => hpne hcon.1)]
  simp only [Scheduler.setNode, Scheduler.node]
  simp [getD_set_eq, getD_set_ne, hp, hb, hpne, hbne, hip, hib, hpb, hbp,
    List.set_set, hilen, hplen, hblen]

/-! ### Representation preservation of `removeNodeAt` on a chain member -/

/-- Bumping the head delta by `d` bumps every member's cumulative delta
by `d`. -/
theorem cumOf_head_bump (s s' : Scheduler) (b : Nat) (B : List Nat) (d : Nat)
    (hb : nodeDelta s' b = d + nodeDelta s b)
    (hB : ∀ i ∈ B, nodeDelta s' i = nodeDelta s i) (j : Nat) :
    cumOf s' (b :: B) j = d + cumOf s (b :: B) j := by
  rw [cumOf_cons, cumOf_cons, hb]
  by_cases hbj : b = j
  · rw [if_pos hbj, if_pos hbj]
  · rw [if_neg hbj, if_neg hbj, cumOf_congr s s' B j hB, Nat.add_assoc]

/-- The combined postcondition of removing chain member `idx`: the chain
becomes `l.erase idx`, `mActiveNodes` tracks it, only `idx`'s callback
changes among callbacks, reload and generation fields are untouched, the
cumulative deltas of the surviving members are preserved, and the scalar
bookkeeping other than the cursors is untouched. -/
def RemovedFrom (s s' : Scheduler) (l : List Nat) (idx : Nat) : Prop :=
  RepC s' (l.erase idx)
  ∧ s'.mActiveNodes = (l.erase idx).length
  ∧ (∀ j, (s'.node j).callback = if j = idx then none else (s.node j).callback)
  ∧ (∀ j, (s'.node j).reload = (s.node j).reload)
  ∧ (∀ j, (s'.node j).usedCounter = (s.node j).usedCounter)
  ∧ (∀ j ∈ l.erase idx, cumOf s' (l.erase idx) j = cumOf s l j)
  ∧ s'.maxNodes = s.maxNodes
  ∧ s'.mProceedingTime = s.mProceedingTime
  ∧ s'.mActiveNodesWaterMark = s.mActiveNodesWaterMark
  ∧ s'.nodes.length = s.nodes.length

theorem removeRep_head (s : Scheduler) (idx b : Nat) (B' : List Nat)
    (hr : RepC s (idx :: b :: B'))
    (hlen : s.mActiveNodes = (idx :: b :: B').length) :
    RemovedFrom s (removeNodeAt s idx) (idx :: b :: B') idx := by
  have hidxnot : idx ∉ b :: B' := (List.nodup_cons.mp hr.nodup).1
  have hbne : b ≠ idx := fun hcon => hidxnot (hcon ▸ List.mem_cons_self b B')
  have hib : idx ≠ b := Ne.symm hbne
  have hstart : idx = s.mNodeStartIdx := hr.head_start idx (by simp)
  have hlink := (List.chain'_cons.mp hr.links).1
  have hb : (s.node idx).nextNodeIdx = b := hlink.1
  have hilt : idx < s.maxNodes := hr.memlt idx (by simp)
  have hilen : idx < s.nodes.length := by rw [hr.len]; exact hilt
  have hblen : b < s.nodes.length := by rw [hr.len]; exact hr.memlt b (by simp)
  have hact : 1 < s.mActiveNodes := by rw [hlen]; simp
  have hspec := removeNodeAt_head_spec s idx b hilt hact hstart hb hbne hilen hblen
  have hNidx : (removeNodeAt s idx).node idx = { s.node idx with callback := none } := by
    rw [hspec, node_set_ne _ _ _ _ hib]
    exact node_set_self s idx _ hilen
  have hNb : (removeNodeAt s idx).node b
      = { s.node b with
          previousNodeIdx := b,
          delayToPrevious :=
            ((s.node b).delayToPrevious + (s.node idx).delayToPrevious) % u32Mod } := by
    rw [hspec]
    exact node_set_self _ b _ (by simpa using hblen)
  have hNother : ∀ j, j ≠ idx → j ≠ b → (removeNodeAt s idx).node j = s.node j := by
    intro j h1 h2
    rw [hspec, node_set_ne _ _ _ _ h2]
    exact node_set_ne s idx j _ h1
  have hAct : (removeNodeAt s idx).mActiveNodes = s.mActiveNodes - 1 := by rw [hspec]; rfl
  have hStart : (removeNodeAt s idx).mNodeStartIdx = b := by rw [hspec]; rfl
  have hEnd : (removeNodeAt s idx).mNodeEndIdx = s.mNodeEndIdx := by rw [hspec]; rfl
  have hMax : (removeNodeAt s idx).maxNodes = s.maxNodes := by rw [hspec]; rfl
  have hPT : (removeNodeAt s idx).mProceedingTime = s.mProceedingTime := by rw [hspec]; rfl
  have hWM : (removeNodeAt s idx).mActiveNodesWaterMark = s.mActiveNodesWaterMark := by
    rw [hspec]; rfl
  have hLen : (removeNodeAt s idx).nodes.length = s.nodes.length := by rw [hspec]; simp
  have hsum : sumD s (idx :: b :: B')
      = nodeDelta s idx + (nodeDelta s b + sumD s B') := by
    rw [sumD_cons, sumD_cons]
  have hmod : ((s.node b).delayToPrevious + (s.node idx).delayToPrevious) % u32Mod
      = nodeDelta s b + nodeDelta s idx := by
    have hle : nodeDelta s b + nodeDelta s idx ≤ sumD s (idx :: b :: B') := by
      rw [hsum]; omega
    exact Nat.mod_eq_of_lt (lt_of_le_of_lt hle hr.sumlt)
  have hdb : nodeDelta (removeNodeAt s idx) b = nodeDelta s idx + nodeDelta s b := by
    rw [nodeDelta, hNb]
    dsimp only
    rw [hmod]
    exact Nat.add_comm _ _
  have hdother : ∀ j ∈ B', nodeDelta (removeNodeAt s idx) j = nodeDelta s j := by
    intro j hj
    have hj1 : j ≠ idx := fun hcon => hidxnot (hcon ▸ List.mem_cons_of_mem b hj)
    have hj2 : j ≠ b := fun hcon =>
      (List.nodup_cons.mp (hr.nodup.of_cons)).1 (hcon ▸ hj)
    simp only [nodeDelta]
    rw [hNother j hj1 hj2]
  have hcb : ∀ j, ((removeNodeAt s idx).node j).callback
      = if j = idx then none else (s.node j).callback := by
    intro j
    by_cases h1 : j = idx
    · rw [if_pos h1, h1, hNidx]
    · rw [if_neg h1]
      by_cases h2 : j = b
      · rw [h2, hNb]
      · rw [hNother j h1 h2]
  have hrel : ∀ j, ((removeNodeAt s idx).node j).reload = (s.node j).reload := by
    intro j
    by_cases h1 : j = idx
    · rw [h1, hNidx]
    · by_cases h2 : j = b
      · rw [h2, hNb]
      · rw [hNother j h1 h2]
  have hctr : ∀ j, ((removeNodeAt s idx).node j).usedCounter = (s.node j).usedCounter := by
    intro j
    by_cases h1 : j = idx
    · rw [h1, hNidx]
    · by_cases h2 : j = b
      · rw [h2, hNb]
      · rw [hNother j h1 h2]
  have herase : (idx :: b :: B').erase idx = b :: B' := List.erase_cons_head idx _
  rw [RemovedFrom, herase]
  have hsum' : sumD (removeNodeAt s idx) (b :: B') = sumD s (idx :: b :: B') := by
    rw [sumD_cons, hdb, sumD_congr s (removeNodeAt s idx) B' hdother, hsum,
      Nat.add_assoc]
  refine ⟨?_, ?_, hcb, hrel, hctr, ?_, hMax, hPT, hWM, hLen⟩
  · refine
      { len := by rw [hLen, hMax]; exact hr.len
        maxpos := by rw [hMax]; exact hr.maxpos
        maxle := by rw [hMax]; exact hr.maxle
        nodup := hr.nodup.of_cons
        memlt := fun i hi => by rw [hMax]; exact hr.memlt i (List.mem_cons_of_mem idx hi)
        startlt := by rw [hStart, hMax]; exact hr.memlt b (by simp)
        endlt := by rw [hEnd, hMax]; exact hr.endlt
        head_start := ?_
        last_end := ?_
        empty_se := fun hcon => by simp at hcon
        links := ?_
        head_prev := ?_
        last_next := ?_
        sumlt := by rw [hsum']; exact hr.sumlt
        reloadlt := fun i hi => by
          rw [hrel i]; exact hr.reloadlt i (List.mem_cons_of_mem idx hi) }
    · intro a ha
      simp only [List.head?_cons, Option.mem_def, Option.some.injEq] at ha
      rw [← ha, hStart]
    · intro a ha
      rw [hEnd]
      exact hr.last_end a (by rw [List.getLast?_cons_cons]; exact ha)
    · refine chain'_of_congr s (removeNodeAt s idx) (b :: B')
        (List.chain'_cons.mp hr.links).2 ?_ ?_
      · intro a ha
        have hamem : a ∈ b :: B' := List.mem_of_mem_dropLast ha
        have h1 : a ≠ idx := fun hcon => hidxnot (hcon ▸ hamem)
        by_cases h2 : a = b
        · rw [h2, hNb]
        · rw [hNother a h1 h2]
      · intro a ha
        have h1 : a ≠ idx := fun hcon => hidxnot (hcon ▸ List.mem_cons_of_mem b ha)
        have h2 : a ≠ b := fun hcon =>
          (List.nodup_cons.mp (hr.nodup.of_cons)).1 (hcon ▸ ha)
        rw [hNother a h1 h2]
    · intro a ha
      simp only [List.head?_cons, Option.mem_def, Option.some.injEq] at ha
      rw [← ha, hNb]
    · intro a ha
      have hamem : a ∈ b :: B' := List.mem_of_mem_getLast? ha
      have horig : (s.node a).nextNodeIdx = a :=
        hr.last_next a (by rw [List.getLast?_cons_cons]; exact ha)
      have h1 : a ≠ idx := fun hcon => hidxnot (hcon ▸ hamem)
      by_cases h2 : a = b
      · rw [h2] at horig ⊢
        rw [hNb]
        exact horig
      · rw [hNother a h1 h2]
        exact horig
  · rw [hAct, hlen]
    simp
  · intro j hj
    have hj1 : j ≠ idx := fun hcon => hidxnot (hcon ▸ hj)
    have hbump := cumOf_head_bump s (removeNodeAt s idx) b B'
      (nodeDelta s idx) hdb hdother j
    rw [hbump, cumOf_cons s idx (b :: B') j, if_neg (fun hcon => hj1 hcon.symm)]

theorem getLast_not_mem_dropLast (A : List Nat) (h : A.Nodup) (hne : A ≠ []) :
    A.getLast hne ∉ A.dropLast := by
  have hsplit := List.dropLast_append_getLast hne
  have hnd : (A.dropLast ++ [A.getLast hne]).Nodup := by rw [hsplit]; exact h
  have hd := (List.nodup_append.mp hnd).2.2
  intro hmem
  exact hd hmem (by simp)

theorem removeRep_tail (s : Scheduler) (idx : Nat) (A : List Nat) (hA : A ≠ [])
    (hr : RepC s (A ++ [idx])) (hlen : s.mActiveNodes = (A ++ [idx]).length) :
    RemovedFrom s (removeNodeAt s idx) (A ++ [idx]) idx := by
  have hnd := List.nodup_append.mp hr.nodup
  have hidxA : idx ∉ A := fun hmem => hnd.2.2 hmem (by simp)
  set p := A.getLast hA with hpdef
  have hplast : A.getLast? = some p := List.getLast?_eq_getLast A hA
  have hpA : p ∈ A := List.getLast_mem hA
  have hglue := (List.chain'_append.mp hr.links).2.2
  have hlinkp : linkRel s p idx := by
    refine hglue p ?_ idx ?_ <;> simp [hplast]
  have hp : (s.node idx).previousNodeIdx = p := hlinkp.2
  have hpne : p ≠ idx := fun hcon => hidxA (hcon ▸ hpA)
  have hstartA : ∀ a ∈ A.head?, a = s.mNodeStartIdx := by
    intro a ha
    exact hr.head_start a (by rw [List.head?_append_of_ne_nil A hA]; exact ha)
  have ha0 : A.head? = some (A.head hA) := List.head?_eq_head hA
  have hns : idx ≠ s.mNodeStartIdx := by
    intro hcon
    have h0 : A.head hA = s.mNodeStartIdx := hstartA (A.head hA) (by rw [ha0]; rfl)
    have hh : A.head hA = idx := by rw [h0, ← hcon]
    exact hidxA (hh ▸ List.head_mem hA)
  have hend : idx = s.mNodeEndIdx :=
    hr.last_end idx (by rw [List.getLast?_concat]; rfl)
  have hilt : idx < s.maxNodes := hr.memlt idx (by simp)
  have hilen : idx < s.nodes.length := by rw [hr.len]; exact hilt
  have hplen : p < s.nodes.length := by
    rw [hr.len]; exact hr.memlt p (by simp [hpA])
  have hact : 1 < s.mActiveNodes := by
    rw [hlen, List.length_append]
    have : 0 < A.length := List.length_pos.mpr hA
    simp; omega
  have hspec := removeNodeAt_tail_spec s idx p hilt hact hns hend hp hpne hilen hplen
  have hip : idx ≠ p := Ne.symm hpne
  have hNidx : (removeNodeAt s idx).node idx = { s.node idx with callback := none } := by
    rw [hspec]
    show ((s.setNode idx _).setNode p _).node idx = _
    rw [node_set_ne _ _ _ _ hip]
    exact node_set_self s idx _ hilen
  have hNp : (removeNodeAt s idx).node p = { s.node p with nextNodeIdx := p } := by
    rw [hspec]
    show ((s.setNode idx _).setNode p _).node p = _
    rw [node_set_self _ p _ (by simpa using hplen)]
  have hNother : ∀ j, j ≠ idx → j ≠ p → (removeNodeAt s idx).node j = s.node j := by
    intro j h1 h2
    rw [hspec]
    show ((s.setNode idx _).setNode p _).node j = _
    rw [node_set_ne _ _ _ _ h2]
    exact node_set_ne s idx j _ h1
  have hAct : (removeNodeAt s idx).mActiveNodes = s.mActiveNodes - 1 := by rw [hspec]
  have hStart : (removeNodeAt s idx).mNodeStartIdx = s.mNodeStartIdx := by rw [hspec]; rfl
  have hEnd : (removeNodeAt s idx).mNodeEndIdx = p := by rw [hspec]
  have hMax : (removeNodeAt s idx).maxNodes = s.maxNodes := by rw [hspec]; rfl
  have hPT : (removeNodeAt s idx).mProceedingTime = s.mProceedingTime := by rw [hspec]; rfl
  have hWM : (removeNodeAt s idx).mActiveNodesWaterMark = s.mActiveNodesWaterMark := by
    rw [hspec]; rfl
  have hLen : (removeNodeAt s idx).nodes.length = s.nodes.length := by rw [hspec]; simp
  have hdall : ∀ j ∈ A, nodeDelta (removeNodeAt s idx) j = nodeDelta s j := by
    intro j hj
    have h1 : j ≠ idx := fun hcon => hidxA (hcon ▸ hj)
    by_cases h2 : j = p
    · simp only [nodeDelta]
      rw [h2, hNp]
    · simp only [nodeDelta]
      rw [hNother j h1 h2]
  have hcb : ∀ j, ((removeNodeAt s idx).node j).callback
      = if j = idx then none else (s.node j).callback := by
    intro j
    by_cases h1 : j = idx
    · rw [if_pos h1, h1, hNidx]
    · rw [if_neg h1]
      by_cases h2 : j = p
      · rw [h2, hNp]
      · rw [hNother j h1 h2]
  have hrel : ∀ j, ((removeNodeAt s idx).node j).reload = (s.node j).reload := by
    intro j
    by_cases h1 : j = idx
    · rw [h1, hNidx]
    · by_cases h2 : j = p
      · rw [h2, hNp]
      · rw [hNother j h1 h2]
  have hctr : ∀ j, ((removeNodeAt s idx).node j).usedCounter = (s.node j).usedCounter := by
    intro j
    by_cases h1 : j = idx
    · rw [h1, hNidx]
    · by_cases h2 : j = p
      · rw [h2, hNp]
      · rw [hNother j h1 h2]
  have herase : (A ++ [idx]).erase idx = A := by
    rw [List.erase_append_right [idx] hidxA, List.erase_cons_head, List.append_nil]
  rw [RemovedFrom, herase]
  have hsum' : sumD (removeNodeAt s idx) A = sumD s A := sumD_congr s _ A hdall
  have hsumle : sumD s A ≤ sumD s (A ++ [idx]) := by
    rw [sumD_append]; exact Nat.le_add_right _ _
  refine ⟨?_, ?_, hcb, hrel, hctr, ?_, hMax, hPT, hWM, hLen⟩
  · refine
      { len := by rw [hLen, hMax]; exact hr.len
        maxpos := by rw [hMax]; exact hr.maxpos
        maxle := by rw [hMax]; exact hr.maxle
        nodup := hnd.1
        memlt := fun i hi => by rw [hMax]; exact hr.memlt i (by simp [hi])
        startlt := by rw [hStart, hMax]; exact hr.startlt
        endlt := by rw [hEnd, hMax]; exact hr.memlt p (by simp [hpA])
        head_start := fun a ha => by rw [hStart]; exact hstartA a ha
        last_end := ?_
        empty_se := fun hcon => absurd hcon hA
        links := ?_
        head_prev := ?_
        last_next := ?_
        sumlt := by rw [hsum']; exact lt_of_le_of_lt hsumle hr.sumlt
        reloadlt := fun i hi => by
          rw [hrel i]; exact hr.reloadlt i (by simp [hi]) }
    · intro a ha
      rw [hEnd]
      rw [hplast] at ha
      exact (by simpa using ha : p = a).symm
    · refine chain'_of_congr s (removeNodeAt s idx) A
        (List.chain'_append.mp hr.links).1 ?_ ?_
      · intro a ha
        have hamem : a ∈ A := List.mem_of_mem_dropLast ha
        have h1 : a ≠ idx := fun hcon => hidxA (hcon ▸ hamem)
        have h2 : a ≠ p := fun hcon =>
          getLast_not_mem_dropLast A hnd.1 hA (hcon.symm ▸ ha : p ∈ A.dropLast)
        rw [hNother a h1 h2]
      · intro a ha
        have hamem : a ∈ A := List.mem_of_mem_tail ha
        have h1 : a ≠ idx := fun hcon => hidxA (hcon ▸ hamem)
        by_cases h2 : a = p
        · rw [h2, hNp]
        · rw [hNother a h1 h2]
    · intro a ha
      have hamem : a ∈ A := by
        have := List.mem_of_mem_head? ha
        exact this
      have h1 : a ≠ idx := fun hcon => hidxA (hcon ▸ hamem)
      have horig : (s.node a).previousNodeIdx = a :=
        hr.head_prev a (by rw [List.head?_append_of_ne_nil A hA]; exact ha)
      by_cases h2 : a = p
      · rw [h2] at horig ⊢
        rw [hNp]
        exact horig
      · rw [hNother a h1 h2]
        exact horig
    · intro a ha
      rw [hplast] at ha
      have hap : a = p := (by simpa using ha : p = a).symm
      rw [hap, hNp]
  · rw [hAct, hlen, List.length_append]
    simp
  · intro j hj
    rw [cumOf_congr s (removeNodeAt s idx) A j hdall]
    exact (cumOf_append_left s A [idx] j hj).symm

theorem removeRep_mid (s : Scheduler) (idx b : Nat) (A B' : List Nat) (hA : A ≠ [])
    (hr : RepC s (A ++ idx :: b :: B'))
    (hlen : s.mActiveNodes = (A ++ idx :: b :: B').length) :
    RemovedFrom s (removeNodeAt s idx) (A ++ idx :: b :: B') idx := by
  have hnd := List.nodup_append.mp hr.nodup
  have hidxA : idx ∉ A := fun h => hnd.2.2 h (by simp)
  have hbA : b ∉ A := fun h => hnd.2.2 h (by simp)
  have hidxR : idx ∉ b :: B' := (List.nodup_cons.mp hnd.2.1).1
  have hbne : b ≠ idx := fun hcon => hidxR (hcon ▸ List.mem_cons_self b B')
  have hib : idx ≠ b := Ne.symm hbne
  have hbB' : b ∉ B' := (List.nodup_cons.mp hnd.2.1.of_cons).1
  set p := A.getLast hA with hpdef
  have hplast : A.getLast? = some p := List.getLast?_eq_getLast A hA
  have hpA : p ∈ A := List.getLast_mem hA
  have hpne : p ≠ idx := fun hcon => hidxA (hcon ▸ hpA)
  have hpb : p ≠ b := fun hcon => hbA (hcon ▸ hpA)
  have hsplit := List.chain'_append.mp hr.links
  have hlinkp : linkRel s p idx := by
    refine hsplit.2.2 p ?_ idx ?_ <;> simp [hplast]
  have hp : (s.node idx).previousNodeIdx = p := hlinkp.2
  have hb : (s.node idx).nextNodeIdx = b := (List.chain'_cons.mp hsplit.2.1).1.1
  have hstartA : ∀ a ∈ A.head?, a = s.mNodeStartIdx := by
    intro a ha
    exact hr.head_start a (by rw [List.head?_append_of_ne_nil A hA]; exact ha)
  have ha0 : A.head? = some (A.head hA) := List.head?_eq_head hA
  have hns : idx ≠ s.mNodeStartIdx := by
    intro hcon
    have h0 : A.head hA = s.mNodeStartIdx := hstartA (A.head hA) (by rw [ha0]; rfl)
    have hh : A.head hA = idx := by rw [h0, ← hcon]
    exact hidxA (hh ▸ List.head_mem hA)
  have hlastl : (A ++ idx :: b :: B').getLast? = (b :: B').getLast? := by
    rw [List.getLast?_append_of_ne_nil A (by simp), List.getLast?_cons_cons]
  have hqlast : (b :: B').getLast? = some ((b :: B').getLast (by simp)) :=
    List.getLast?_eq_getLast _ _
  have hendq : (b :: B').getLast (by simp) = s.mNodeEndIdx :=
    hr.last_end _ (by rw [hlastl, hqlast]; rfl)
  have hne : idx ≠ s.mNodeEndIdx := by
    intro hcon
    have : idx ∈ b :: B' := by
      rw [show idx = (b :: B').getLast (by simp) from by rw [hendq, hcon]]
      exact List.getLast_mem _
    exact hidxR this
  have hilt : idx < s.maxNodes := hr.memlt idx (by simp)
  have hilen : idx < s.nodes.length := by rw [hr.len]; exact hilt
  have hplen : p < s.nodes.length := by
    rw [hr.len]; exact hr.memlt p (by simp [hpA])
  have hblen : b < s.nodes.length := by rw [hr.len]; exact hr.memlt b (by simp)
  have hact : 1 < s.mActiveNodes := by
    rw [hlen, List.length_append]
    simp; omega
  have hspec := removeNodeAt_mid_spec s idx p b hilt hact hns hne hp hb
    hpne hbne hpb hilen hplen hblen
  have hip : idx ≠ p := Ne.symm hpne
  have hbp : b ≠ p := Ne.symm hpb
  have hNidx : (removeNodeAt s idx).node idx = { s.node idx with callback := none } := by
    rw [hspec]
    show (((s.setNode idx _).setNode p _).setNode b _).node idx = _
    rw [node_set_ne _ _ _ _ hib, node_set_ne _ _ _ _ hip]
    exact node_set_self s idx _ hilen
  have hNp : (removeNodeAt s idx).node p = { s.node p with nextNodeIdx := b } := by
    rw [hspec]
    show (((s.setNode idx _).setNode p _).setNode b _).node p = _
    rw [node_set_ne _ _ _ _ hpb]
    exact node_set_self _ p _ (by simpa using hplen)
  have hNb : (removeNodeAt s idx).node b
      = { s.node b with
          previousNodeIdx := p,
          delayToPrevious :=
            ((s.node b).delayToPrevious + (s.node idx).delayToPrevious) % u32Mod } := by
    rw [hspec]
    show (((s.setNode idx _).setNode p _).setNode b _).node b = _
    exact node_set_self _ b _ (by simpa using hblen)
  have hNother : ∀ j, j ≠ idx → j ≠ p → j ≠ b → (removeNodeAt s idx).node j = s.node j := by
    intro j h1 h2 h3
    rw [hspec]
    show (((s.setNode idx _).setNode p _).setNode b _).node j = _
    rw [node_set_ne _ _ _ _ h3, node_set_ne _ _ _ _ h2]
    exact node_set_ne s idx j _ h1
  have hAct : (removeNodeAt s idx).mActiveNodes = s.mActiveNodes - 1 := by rw [hspec]
  have hStart : (removeNodeAt s idx).mNodeStartIdx = s.mNodeStartIdx := by rw [hspec]; rfl
  have hEnd : (removeNodeAt s idx).mNodeEndIdx = s.mNodeEndIdx := by rw [hspec]; rfl
  have hMax : (removeNodeAt s idx).maxNodes = s.maxNodes := by rw [hspec]; rfl
  have hPT : (removeNodeAt s idx).mProceedingTime = s.mProceedingTime := by rw [hspec]; rfl
  have hWM : (removeNodeAt s idx).mActiveNodesWaterMark = s.mActiveNodesWaterMark := by
    rw [hspec]; rfl
  have hLen : (removeNodeAt s idx).nodes.length = s.nodes.length := by rw [hspec]; simp
  have hsum : sumD s (A ++ idx :: b :: B')
      = sumD s A + (nodeDelta s idx + (nodeDelta s b + sumD s B')) := by
    rw [sumD_append, sumD_cons, sumD_cons]
  have hmod : ((s.node b).delayToPrevious + (s.node idx).delayToPrevious) % u32Mod
      = nodeDelta s b + nodeDelta s idx := by
    have hle : nodeDelta s b + nodeDelta s idx ≤ sumD s (A ++ idx :: b :: B') := by
      rw [hsum]; omega
    exact Nat.mod_eq_of_lt (lt_of_le_of_lt hle hr.sumlt)
  have hdb : nodeDelta (removeNodeAt s idx) b = nodeDelta s idx + nodeDelta s b := by
    rw [nodeDelta, hNb]
    dsimp only
    rw [hmod]
    exact Nat.add_comm _ _
  have hdA : ∀ j ∈ A, nodeDelta (removeNodeAt s idx) j = nodeDelta s j := by
    intro j hj
    have h1 : j ≠ idx := fun hcon => hidxA (hcon ▸ hj)
    have h3 : j ≠ b := fun hcon => hbA (hcon ▸ hj)
    by_cases h2 : j = p
    · simp only [nodeDelta]
      rw [h2, hNp]
    · simp only [nodeDelta]
      rw [hNother j h1 h2 h3]
  have hdB' : ∀ j ∈ B', nodeDelta (removeNodeAt s idx) j = nodeDelta s j := by
    intro j hj
    have h1 : j ≠ idx := fun hcon => hidxR (hcon ▸ List.mem_cons_of_mem b hj)
    have h2 : j ≠ p := fun hcon =>
      hnd.2.2 (hcon ▸ hpA) (List.mem_cons_of_mem idx (List.mem_cons_of_mem b hj))
    have h3 : j ≠ b := fun hcon => hbB' (hcon ▸ hj)
    simp only [nodeDelta]
    rw [hNother j h1 h2 h3]
  have hcb : ∀ j, ((removeNodeAt s idx).node j).callback
      = if j = idx then none else (s.node j).callback := by
    intro j
    by_cases h1 : j = idx
    · rw [if_pos h1, h1, hNidx]
    · rw [if_neg h1]
      by_cases h2 : j = p
      · rw [h2, hNp]
      · by_cases h3 : j = b
        · rw [h3, hNb]
        · rw [hNother j h1 h2 h3]
  have hrel : ∀ j, ((removeNodeAt s idx).node j).reload = (s.node j).reload := by
    intro j
    by_cases h1 : j = idx
    · rw [h1, hNidx]
    · by_cases h2 : j = p
      · rw [h2, hNp]
      · by_cases h3 : j = b
        · rw [h3, hNb]
        · rw [hNother j h1 h2 h3]
  have hctr : ∀ j, ((removeNodeAt s idx).node j).usedCounter = (s.node j).usedCounter := by
    intro j
    by_cases h1 : j = idx
    · rw [h1, hNidx]
    · by_cases h2 : j = p
      · rw [h2, hNp]
      · by_cases h3 : j = b
        · rw [h3, hNb]
        · rw [hNother j h1 h2 h3]
  have herase : (A ++ idx :: b :: B').erase idx = A ++ b :: B' := by
    rw [List.erase_append_right _ hidxA, List.erase_cons_head]
  rw [RemovedFrom, herase]
  have hsumB' : sumD (removeNodeAt s idx) B' = sumD s B' := sumD_congr s _ B' hdB'
  have hsumA : sumD (removeNodeAt s idx) A = sumD s A := sumD_congr s _ A hdA
  have hsum' : sumD (removeNodeAt s idx) (A ++ b :: B') = sumD s (A ++ idx :: b :: B') := by
    rw [sumD_append, sumD_cons, hsumA, hsumB', hdb, hsum]
    omega
  refine ⟨?_, ?_, hcb, hrel, hctr, ?_, hMax, hPT, hWM, hLen⟩
  · refine
      { len := by rw [hLen, hMax]; exact hr.len
        maxpos := by rw [hMax]; exact hr.maxpos
        maxle := by rw [hMax]; exact hr.maxle
        nodup := by
          have := hr.nodup.erase idx
          rwa [herase] at this
        memlt := ?_
        startlt := by rw [hStart, hMax]; exact hr.startlt
        endlt := by rw [hEnd, hMax]; exact hr.endlt
        head_start := ?_
        last_end := ?_
        empty_se := fun hcon => absurd hcon (by simp)
        links := ?_
        head_prev := ?_
        last_next := ?_
        sumlt := by rw [hsum']; exact hr.sumlt
        reloadlt := ?_ }
    · intro i hi
      rw [hMax]
      rcases List.mem_append.mp hi with h | h
      · exact hr.memlt i (List.mem_append_left _ h)
      · exact hr.memlt i
          (List.mem_append_right _ (List.mem_cons_of_mem idx h))
    · intro a ha
      rw [hStart]
      exact hstartA a (by rwa [List.head?_append_of_ne_nil A hA] at ha)
    · intro a ha
      rw [hEnd]
      rw [List.getLast?_append_of_ne_nil A (by simp)] at ha
      exact hr.last_end a (by rw [hlastl]; exact ha)
    · rw [List.chain'_append]
      refine ⟨?_, ?_, ?_⟩
      · refine chain'_of_congr s (removeNodeAt s idx) A hsplit.1 ?_ ?_
        · intro a ha
          have hamem : a ∈ A := List.mem_of_mem_dropLast ha
          have h1 : a ≠ idx := fun hcon => hidxA (hcon ▸ hamem)
          have h3 : a ≠ b := fun hcon => hbA (hcon ▸ hamem)
          have h2 : a ≠ p := fun hcon =>
            getLast_not_mem_dropLast A hnd.1 hA (hcon.symm ▸ ha : p ∈ A.dropLast)
          rw [hNother a h1 h2 h3]
        · intro a ha
          have hamem : a ∈ A := List.mem_of_mem_tail ha
          have h1 : a ≠ idx := fun hcon => hidxA (hcon ▸ hamem)
          have h3 : a ≠ b := fun hcon => hbA (hcon ▸ hamem)
          by_cases h2 : a = p
          · rw [h2, hNp]
          · rw [hNother a h1 h2 h3]
      · refine chain'_of_congr s (removeNodeAt s idx) (b :: B')
          (List.chain'_cons.mp hsplit.2.1).2 ?_ ?_
        · intro a ha
          have hamem : a ∈ b :: B' := List.mem_of_mem_dropLast ha
          have h1 : a ≠ idx := fun hcon => hidxR (hcon ▸ hamem)
          have h2 : a ≠ p := fun hcon =>
            hnd.2.2 (hcon ▸ hpA) (List.mem_cons_of_mem idx hamem)
          by_cases h3 : a = b
          · rw [h3, hNb]
          · rw [hNother a h1 h2 h3]
        · intro a ha
          have hamem : a ∈ b :: B' := List.mem_cons_of_mem b ha
          have h1 : a ≠ idx := fun hcon => hidxR (hcon ▸ hamem)
          have h2 : a ≠ p := fun hcon =>
            hnd.2.2 (hcon ▸ hpA) (List.mem_cons_of_mem idx hamem)
          have h3 : a ≠ b := fun hcon => hbB' (hcon ▸ ha)
          rw [hNother a h1 h2 h3]
      · intro x hx y hy
        rw [hplast] at hx
        have hxp : x = p := (by simpa using hx : p = x).symm
        have hyb : y = b := by
          simp only [List.head?_cons, Option.mem_def, Option.some.injEq] at hy
          exact hy.symm
        subst hxp
        subst hyb
        constructor
        · rw [hNp]
        · rw [hNb]
    · intro a ha
      rw [List.head?_append_of_ne_nil A hA] at ha
      have hamem : a ∈ A := List.mem_of_mem_head? ha
      have h1 : a ≠ idx := fun hcon => hidxA (hcon ▸ hamem)
      have h3 : a ≠ b := fun hcon => hbA (hcon ▸ hamem)
      have horig : (s.node a).previousNodeIdx = a :=
        hr.head_prev a (by rw [List.head?_append_of_ne_nil A hA]; exact ha)
      by_cases h2 : a = p
      · rw [h2] at horig ⊢
        rw [hNp]
        exact horig
      · rw [hNother a h1 h2 h3]
        exact horig
    · intro a ha
      rw [List.getLast?_append_of_ne_nil A (by simp)] at ha
      have hamem : a ∈ b :: B' := List.mem_of_mem_getLast? ha
      have h1 : a ≠ idx := fun hcon => hidxR (hcon ▸ hamem)
      have h2 : a ≠ p := fun hcon =>
        hnd.2.2 (hcon ▸ hpA) (List.mem_cons_of_mem idx hamem)
      have horig : (s.node a).nextNodeIdx = a :=
        hr.last_next a (by rw [hlastl]; exact ha)
      by_cases h3 : a = b
      · rw [h3] at horig ⊢
        rw [hNb]
        exact horig
      · rw [hNother a h1 h2 h3]
        exact horig
    · intro i hi
      rw [hrel i]
      rcases List.mem_append.mp hi with h | h
      · exact hr.reloadlt i (List.mem_append_left _ h)
      · exact hr.reloadlt i
          (List.mem_append_right _ (List.mem_cons_of_mem idx h))
  · rw [hAct, hlen, List.length_append, List.length_append]
    simp
  · intro j hj
    rcases List.mem_append.mp hj with h | h
    · rw [cumOf_append_left _ A (b :: B') j h,
        cumOf_append_left s A (idx :: b :: B') j h]
      exact cumOf_congr s _ A j hdA
    · have hjA : j ∉ A := fun hcon =>
        hnd.2.2 hcon (List.mem_cons_of_mem idx h)
      have hj1 : j ≠ idx := fun hcon => hidxR (hcon ▸ h)
      rw [cumOf_append_right _ A (b :: B') j hjA,
        cumOf_append_right s A (idx :: b :: B') j hjA,
        cumOf_head_bump s (removeNodeAt s idx) b B' (nodeDelta s idx) hdb hdB' j,
        hsumA, cumOf_cons s idx (b :: B') j, if_neg (fun hcon => hj1 hcon.symm)]

theorem removeRep_only (s : Scheduler) (idx : Nat)
    (hr : RepC s [idx]) (hlen : s.mActiveNodes = [idx].length) :
    RemovedFrom s (removeNodeAt s idx) [idx] idx := by
  have hstart : idx = s.mNodeStartIdx := hr.head_start idx (by simp)
  have hilt : idx < s.maxNodes := hr.memlt idx (by simp)
  have hilen : idx < s.nodes.length := by rw [hr.len]; exact hilt
  have hact : s.mActiveNodes = 1 := by rw [hlen]; rfl
  have hspec := removeNodeAt_only_spec s idx hilt hact hstart
  have hNidx : (removeNodeAt s idx).node idx = { s.node idx with callback := none } := by
    rw [hspec]
    exact node_set_self s idx _ hilen
  have hNother : ∀ j, j ≠ idx → (removeNodeAt s idx).node j = s.node j := by
    intro j h1
    rw [hspec]
    exact node_set_ne s idx j _ h1
  have hcb : ∀ j, ((removeNodeAt s idx).node j).callback
      = if j = idx then none else (s.node j).callback := by
    intro j
    by_cases h1 : j = idx
    · rw [if_pos h1, h1, hNidx]
    · rw [if_neg h1, hNother j h1]
  have hrel : ∀ j, ((removeNodeAt s idx).node j).reload = (s.node j).reload := by
    intro j
    by_cases h1 : j = idx
    · rw [h1, hNidx]
    · rw [hNother j h1]
  have hctr : ∀ j, ((removeNodeAt s idx).node j).usedCounter = (s.node j).usedCounter := by
    intro j
    by_cases h1 : j = idx
    · rw [h1, hNidx]
    · rw [hNother j h1]
  rw [RemovedFrom, List.erase_cons_head]
  refine ⟨?_, by rw [hspec]; rfl, hcb, hrel, hctr, by intro j hj; simp at hj,
    by rw [hspec]; rfl, by rw [hspec]; rfl, by rw [hspec]; rfl, by rw [hspec]; simp⟩
  refine
    { len := by rw [hspec]; simpa using hr.len
      maxpos := by rw [hspec]; exact hr.maxpos
      maxle := by rw [hspec]; exact hr.maxle
      nodup := List.nodup_nil
      memlt := by intro i hi; simp at hi
      startlt := by rw [hspec]; exact hilt
      endlt := by rw [hspec]; exact hilt
      head_start := by intro a ha; simp at ha
      last_end := by intro a ha; simp at ha
      empty_se := fun _ => by rw [hspec]
      links := List.chain'_nil
      head_prev := by intro a ha; simp at ha
      last_next := by intro a ha; simp at ha
      sumlt := by rw [sumD]; simp [u32Mod]
      reloadlt := by intro i hi; simp at hi }

/-- Removing any chain member preserves the representation: the chain becomes
`l.erase idx` and the surviving members keep their cumulative deltas. -/
theorem removeNodeAt_rep (s : Scheduler) (l : List Nat) (idx : Nat)
    (hr : RepC s l) (hlen : s.mActiveNodes = l.length) (hmem : idx ∈ l) :
    RemovedFrom s (removeNodeAt s idx) l idx := by
  obtain ⟨A, B, rfl⟩ := List.append_of_mem hmem
  match A, B with
  | [], [] => exact removeRep_only s idx hr hlen
  | [], b :: B' => exact removeRep_head s idx b B' hr hlen
  | a :: A', [] => exact removeRep_tail s idx (a :: A') (by simp) hr hlen
  | a :: A', b :: B' => exact removeRep_mid s idx b (a :: A') B' (by simp) hr hlen

/-- Removing a slot that is not on the chain but is self-linked (the detached
firing node during `proceed`, or any slot when the chain is empty) only
clears its callback: the double-removal guard fires. -/
theorem removeNodeAt_notmem (s : Scheduler) (l : List Nat) (cur : Nat)
    (hr : RepC s l) (hlen : s.mActiveNodes = l.length)
    (hnot : cur ∉ l) (hlt : cur < s.maxNodes)
    (hprev : (s.node cur).previousNodeIdx = cur)
    (hnext : (s.node cur).nextNodeIdx = cur) :
    removeNodeAt s cur = s.setNode cur { s.node cur with callback := none } := by
  match l, hlen with
  | [], hlen => exact removeNodeAt_zero_spec s cur hlt hlen
  | [a], hlen =>
    have hstart : a = s.mNodeStartIdx := hr.head_start a (by simp)
    have hns : cur ≠ s.mNodeStartIdx := by
      rw [← hstart]
      intro hcon
      exact hnot (hcon ▸ List.mem_cons_self a [])
    exact removeNodeAt_isolated1_spec s cur hlt hlen hns
  | a :: a2 :: rest, hlen =>
    have hstart : a = s.mNodeStartIdx := hr.head_start a (by simp)
    have hns : cur ≠ s.mNodeStartIdx := by
      rw [← hstart]
      intro hcon
      exact hnot (hcon ▸ List.mem_cons_self a _)
    have hq : (a :: a2 :: rest).getLast? = some ((a :: a2 :: rest).getLast (by simp)) :=
      List.getLast?_eq_getLast _ _
    have hlastmem : (a :: a2 :: rest).getLast (by simp) ∈ a :: a2 :: rest :=
      List.getLast_mem _
    have hendeq : (a :: a2 :: rest).getLast (by simp) = s.mNodeEndIdx :=
      hr.last_end _ (by rw [hq]; rfl)
    have hne : cur ≠ s.mNodeEndIdx := by
      rw [← hendeq]
      intro hcon
      exact hnot (hcon ▸ hlastmem)
    have hact : 1 < s.mActiveNodes := by rw [hlen]; simp
    exact removeNodeAt_isolated2_spec s cur hlt hact hns hne hprev hnext
      (by rw [hr.len]; exact hlt)

/-! ### The `insertFind` walk characterized

The walk either runs past the tail (when the whole chain's delta total fits
in the requested delay) or stops at the first member `x` whose cumulative
delta exceeds the delay; ties walk past, giving the stable insertion
position. -/

theorem nodeDelta_def (s : Scheduler) (i : Nat) :
    (s.node i).delayToPrevious = nodeDelta s i := rfl

theorem getLast?_cons_elim (v : Nat) (W : List Nat) :
    (v :: W).getLast? = W.getLast?.elim (some v) some := by
  cases W with
  | nil => rfl
  | cons w ws => rw [List.getLast?_cons_cons]; cases hws : (w :: ws).getLast? with
    | none => simp at hws
    | some z => rfl

theorem insertFind_go (s : Scheduler) :
    ∀ (V' : List Nat) (v dr : Nat) (idxA? : Option Nat) (fuel : Nat),
    (v :: V').Chain' (linkRel s) →
    (∀ a ∈ (v :: V').getLast?, a = s.mNodeEndIdx) →
    (∀ a ∈ (v :: V').dropLast, a ≠ s.mNodeEndIdx) →
    (v :: V').length ≤ fuel →
    (sumD s (v :: V') ≤ dr →
      insertFind s dr idxA? v fuel = (some s.mNodeEndIdx, none, dr - sumD s (v :: V')))
    ∧ (¬ sumD s (v :: V') ≤ dr →
      ∃ W x W2, v :: V' = W ++ x :: W2 ∧ sumD s W ≤ dr
        ∧ dr < sumD s W + nodeDelta s x
        ∧ insertFind s dr idxA? v fuel
            = (W.getLast?.elim idxA? some, some x, dr - sumD s W)) := by
  intro V'
  induction V' with
  | nil =>
    intro v dr idxA? fuel hchain hlast hdrop hfuel
    match fuel, hfuel with
    | f + 1, _ =>
      have hvend : v = s.mNodeEndIdx := hlast v (by simp)
      have hsum1 : sumD s [v] = nodeDelta s v := by rw [sumD_cons, sumD]; simp
      constructor
      · intro hle
        rw [hsum1] at hle
        simp only [insertFind, nodeDelta_def]
        rw [if_pos hle, if_pos hvend, hvend]
        simp [sumD_cons, sumD]
      · intro hgt
        rw [hsum1] at hgt
        refine ⟨[], v, [], rfl, by simp [sumD], ?_, ?_⟩
        · simpa [sumD] using hgt
        · simp only [insertFind, nodeDelta_def]
          rw [if_neg hgt]
          simp [sumD]
  | cons v2 V'' ih =>
    intro v dr idxA? fuel hchain hlast hdrop hfuel
    match fuel, hfuel with
    | f + 1, hfuel =>
      have hvne : v ≠ s.mNodeEndIdx := hdrop v (by simp [List.dropLast])
      have hnextv : (s.node v).nextNodeIdx = v2 := (List.chain'_cons.mp hchain).1.1
      have hfuel' : (v2 :: V'').length ≤ f := by
        simpa using Nat.lt_succ_iff.mp (by simpa using hfuel)
      have ih2 := ih v2 (dr - nodeDelta s v) (some v) f
        (List.chain'_cons.mp hchain).2
        (fun a ha => hlast a (by rwa [List.getLast?_cons_cons]))
        (fun a ha => hdrop a (List.mem_cons_of_mem v ha))
        hfuel'
      constructor
      · intro hle
        rw [sumD_cons] at hle
        have hdv : nodeDelta s v ≤ dr := by omega
        simp only [insertFind, nodeDelta_def]
        rw [if_pos hdv, if_neg hvne, hnextv]
        rw [ih2.1 (by omega), sumD_cons s v (v2 :: V''), sumD_cons s v2 V'']
        simp only [Prod.mk.injEq]
        refine ⟨trivial, trivial, ?_⟩
        omega
      · intro hgt
        rw [sumD_cons] at hgt
        by_cases hdv : nodeDelta s v ≤ dr
        · obtain ⟨W', x, W2, hsplit, hWle, hWgt, hres⟩ := ih2.2 (by omega)
          refine ⟨v :: W', x, W2, by rw [hsplit]; rfl, ?_, ?_, ?_⟩
          · rw [sumD_cons]; omega
          · rw [sumD_cons]; omega
          · simp only [insertFind, nodeDelta_def]
            rw [if_pos hdv, if_neg hvne, hnextv, hres]
            rw [getLast?_cons_elim, sumD_cons]
            cases hW' : W'.getLast? with
            | none => simp [Option.elim]; omega
            | some w => simp [Option.elim]; omega
        · refine ⟨[], v, v2 :: V'', rfl, by simp [sumD], ?_, ?_⟩
          · simp only [sumD, List.map_nil, List.sum_nil, Nat.zero_add]
            omega
          · simp only [insertFind, nodeDelta_def]
            rw [if_neg hdv]
            simp [sumD]

/-! ### `insertNode`: one unfolding lemma per splice branch -/

/-- Insertion before the current head (`idxA = -1`). -/
theorem insertNode_eq_head (s : Scheduler) (idx delay x d' : Nat)
    (hf : insertFind s delay none s.mNodeStartIdx (s.maxNodes + 1) = (none, some x, d'))
    (hxne : x ≠ idx) (hilen : idx < s.nodes.length) (hxlen : x < s.nodes.length) :
    insertNode s idx delay =
      { (s.setNode idx
          { s.node idx with
            delayToPrevious := d', previousNodeIdx := idx, nextNodeIdx := x }).setNode x
          { s.node x with
            previousNodeIdx := idx,
            delayToPrevious := (s.node x).delayToPrevious - d' } with
        mNodeStartIdx := idx } := by
  have hix : idx ≠ x := Ne.symm hxne
  simp only [insertNode]
  rw [hf]
  simp only [node_set_self s idx _ hilen]
  simp only [Scheduler.setNode, Scheduler.node]
  simp [getD_set_eq, getD_set_ne, hxne, hix, List.set_set, hilen, hxlen]

/-- Insertion after the current tail (`idxB = -1`). -/
theorem insertNode_eq_end (s : Scheduler) (idx delay w d' : Nat)
    (hf : insertFind s delay none s.mNodeStartIdx (s.maxNodes + 1) = (some w, none, d'))
    (hwne : w ≠ idx) (hilen : idx < s.nodes.length) (hwlen : w < s.nodes.length) :
    insertNode s idx delay =
      { (s.setNode idx
          { s.node idx with
            delayToPrevious := d', previousNodeIdx := w, nextNodeIdx := idx }).setNode w
          { s.node w with nextNodeIdx := idx } with
        mNodeEndIdx := idx } := by
  have hiw : idx ≠ w := Ne.symm hwne
  simp only [insertNode]
  rw [hf]
  simp only [node_set_self s idx _ hilen]
  simp only [Scheduler.setNode, Scheduler.node]
  simp [getD_set_eq, getD_set_ne, hwne, hiw, List.set_set, hilen, hwlen]

/-- Insertion between two chain members. -/
theorem insertNode_eq_mid (s : Scheduler) (idx delay w x d' : Nat)
    (hf : insertFind s delay none s.mNodeStartIdx (s.maxNodes + 1) = (some w, some x, d'))
    (hwne : w ≠ idx) (hxne : x ≠ idx) (hwx : w ≠ x)
    (hilen : idx < s.nodes.length) (hwlen : w < s.nodes.length)
    (hxlen : x < s.nodes.length) :
    insertNode s idx delay =
      ((s.setNode idx
          { s.node idx with
            delayToPrevious := d', previousNodeIdx := w, nextNodeIdx := x }).setNode w
          { s.node w with nextNodeIdx := idx }).setNode x
        { s.node x with
          previousNodeIdx := idx,
          delayToPrevious := (s.node x).delayToPrevious - d' } := by
  have hiw : idx ≠ w := Ne.symm hwne
  have hix : idx ≠ x := Ne.symm hxne
  have hxw : x ≠ w := Ne.symm hwx
  simp only [insertNode]
  rw [hf]
  simp only [node_set_self s idx _ hilen]
  simp only [Scheduler.setNode, Scheduler.node]
  simp [getD_set_eq, getD_set_ne, hwne, hxne, hwx, hiw, hix, hxw,
    List.set_set, hilen, hwlen, hxlen]

/-! ### Representation preservation of `insertNode` -/

theorem head_le_cumOf (s : Scheduler) (x : Nat) (rest : List Nat) (j : Nat) :
    nodeDelta s x ≤ cumOf s (x :: rest) j := by
  rw [cumOf_cons]
  by_cases h : x = j
  · rw [if_pos h]
  · rw [if_neg h]; exact Nat.le_add_right _ _

theorem rep_length_le (s : Scheduler) (l : List Nat) (hr : RepC s l) :
    l.length ≤ s.maxNodes := by
  have hsub : l ⊆ List.range s.maxNodes :=
    fun i hi => List.mem_range.mpr (hr.memlt i hi)
  have := (hr.nodup.subperm hsub).length_le
  simpa using this

/-- The combined postcondition of `insertNode s idx d` on a fresh slot `idx`:
the chain splits as `A ++ B` at the stable sorted position for `d` and the
new chain is `A ++ idx :: B`; the new member's cumulative delta is exactly
`d` and every old member keeps its cumulative delta; no callback, reload or
generation field changes anywhere; the bookkeeping scalars are untouched. -/
def InsertedInto (s s' : Scheduler) (l : List Nat) (idx d : Nat) : Prop :=
  ∃ A B, l = A ++ B
    ∧ RepC s' (A ++ idx :: B)
    ∧ (∀ a ∈ A, cumOf s l a ≤ d)
    ∧ (∀ x ∈ B, d < cumOf s l x)
    ∧ cumOf s' (A ++ idx :: B) idx = d
    ∧ (∀ j ∈ l, cumOf s' (A ++ idx :: B) j = cumOf s l j)
    ∧ (∀ j, (s'.node j).callback = (s.node j).callback)
    ∧ (∀ j, (s'.node j).reload = (s.node j).reload)
    ∧ (∀ j, (s'.node j).usedCounter = (s.node j).usedCounter)
    ∧ s'.mActiveNodes = s.mActiveNodes
    ∧ s'.maxNodes = s.maxNodes
    ∧ s'.mProceedingTime = s.mProceedingTime
    ∧ s'.mActiveNodesWaterMark = s.mActiveNodesWaterMark
    ∧ s'.nodes.length = s.nodes.length

theorem insertNode_rep (s : Scheduler) (l : List Nat) (idx d : Nat)
    (hr : RepC s l) (hne : l ≠ []) (hidx : idx < s.maxNodes) (hfresh : idx ∉ l)
    (hd : d < u32Mod) (hrelidx : (s.node idx).reload < u32Mod) :
    InsertedInto s (insertNode s idx d) l idx d := by
  have hilen : idx < s.nodes.length := by rw [hr.len]; exact hidx
  have hlast? : l.getLast? = some (l.getLast hne) := List.getLast?_eq_getLast l hne
  have hlastend : l.getLast hne = s.mNodeEndIdx :=
    hr.last_end _ (by rw [hlast?]; rfl)
  have hendmem : s.mNodeEndIdx ∈ l := hlastend ▸ List.getLast_mem hne
  have hdropend : ∀ a ∈ l.dropLast, a ≠ s.mNodeEndIdx := by
    intro a ha hcon
    have : a = l.getLast hne := by rw [hlastend, hcon]
    exact getLast_not_mem_dropLast l hr.nodup hne (this ▸ ha)
  have hfuel : l.length ≤ s.maxNodes + 1 :=
    Nat.le_succ_of_le (rep_length_le s l hr)
  match l, hne, hr, hfresh, hfuel, hlast?, hlastend, hendmem, hdropend with
  | v :: V', hne, hr, hfresh, hfuel, hlast?, hlastend, hendmem, hdropend =>
  have hvstart : v = s.mNodeStartIdx := hr.head_start v (by simp)
  have hgo := insertFind_go s V' v d none (s.maxNodes + 1) hr.links
    (fun a ha => hr.last_end a ha) hdropend hfuel
  by_cases hall : sumD s (v :: V') ≤ d
  · -- the walk runs past the tail: append at the end
    have hf : insertFind s d none s.mNodeStartIdx (s.maxNodes + 1)
        = (some s.mNodeEndIdx, none, d - sumD s (v :: V')) := by
      rw [← hvstart]; exact hgo.1 hall
    have hwne : s.mNodeEndIdx ≠ idx := fun hcon => hfresh (hcon ▸ hendmem)
    have hwlen : s.mNodeEndIdx < s.nodes.length := by rw [hr.len]; exact hr.endlt
    have hspec := insertNode_eq_end s idx d s.mNodeEndIdx _ hf hwne hilen hwlen
    set w := s.mNodeEndIdx with hwdef
    have hiw : idx ≠ w := Ne.symm hwne
    have hNidx : (insertNode s idx d).node idx
        = { s.node idx with
            delayToPrevious := d - sumD s (v :: V'),
            previousNodeIdx := w, nextNodeIdx := idx } := by
      rw [hspec]
      show ((s.setNode idx _).setNode w _).node idx = _
      rw [node_set_ne _ _ _ _ hiw]
      exact node_set_self s idx _ hilen
    have hNw : (insertNode s idx d).node w = { s.node w with nextNodeIdx := idx } := by
      rw [hspec]
      show ((s.setNode idx _).setNode w _).node w = _
      exact node_set_self _ w _ (by simpa using hwlen)
    have hNother : ∀ j, j ≠ idx → j ≠ w → (insertNode s idx d).node j = s.node j := by
      intro j h1 h2
      rw [hspec]
      show ((s.setNode idx _).setNode w _).node j = _
      rw [node_set_ne _ _ _ _ h2]
      exact node_set_ne s idx j _ h1
    have hStart : (insertNode s idx d).mNodeStartIdx = s.mNodeStartIdx := by
      rw [hspec]; rfl
    have hEnd : (insertNode s idx d).mNodeEndIdx = idx := by rw [hspec]
    have hMax : (insertNode s idx d).maxNodes = s.maxNodes := by rw [hspec]; rfl
    have hAct : (insertNode s idx d).mActiveNodes = s.mActiveNodes := by rw [hspec]; rfl
    have hPT : (insertNode s idx d).mProceedingTime = s.mProceedingTime := by
      rw [hspec]; rfl
    have hWM : (insertNode s idx d).mActiveNodesWaterMark = s.mActiveNodesWaterMark := by
      rw [hspec]; rfl
    have hLen : (insertNode s idx d).nodes.length = s.nodes.length := by rw [hspec]; simp
    have hdall : ∀ j ∈ v :: V', nodeDelta (insertNode s idx d) j = nodeDelta s j := by
      intro j hj
      have h1 : j ≠ idx := fun hcon => hfresh (hcon ▸ hj)
      by_cases h2 : j = w
      · simp only [nodeDelta]; rw [h2, hNw]
      · simp only [nodeDelta]; rw [hNother j h1 h2]
    have hdidx : nodeDelta (insertNode s idx d) idx = d - sumD s (v :: V') := by
      simp only [nodeDelta]; rw [hNidx]
    have hcb : ∀ j, ((insertNode s idx d).node j).callback = (s.node j).callback := by
      intro j
      by_cases h1 : j = idx
      · rw [h1, hNidx]
      · by_cases h2 : j = w
        · rw [h2, hNw]
        · rw [hNother j h1 h2]
    have hrel : ∀ j, ((insertNode s idx d).node j).reload = (s.node j).reload := by
      intro j
      by_cases h1 : j = idx
      · rw [h1, hNidx]
      · by_cases h2 : j = w
        · rw [h2, hNw]
        · rw [hNother j h1 h2]
    have hctr : ∀ j, ((insertNode s idx d).node j).usedCounter = (s.node j).usedCounter := by
      intro j
      by_cases h1 : j = idx
      · rw [h1, hNidx]
      · by_cases h2 : j = w
        · rw [h2, hNw]
        · rw [hNother j h1 h2]
    have hsumpres : sumD (insertNode s idx d) (v :: V') = sumD s (v :: V') :=
      sumD_congr s _ _ hdall
    have hcums : ∀ j ∈ v :: V',
        cumOf (insertNode s idx d) ((v :: V') ++ [idx]) j = cumOf s (v :: V') j := by
      intro j hj
      rw [cumOf_append_left _ (v :: V') [idx] j hj]
      exact cumOf_congr s _ (v :: V') j hdall
    refine ⟨v :: V', [], by simp, ?_, ?_, by simp, ?_, hcums, hcb, hrel, hctr,
      hAct, hMax, hPT, hWM, hLen⟩
    · refine
        { len := by rw [hLen, hMax]; exact hr.len
          maxpos := by rw [hMax]; exact hr.maxpos
          maxle := by rw [hMax]; exact hr.maxle
          nodup := ?_
          memlt := ?_
          startlt := by rw [hStart, hMax]; exact hr.startlt
          endlt := by rw [hEnd, hMax]; exact hidx
          head_start := ?_
          last_end := ?_
          empty_se := fun hcon => by simp at hcon
          links := ?_
          head_prev := ?_
          last_next := ?_
          sumlt := ?_
          reloadlt := ?_ }
      · rw [List.nodup_append]
        exact ⟨hr.nodup, List.nodup_singleton idx,
          fun a ha hb => hfresh ((List.mem_singleton.mp hb) ▸ ha)⟩
      · intro i hi
        rw [hMax]
        rcases List.mem_append.mp hi with h | h
        · exact hr.memlt i h
        · rw [List.mem_singleton.mp h]; exact hidx
      · intro a ha
        rw [List.head?_append_of_ne_nil (v :: V') (by simp)] at ha
        rw [hStart]
        exact hr.head_start a ha
      · intro a ha
        rw [List.getLast?_concat] at ha
        rw [hEnd]
        exact (by simpa using ha : idx = a).symm
      · rw [List.chain'_append]
        refine ⟨?_, List.chain'_singleton idx, ?_⟩
        · refine chain'_of_congr s (insertNode s idx d) (v :: V') hr.links ?_ ?_
          · intro a ha
            have hamem : a ∈ v :: V' := List.mem_of_mem_dropLast ha
            have h1 : a ≠ idx := fun hcon => hfresh (hcon ▸ hamem)
            have h2 : a ≠ w := hdropend a ha
            rw [hNother a h1 h2]
          · intro a ha
            have hamem : a ∈ v :: V' := List.mem_of_mem_tail ha
            have h1 : a ≠ idx := fun hcon => hfresh (hcon ▸ hamem)
            by_cases h2 : a = w
            · rw [h2, hNw]
            · rw [hNother a h1 h2]
        · intro a ha y hy
          rw [hlast?] at ha
          have hga : (v :: V').getLast hne = a := by simpa using ha
          have haw : a = w := by rw [← hga, hlastend]
          have hyidx : y = idx := (by simpa using hy : idx = y).symm
          subst haw; subst hyidx
          constructor
          · rw [hNw]
          · rw [hNidx]
      · intro a ha
        rw [List.head?_append_of_ne_nil (v :: V') (by simp)] at ha
        have hamem : a ∈ v :: V' := List.mem_of_mem_head? ha
        have h1 : a ≠ idx := fun hcon => hfresh (hcon ▸ hamem)
        have horig : (s.node a).previousNodeIdx = a := hr.head_prev a ha
        by_cases h2 : a = w
        · rw [h2] at horig ⊢
          rw [hNw]; exact horig
        · rw [hNother a h1 h2]; exact horig
      · intro a ha
        rw [List.getLast?_concat] at ha
        have haidx : a = idx := (by simpa using ha : idx = a).symm
        rw [haidx, hNidx]
      · rw [sumD_append, hsumpres]
        have : sumD (insertNode s idx d) [idx] = d - sumD s (v :: V') := by
          rw [sumD_cons, hdidx]; simp [sumD]
        rw [this]
        omega
      · intro i hi
        rcases List.mem_append.mp hi with h | h
        · rw [hrel i]; exact hr.reloadlt i h
        · rw [List.mem_singleton.mp h, hrel idx]; exact hrelidx
    · intro a ha
      exact le_trans (cumOf_le_sumD s (v :: V') a ha) hall
    · rw [cumOf_append_right _ (v :: V') [idx] idx hfresh, hsumpres, cumOf_cons,
        if_pos rfl, hdidx]
      omega
  · -- the walk stops at `x`: insert before `x`
    obtain ⟨W, x, W2, hsplit, hWle, hWgt, hres⟩ := hgo.2 hall
    have hxmem : x ∈ v :: V' := by
      rw [hsplit]; exact List.mem_append_right _ (List.mem_cons_self x W2)
    have hxne : x ≠ idx := fun hc => hfresh (hc ▸ hxmem)
    have hxlt : x < s.maxNodes := hr.memlt x hxmem
    have hxlen : x < s.nodes.length := by rw [hr.len]; exact hxlt
    have hd'x : d - sumD s W < nodeDelta s x := by omega
    have hnodupWx : (W ++ x :: W2).Nodup := hsplit ▸ hr.nodup
    cases W with
    | nil =>
      have hxv : x = v := by
        have := hsplit
        simp only [List.nil_append] at this
        exact ((List.cons.injEq v V' x W2).mp this).1.symm
      subst hxv
      have hW2 : W2 = V' := by
        have := hsplit
        simp only [List.nil_append] at this
        exact ((List.cons.injEq x V' x W2).mp this).2.symm
      subst hW2
      have hf : insertFind s d none s.mNodeStartIdx (s.maxNodes + 1)
          = (none, some x, d) := by
        rw [← hvstart]
        simpa [sumD] using hres
      have hdx0 : d < nodeDelta s x := by
        have : sumD s ([] : List Nat) = 0 := rfl
        omega
      have hspec := insertNode_eq_head s idx d x d hf hxne hilen hxlen
      have hNidx : (insertNode s idx d).node idx
          = { s.node idx with
              delayToPrevious := d, previousNodeIdx := idx, nextNodeIdx := x } := by
        rw [hspec]
        show ((s.setNode idx _).setNode x _).node idx = _
        rw [node_set_ne _ _ _ _ (Ne.symm hxne)]
        exact node_set_self s idx _ hilen
      have hNx : (insertNode s idx d).node x
          = { s.node x with
              previousNodeIdx := idx,
              delayToPrevious := (s.node x).delayToPrevious - d } := by
        rw [hspec]
        show ((s.setNode idx _).setNode x _).node x = _
        exact node_set_self _ x _ (by simpa using hxlen)
      have hNother : ∀ j, j ≠ idx → j ≠ x →
          (insertNode s idx d).node j = s.node j := by
        intro j h1 h2
        rw [hspec]
        show ((s.setNode idx _).setNode x _).node j = _
        rw [node_set_ne _ _ _ _ h2]
        exact node_set_ne s idx j _ h1
      have hStart : (insertNode s idx d).mNodeStartIdx = idx := by rw [hspec]
      have hEnd : (insertNode s idx d).mNodeEndIdx = s.mNodeEndIdx := by
        rw [hspec]; rfl
      have hMax : (insertNode s idx d).maxNodes = s.maxNodes := by rw [hspec]; rfl
      have hAct : (insertNode s idx d).mActiveNodes = s.mActiveNodes := by
        rw [hspec]; rfl
      have hPT : (insertNode s idx d).mProceedingTime = s.mProceedingTime := by
        rw [hspec]; rfl
      have hWM : (insertNode s idx d).mActiveNodesWaterMark
          = s.mActiveNodesWaterMark := by rw [hspec]; rfl
      have hLen : (insertNode s idx d).nodes.length = s.nodes.length := by
        rw [hspec]; simp
      have hvW2 : x ∉ W2 := (List.nodup_cons.mp hr.nodup).1
      have hdidx : nodeDelta (insertNode s idx d) idx = d := by
        simp only [nodeDelta]; rw [hNidx]
      have hdx : nodeDelta (insertNode s idx d) x = nodeDelta s x - d := by
        simp only [nodeDelta]; rw [hNx]
      have hdW2 : ∀ j ∈ W2, nodeDelta (insertNode s idx d) j = nodeDelta s j := by
        intro j hj
        have h1 : j ≠ idx := fun hc => hfresh (hc ▸ List.mem_cons_of_mem x hj)
        have h2 : j ≠ x := fun hc => hvW2 (hc ▸ hj)
        simp only [nodeDelta]; rw [hNother j h1 h2]
      have hfields : ∀ j,
          ((insertNode s idx d).node j).callback = (s.node j).callback
          ∧ ((insertNode s idx d).node j).reload = (s.node j).reload
          ∧ ((insertNode s idx d).node j).usedCounter = (s.node j).usedCounter := by
        intro j
        by_cases h1 : j = idx
        · rw [h1, hNidx]; exact ⟨rfl, rfl, rfl⟩
        · by_cases h2 : j = x
          · rw [h2, hNx]; exact ⟨rfl, rfl, rfl⟩
          · rw [hNother j h1 h2]; exact ⟨rfl, rfl, rfl⟩
      have hbump : ∀ j, cumOf s (x :: W2) j
          = d + cumOf (insertNode s idx d) (x :: W2) j := by
        intro j
        refine cumOf_head_bump (insertNode s idx d) s x W2 d ?_ ?_ j
        · rw [hdx]; omega
        · intro i hi; exact (hdW2 i hi).symm
      have hcums : ∀ j ∈ x :: W2,
          cumOf (insertNode s idx d) ([] ++ idx :: x :: W2) j
            = cumOf s (x :: W2) j := by
        intro j hj
        have hj1 : idx ≠ j := fun hc => hfresh (hc ▸ hj)
        rw [List.nil_append, cumOf_cons, if_neg hj1, hdidx, ← hbump j]
      refine ⟨[], x :: W2, by simp, ?_, by simp, ?_, ?_, hcums,
        fun j => (hfields j).1, fun j => (hfields j).2.1, fun j => (hfields j).2.2,
        hAct, hMax, hPT, hWM, hLen⟩
      · rw [List.nil_append]
        refine
          { len := by rw [hLen, hMax]; exact hr.len
            maxpos := by rw [hMax]; exact hr.maxpos
            maxle := by rw [hMax]; exact hr.maxle
            nodup := List.nodup_cons.mpr ⟨hfresh, hr.nodup⟩
            memlt := ?_
            startlt := by rw [hStart, hMax]; exact hidx
            endlt := by rw [hEnd, hMax]; exact hr.endlt
            head_start := ?_
            last_end := ?_
            empty_se := fun hcon => by simp at hcon
            links := ?_
            head_prev := ?_
            last_next := ?_
            sumlt := ?_
            reloadlt := ?_ }
        · intro i hi
          rw [hMax]
          rcases List.mem_cons.mp hi with h | h
          · rw [h]; exact hidx
          · exact hr.memlt i h
        · intro a ha
          rw [hStart]
          exact (by simpa using ha : idx = a).symm
        · intro a ha
          rw [List.getLast?_cons_cons] at ha
          rw [hEnd]
          exact hr.last_end a ha
        · rw [List.chain'_cons]
          constructor
          · constructor
            · rw [hNidx]
            · rw [hNx]
          · refine chain'_of_congr s (insertNode s idx d) (x :: W2) hr.links ?_ ?_
            · intro a ha
              have hamem : a ∈ x :: W2 := List.mem_of_mem_dropLast ha
              have h1 : a ≠ idx := fun hc => hfresh (hc ▸ hamem)
              by_cases h2 : a = x
              · rw [h2, hNx]
              · rw [hNother a h1 h2]
            · intro a ha
              have h1 : a ≠ idx :=
                fun hc => hfresh (hc ▸ List.mem_of_mem_tail ha)
              have h2 : a ≠ x := fun hc => hvW2 (hc ▸ (by simpa using ha))
              rw [hNother a h1 h2]
        · intro a ha
          have haidx : a = idx := (by simpa using ha : idx = a).symm
          rw [haidx, hNidx]
        · intro a ha
          rw [List.getLast?_cons_cons] at ha
          have hamem : a ∈ x :: W2 := List.mem_of_mem_getLast? ha
          have h1 : a ≠ idx := fun hc => hfresh (hc ▸ hamem)
          have horig : (s.node a).nextNodeIdx = a := hr.last_next a ha
          by_cases h2 : a = x
          · rw [h2] at horig ⊢
            rw [hNx]; exact horig
          · rw [hNother a h1 h2]; exact horig
        · have hsW2 : sumD (insertNode s idx d) W2 = sumD s W2 :=
            sumD_congr s _ W2 hdW2
          have hlt := hr.sumlt
          rw [sumD_cons] at hlt
          rw [sumD_cons, sumD_cons, hdidx, hdx, hsW2]
          omega
        · intro i hi
          rcases List.mem_cons.mp hi with h | h
          · rw [h, (hfields idx).2.1]; exact hrelidx
          · rw [(hfields i).2.1]; exact hr.reloadlt i h
      · intro b hb
        exact lt_of_lt_of_le hdx0 (head_le_cumOf s x W2 b)
      · rw [List.nil_append, cumOf_cons, if_pos rfl, hdidx]
    | cons w1 W' =>
      obtain ⟨w, hw⟩ : ∃ w, (w1 :: W').getLast? = some w :=
        ⟨_, List.getLast?_eq_getLast _ (by simp)⟩
      have hwmemW : w ∈ w1 :: W' := List.mem_of_getLast?_eq_some hw
      have hwmem : w ∈ v :: V' := by
        rw [hsplit]; exact List.mem_append_left _ hwmemW
      have hwne : w ≠ idx := fun hc => hfresh (hc ▸ hwmem)
      have hwlen : w < s.nodes.length := by rw [hr.len]; exact hr.memlt w hwmem
      obtain ⟨hndW, hndX, hdisj⟩ := List.nodup_append.mp hnodupWx
      have hwx : w ≠ x := fun hc =>
        hdisj hwmemW (hc ▸ List.mem_cons_self x W2)
      have hf : insertFind s d none s.mNodeStartIdx (s.maxNodes + 1)
          = (some w, some x, d - sumD s (w1 :: W')) := by
        rw [← hvstart, hres, hw]
        rfl
      have hspec := insertNode_eq_mid s idx d w x (d - sumD s (w1 :: W')) hf
        hwne hxne hwx hilen hwlen hxlen
      have hNidx : (insertNode s idx d).node idx
          = { s.node idx with
              delayToPrevious := d - sumD s (w1 :: W'),
              previousNodeIdx := w, nextNodeIdx := x } := by
        rw [hspec]
        show (((s.setNode idx _).setNode w _).setNode x _).node idx = _
        rw [node_set_ne _ _ _ _ (Ne.symm hxne), node_set_ne _ _ _ _ (Ne.symm hwne)]
        exact node_set_self s idx _ hilen
      have hNw : (insertNode s idx d).node w
          = { s.node w with nextNodeIdx := idx } := by
        rw [hspec]
        show (((s.setNode idx _).setNode w _).setNode x _).node w = _
        rw [node_set_ne _ _ _ _ hwx]
        exact node_set_self _ w _ (by simpa using hwlen)
      have hNx : (insertNode s idx d).node x
          = { s.node x with
              previousNodeIdx := idx,
              delayToPrevious :=
                (s.node x).delayToPrevious - (d - sumD s (w1 :: W')) } := by
        rw [hspec]
        show (((s.setNode idx _).setNode w _).setNode x _).node x = _
        exact node_set_self _ x _ (by simpa using hxlen)
      have hNother : ∀ j, j ≠ idx → j ≠ w → j ≠ x →
          (insertNode s idx d).node j = s.node j := by
        intro j h1 h2 h3
        rw [hspec]
        show (((s.setNode idx _).setNode w _).setNode x _).node j = _
        rw [node_set_ne _ _ _ _ h3, node_set_ne _ _ _ _ h2]
        exact node_set_ne s idx j _ h1
      have hStart : (insertNode s idx d).mNodeStartIdx = s.mNodeStartIdx := by
        rw [hspec]; rfl
      have hEnd : (insertNode s idx d).mNodeEndIdx = s.mNodeEndIdx := by
        rw [hspec]; rfl
      have hMax : (insertNode s idx d).maxNodes = s.maxNodes := by rw [hspec]; rfl
      have hAct : (insertNode s idx d).mActiveNodes = s.mActiveNodes := by
        rw [hspec]; rfl
      have hPT : (insertNode s idx d).mProceedingTime = s.mProceedingTime := by
        rw [hspec]; rfl
      have hWM : (insertNode s idx d).mActiveNodesWaterMark
          = s.mActiveNodesWaterMark := by rw [hspec]; rfl
      have hLen : (insertNode s idx d).nodes.length = s.nodes.length := by
        rw [hspec]; simp
      have hdidx : nodeDelta (insertNode s idx d) idx = d - sumD s (w1 :: W') := by
        simp only [nodeDelta]; rw [hNidx]
      have hdx : nodeDelta (insertNode s idx d) x
          = nodeDelta s x - (d - sumD s (w1 :: W')) := by
        simp only [nodeDelta]; rw [hNx]
      have hdW : ∀ j ∈ w1 :: W',
          nodeDelta (insertNode s idx d) j = nodeDelta s j := by
        intro j hj
        have h1 : j ≠ idx := fun hc =>
          hfresh (hc ▸ (hsplit ▸ List.mem_append_left _ hj))
        have h3 : j ≠ x := fun hc => hdisj hj (hc ▸ List.mem_cons_self x W2)
        by_cases h2 : j = w
        · simp only [nodeDelta]; rw [h2, hNw]
        · simp only [nodeDelta]; rw [hNother j h1 h2 h3]
      have hdW2 : ∀ j ∈ W2,
          nodeDelta (insertNode s idx d) j = nodeDelta s j := by
        intro j hj
        have hjX : j ∈ x :: W2 := List.mem_cons_of_mem x hj
        have h1 : j ≠ idx := fun hc =>
          hfresh (hc ▸ (hsplit ▸ List.mem_append_right _ hjX))
        have h2 : j ≠ w := fun hc => hdisj (hc ▸ hwmemW) hjX
        have h3 : j ≠ x := fun hc => (List.nodup_cons.mp hndX).1 (hc ▸ hj)
        simp only [nodeDelta]; rw [hNother j h1 h2 h3]
      have hfields : ∀ j,
          ((insertNode s idx d).node j).callback = (s.node j).callback
          ∧ ((insertNode s idx d).node j).reload = (s.node j).reload
          ∧ ((insertNode s idx d).node j).usedCounter = (s.node j).usedCounter := by
        intro j
        by_cases h1 : j = idx
        · rw [h1, hNidx]; exact ⟨rfl, rfl, rfl⟩
        · by_cases h2 : j = w
          · rw [h2, hNw]; exact ⟨rfl, rfl, rfl⟩
          · by_cases h3 : j = x
            · rw [h3, hNx]; exact ⟨rfl, rfl, rfl⟩
            · rw [hNother j h1 h2 h3]; exact ⟨rfl, rfl, rfl⟩
      have hbump : ∀ j, cumOf s (x :: W2) j
          = (d - sumD s (w1 :: W')) + cumOf (insertNode s idx d) (x :: W2) j := by
        intro j
        refine cumOf_head_bump (insertNode s idx d) s x W2
          (d - sumD s (w1 :: W')) ?_ ?_ j
        · rw [hdx]; omega
        · intro i hi; exact (hdW2 i hi).symm
      have hidxW : idx ∉ w1 :: W' := fun hc =>
        hfresh (hsplit ▸ List.mem_append_left _ hc)
      have hidxX : idx ∉ x :: W2 := fun hc =>
        hfresh (hsplit ▸ List.mem_append_right _ hc)
      have hsW : sumD (insertNode s idx d) (w1 :: W') = sumD s (w1 :: W') :=
        sumD_congr s _ _ hdW
      have hsW2 : sumD (insertNode s idx d) W2 = sumD s W2 :=
        sumD_congr s _ _ hdW2
      obtain ⟨hcW, hcXW2, hglue⟩ := List.chain'_append.mp
        (show List.Chain' (linkRel s) ((w1 :: W') ++ x :: W2) from hsplit ▸ hr.links)
      have hcums : ∀ j ∈ v :: V',
          cumOf (insertNode s idx d) ((w1 :: W') ++ idx :: x :: W2) j
            = cumOf s (v :: V') j := by
        intro j hj
        rw [hsplit] at hj ⊢
        rcases List.mem_append.mp hj with hjW | hjX
        · rw [cumOf_append_left _ _ _ j hjW, cumOf_append_left s _ _ j hjW]
          exact cumOf_congr s _ _ j hdW
        · have hjW : j ∉ w1 :: W' := fun hc => hdisj hc hjX
          have hj1 : idx ≠ j := fun hc =>
            hfresh (hc ▸ (hsplit ▸ List.mem_append_right _ hjX))
          rw [cumOf_append_right _ _ _ j hjW, cumOf_append_right s _ _ j hjW,
            cumOf_cons (insertNode s idx d) idx (x :: W2) j, if_neg hj1,
            hdidx, hsW]
          have := hbump j
          omega
      refine ⟨w1 :: W', x :: W2, hsplit, ?_, ?_, ?_, ?_, hcums,
        fun j => (hfields j).1, fun j => (hfields j).2.1, fun j => (hfields j).2.2,
        hAct, hMax, hPT, hWM, hLen⟩
      · refine
          { len := by rw [hLen, hMax]; exact hr.len
            maxpos := by rw [hMax]; exact hr.maxpos
            maxle := by rw [hMax]; exact hr.maxle
            nodup := ?_
            memlt := ?_
            startlt := by rw [hStart, hMax]; exact hr.startlt
            endlt := by rw [hEnd, hMax]; exact hr.endlt
            head_start := ?_
            last_end := ?_
            empty_se := fun hcon => by simp at hcon
            links := ?_
            head_prev := ?_
            last_next := ?_
            sumlt := ?_
            reloadlt := ?_ }
        · rw [List.nodup_append]
          refine ⟨hndW, List.nodup_cons.mpr ⟨hidxX, hndX⟩, ?_⟩
          intro a haW haI
          rcases List.mem_cons.mp haI with h | h
          · exact hidxW (h ▸ haW)
          · exact hdisj haW h
        · intro i hi
          rw [hMax]
          rcases List.mem_append.mp hi with h | h
          · exact hr.memlt i (hsplit ▸ List.mem_append_left _ h)
          · rcases List.mem_cons.mp h with h' | h'
            · rw [h']; exact hidx
            · exact hr.memlt i (hsplit ▸ List.mem_append_right _ h')
        · intro a ha
          rw [List.head?_append_of_ne_nil (w1 :: W') (by simp)] at ha
          rw [hStart]
          refine hr.head_start a ?_
          rw [hsplit, List.head?_append_of_ne_nil (w1 :: W') (by simp)]
          exact ha
        · intro a ha
          rw [List.getLast?_append_of_ne_nil (w1 :: W') (by simp)] at ha
          rw [List.getLast?_cons_cons] at ha
          rw [hEnd]
          refine hr.last_end a ?_
          rw [hsplit, List.getLast?_append_of_ne_nil (w1 :: W') (by simp)]
          exact ha
        · rw [List.chain'_append]
          refine ⟨?_, ?_, ?_⟩
          · refine chain'_of_congr s (insertNode s idx d) (w1 :: W') hcW ?_ ?_
            · intro a ha
              have hamem : a ∈ w1 :: W' := List.mem_of_mem_dropLast ha
              have h1 : a ≠ idx := fun hc => hidxW (hc ▸ hamem)
              have h2 : a ≠ w := by
                intro hc
                have hg := List.getLast?_eq_getLast (w1 :: W')
                  (by simp : w1 :: W' ≠ [])
                rw [hw] at hg
                have hwlast : (w1 :: W').getLast (by simp) = w :=
                  (Option.some.injEq _ _ ▸ hg).symm
                refine getLast_not_mem_dropLast (w1 :: W') hndW (by simp) ?_
                rw [hwlast]
                exact hc ▸ ha
              have h3 : a ≠ x := fun hc =>
                hdisj hamem (hc ▸ List.mem_cons_self x W2)
              rw [hNother a h1 h2 h3]
            · intro a ha
              have hamem : a ∈ w1 :: W' := List.mem_of_mem_tail ha
              have h1 : a ≠ idx := fun hc => hidxW (hc ▸ hamem)
              have h3 : a ≠ x := fun hc =>
                hdisj hamem (hc ▸ List.mem_cons_self x W2)
              by_cases h2 : a = w
              · rw [h2, hNw]
              · rw [hNother a h1 h2 h3]
          · rw [List.chain'_cons]
            constructor
            · constructor
              · rw [hNidx]
              · rw [hNx]
            · refine chain'_of_congr s (insertNode s idx d) (x :: W2) hcXW2 ?_ ?_
              · intro a ha
                have hamem : a ∈ x :: W2 := List.mem_of_mem_dropLast ha
                have h1 : a ≠ idx := fun hc => hidxX (hc ▸ hamem)
                have h2 : a ≠ w := fun hc => hdisj (hc ▸ hwmemW) hamem
                by_cases h3 : a = x
                · rw [h3, hNx]
                · rw [hNother a h1 h2 h3]
              · intro a ha
                have hamem : a ∈ x :: W2 := List.mem_of_mem_tail ha
                have h1 : a ≠ idx := fun hc => hidxX (hc ▸ hamem)
                have h2 : a ≠ w := fun hc => hdisj (hc ▸ hwmemW) hamem
                have h3 : a ≠ x :=
                  fun hc => (List.nodup_cons.mp hndX).1 (hc ▸ (by simpa using ha))
                rw [hNother a h1 h2 h3]
          · intro a ha b hb
            rw [hw] at ha
            have haw : a = w := by simpa using (by simpa using ha : w = a).symm
            have hbidx : b = idx := (by simpa using hb : idx = b).symm
            subst haw; subst hbidx
            constructor
            · rw [hNw]
            · rw [hNidx]
        · intro a ha
          rw [List.head?_append_of_ne_nil (w1 :: W') (by simp)] at ha
          have hamem : a ∈ w1 :: W' := List.mem_of_mem_head? ha
          have h1 : a ≠ idx := fun hc => hidxW (hc ▸ hamem)
          have h3 : a ≠ x := fun hc =>
            hdisj hamem (hc ▸ List.mem_cons_self x W2)
          have horig : (s.node a).previousNodeIdx = a := by
            refine hr.head_prev a ?_
            rw [hsplit, List.head?_append_of_ne_nil (w1 :: W') (by simp)]
            exact ha
          by_cases h2 : a = w
          · rw [h2] at horig ⊢
            rw [hNw]; exact horig
          · rw [hNother a h1 h2 h3]; exact horig
        · intro a ha
          rw [List.getLast?_append_of_ne_nil (w1 :: W') (by simp),
            List.getLast?_cons_cons] at ha
          have hamem : a ∈ x :: W2 := List.mem_of_mem_getLast? ha
          have h1 : a ≠ idx := fun hc => hidxX (hc ▸ hamem)
          have h2 : a ≠ w := fun hc => hdisj (hc ▸ hwmemW) hamem
          have horig : (s.node a).nextNodeIdx = a := by
            refine hr.last_next a ?_
            rw [hsplit, List.getLast?_append_of_ne_nil (w1 :: W') (by simp)]
            exact ha
          by_cases h3 : a = x
          · rw [h3] at horig ⊢
            rw [hNx]; exact horig
          · rw [hNother a h1 h2 h3]; exact horig
        · have hlt := hr.sumlt
          rw [hsplit, sumD_append, sumD_cons s x W2] at hlt
          rw [sumD_append, hsW, sumD_cons (insertNode s idx d) idx (x :: W2),
            sumD_cons (insertNode s idx d) x W2, hdidx, hdx, hsW2]
          omega
        · intro i hi
          rw [(hfields i).2.1]
          rcases List.mem_append.mp hi with h | h
          · exact hr.reloadlt i (hsplit ▸ List.mem_append_left _ h)
          · rcases List.mem_cons.mp h with h' | h'
            · rw [h']; exact hrelidx
            · exact hr.reloadlt i (hsplit ▸ List.mem_append_right _ h')
      · intro a haW
        have hamem : a ∈ v :: V' := hsplit ▸ List.mem_append_left _ haW
        have : cumOf s (v :: V') a = cumOf s (w1 :: W') a := by
          rw [hsplit]
          exact cumOf_append_left s _ _ a haW
        rw [this]
        exact le_trans (cumOf_le_sumD s _ a haW) hWle
      · intro b hbX
        have hbW : b ∉ w1 :: W' := fun hc => hdisj hc hbX
        have : cumOf s (v :: V') b
            = sumD s (w1 :: W') + cumOf s (x :: W2) b := by
          rw [hsplit]
          exact cumOf_append_right s _ _ b hbW
        rw [this]
        have := head_le_cumOf s x W2 b
        omega
      · rw [cumOf_append_right _ _ _ idx hidxW, hsW, cumOf_cons, if_pos rfl,
          hdidx]
        omega

/-! ### The chain read off the state is determined by the representation -/

theorem chainFrom_succ (s : Scheduler) (i k : Nat) :
    chainFrom s i (k + 1) = i :: chainFrom s ((s.node i).nextNodeIdx) k := rfl

theorem chainFrom_length (s : Scheduler) : ∀ k i, (chainFrom s i k).length = k := by
  intro k
  induction k with
  | zero => intro i; rfl
  | succ n ih => intro i; rw [chainFrom_succ]; simp [ih]

theorem chainFrom_eq (s : Scheduler) :
    ∀ l : List Nat, List.Chain' (linkRel s) l →
      ∀ i, l.head? = some i → chainFrom s i l.length = l := by
  intro l
  induction l with
  | nil => intro _ i hi; simp at hi
  | cons v V ih =>
    intro hch i hi
    have hv : v = i := by simpa using hi
    subst hv
    cases V with
    | nil => rfl
    | cons b V' =>
      obtain ⟨hlk, hch'⟩ := List.chain'_cons.mp hch
      rw [show (v :: b :: V').length = (b :: V').length + 1 from rfl,
        chainFrom_succ, hlk.1]
      rw [ih hch' b rfl]

theorem chainList_length (s : Scheduler) :
    (chainList s).length = s.mActiveNodes :=
  chainFrom_length s s.mActiveNodes s.mNodeStartIdx

theorem chainList_eq_of_rep (s : Scheduler) (l : List Nat) (hr : RepC s l)
    (hlen : s.mActiveNodes = l.length) : chainList s = l := by
  unfold chainList
  rw [hlen]
  cases l with
  | nil => rfl
  | cons v V =>
    have hv : v = s.mNodeStartIdx := hr.head_start v (by simp)
    rw [← hv]
    exact chainFrom_eq s (v :: V) hr.links v rfl

/-- The full state invariant with the chain list made explicit. -/
def Inv (s : Scheduler) (l : List Nat) : Prop :=
  RepC s l ∧ Occ s l ∧ s.mActiveNodes = l.length

theorem wf_inv (s : Scheduler) (h : Wf s) : Inv s (chainList s) := h

theorem inv_wf (s : Scheduler) (l : List Nat) (h : Inv s l) : Wf s := by
  have heq := chainList_eq_of_rep s l h.1 h.2.2
  exact ⟨heq ▸ h.1, heq ▸ h.2.1, heq ▸ h.2.2⟩

theorem inv_chainList (s : Scheduler) (l : List Nat) (h : Inv s l) :
    chainList s = l :=
  chainList_eq_of_rep s l h.1 h.2.2

/-- Along any duplicate-free chain the cumulative deltas are non-decreasing:
partial sums of natural deltas only grow towards the tail. -/
theorem cum_pairwise (s : Scheduler) (l : List Nat) (hnd : l.Nodup) :
    l.Pairwise (fun i j => cumOf s l i ≤ cumOf s l j) := by
  induction l with
  | nil => exact List.Pairwise.nil
  | cons a rest ih =>
    obtain ⟨hna, hnd'⟩ := List.nodup_cons.mp hnd
    refine List.pairwise_cons.mpr ⟨?_, ?_⟩
    · intro j hj
      have hja : a ≠ j := fun hc => hna (hc ▸ hj)
      rw [cumOf_cons, cumOf_cons, if_pos rfl, if_neg hja]
      exact Nat.le_add_right _ _
    · refine List.Pairwise.imp_of_mem ?_ (ih hnd')
      intro i j hi hj hle
      have hia : a ≠ i := fun hc => hna (hc ▸ hi)
      have hja : a ≠ j := fun hc => hna (hc ▸ hj)
      rw [cumOf_cons, cumOf_cons, if_neg hia, if_neg hja]
      omega

/-! ### Soundness of the free-slot scan -/

theorem getFreeSlotAux_sound (s : Scheduler) (hpos : 0 < s.maxNodes) :
    ∀ fuel i k, i < s.maxNodes → getFreeSlotAux s i fuel = some k →
      k < s.maxNodes ∧ (s.node k).callback = none := by
  intro fuel
  induction fuel with
  | zero => intro i k _ h; exact absurd h (by simp [getFreeSlotAux])
  | succ n ih =>
    intro i k hi h
    rw [show getFreeSlotAux s i (n + 1)
        = if i = s.mNodeEndIdx then none
          else if (s.node i).callback = none then some i
          else getFreeSlotAux s ((i + 1) % s.maxNodes) n from rfl] at h
    by_cases h1 : i = s.mNodeEndIdx
    · rw [if_pos h1] at h; exact absurd h (by simp)
    · rw [if_neg h1] at h
      by_cases h2 : (s.node i).callback = none
      · rw [if_pos h2] at h
        obtain rfl : i = k := by simpa using h
        exact ⟨hi, h2⟩
      · rw [if_neg h2] at h
        exact ih _ k (Nat.mod_lt _ hpos) h

theorem getFreeSlot_sound (s : Scheduler) (hpos : 0 < s.maxNodes) (k : Nat)
    (h : getFreeSlot s = some k) :
    k < s.maxNodes ∧ (s.node k).callback = none :=
  getFreeSlotAux_sound s hpos s.maxNodes _ k (Nat.mod_lt _ hpos) h

/-- `RepC` only looks at the chain members' node records and at the cursor
scalars, so it transports across any state change that preserves those. -/
theorem repC_congr (s t : Scheduler) (l : List Nat) (hr : RepC s l)
    (hnodes : ∀ j ∈ l, t.node j = s.node j)
    (hlen : t.nodes.length = s.nodes.length)
    (hmax : t.maxNodes = s.maxNodes)
    (hstart : t.mNodeStartIdx = s.mNodeStartIdx)
    (hend : t.mNodeEndIdx = s.mNodeEndIdx) :
    RepC t l :=
  { len := by rw [hlen, hmax]; exact hr.len
    maxpos := by rw [hmax]; exact hr.maxpos
    maxle := by rw [hmax]; exact hr.maxle
    nodup := hr.nodup
    memlt := by rw [hmax]; exact hr.memlt
    startlt := by rw [hstart, hmax]; exact hr.startlt
    endlt := by rw [hend, hmax]; exact hr.endlt
    head_start := by rw [hstart]; exact hr.head_start
    last_end := by rw [hend]; exact hr.last_end
    empty_se := by rw [hstart, hend]; exact hr.empty_se
    links := by
      refine chain'_of_congr s t l hr.links ?_ ?_
      · intro a ha; rw [hnodes a (List.mem_of_mem_dropLast ha)]
      · intro a ha; rw [hnodes a (List.mem_of_mem_tail ha)]
    head_prev := fun a ha => by
      rw [hnodes a (List.mem_of_mem_head? ha)]; exact hr.head_prev a ha
    last_next := fun a ha => by
      rw [hnodes a (List.mem_of_mem_getLast? ha)]; exact hr.last_next a ha
    sumlt := by
      rw [sumD_congr s t l
        (fun i hi => by simp only [nodeDelta]; rw [hnodes i hi])]
      exact hr.sumlt
    reloadlt := fun i hi => by rw [hnodes i hi]; exact hr.reloadlt i hi }

/-! ### Characterization of `scheduleReload` -/

/-- The watermark-update snippet at the end of both success branches of
`ActionScheduler::scheduleReload`. -/
def wmup (s : Scheduler) : Scheduler :=
  if s.mActiveNodes > s.mActiveNodesWaterMark
  then { s with mActiveNodesWaterMark := s.mActiveNodes } else s

@[simp] theorem wmup_node (s : Scheduler) (i : Nat) : (wmup s).node i = s.node i := by
  unfold wmup; split <;> rfl

@[simp] theorem wmup_max (s : Scheduler) : (wmup s).maxNodes = s.maxNodes := by
  unfold wmup; split <;> rfl

@[simp] theorem wmup_start (s : Scheduler) :
    (wmup s).mNodeStartIdx = s.mNodeStartIdx := by
  unfold wmup; split <;> rfl

@[simp] theorem wmup_end (s : Scheduler) :
    (wmup s).mNodeEndIdx = s.mNodeEndIdx := by
  unfold wmup; split <;> rfl

@[simp] theorem wmup_active (s : Scheduler) :
    (wmup s).mActiveNodes = s.mActiveNodes := by
  unfold wmup; split <;> rfl

@[simp] theorem wmup_len (s : Scheduler) :
    (wmup s).nodes.length = s.nodes.length := by
  unfold wmup; split <;> rfl

@[simp] theorem wmup_delta (s : Scheduler) (i : Nat) :
    nodeDelta (wmup s) i = nodeDelta s i := by
  simp only [nodeDelta, wmup_node]

theorem wmup_cum (s : Scheduler) (l : List Nat) (j : Nat) :
    cumOf (wmup s) l j = cumOf s l j :=
  cumOf_congr s (wmup s) l j (fun i _ => wmup_delta s i)

theorem inv_wmup (s : Scheduler) (l : List Nat) (h : Inv s l) : Inv (wmup s) l := by
  refine ⟨repC_congr s (wmup s) l h.1 (fun j _ => wmup_node s j) (wmup_len s)
    (wmup_max s) (wmup_start s) (wmup_end s), ?_, ?_⟩
  · intro i hi
    rw [wmup_node]
    exact h.2.1 i (by rwa [wmup_max] at hi)
  · rw [wmup_active]; exact h.2.2

theorem scheduleReload_fail_guard (s : Scheduler) (d0 r0 : Nat)
    (cb : Option Nat) (a : Nat)
    (h : cb = none ∨ s.mActiveNodes ≥ s.maxNodes) :
    scheduleReload s d0 r0 cb a = (s, ACTION_SCHEDULER_ID_INVALID) := by
  unfold scheduleReload
  rw [if_pos h]

theorem scheduleReload_fail_noslot (s : Scheduler) (d0 r0 : Nat)
    (cb : Option Nat) (a : Nat)
    (hg : ¬(cb = none ∨ s.mActiveNodes ≥ s.maxNodes))
    (h : getFreeSlot s = none) :
    scheduleReload s d0 r0 cb a = (s, ACTION_SCHEDULER_ID_INVALID) := by
  unfold scheduleReload
  rw [if_neg hg]
  by_cases h2 : s.mActiveNodes = 0
  · rw [if_pos h2, h]
  · rw [if_neg h2, h]

theorem scheduleReload_eq_empty (s : Scheduler) (d0 r0 : Nat) (cb : Option Nat)
    (a k : Nat) (hg : ¬(cb = none ∨ s.mActiveNodes ≥ s.maxNodes))
    (hact : s.mActiveNodes = 0) (hfree : getFreeSlot s = some k)
    (hklen : k < s.nodes.length) :
    (scheduleReload s d0 r0 cb a).1 =
      wmup
        { s.setNode k
            { s.node k with
              usedCounter := ((s.node k).usedCounter + 1) % 256,
              previousNodeIdx := k,
              nextNodeIdx := k,
              delayToPrevious := d0 % u32Mod,
              callback := cb,
              arg := a,
              reload := r0 % u32Mod } with
          mNodeStartIdx := k, mNodeEndIdx := k,
          mActiveNodes := s.mActiveNodes + 1 } := by
  simp only [scheduleReload, wmup]
  rw [if_neg hg, if_pos hact, hfree]
  simp only [node_set_self s k _ hklen]
  simp only [Scheduler.setNode, Scheduler.node]

theorem scheduleReload_eq_insert (s : Scheduler) (d0 r0 : Nat) (cb : Option Nat)
    (a k : Nat) (hg : ¬(cb = none ∨ s.mActiveNodes ≥ s.maxNodes))
    (hact : ¬s.mActiveNodes = 0) (hfree : getFreeSlot s = some k)
    (hklen : k < s.nodes.length) :
    (scheduleReload s d0 r0 cb a).1 =
      wmup
        (insertNode
          { s.setNode k
              { s.node k with
                usedCounter := ((s.node k).usedCounter + 1) % 256,
                callback := cb,
                arg := a,
                delayToPrevious := d0 % u32Mod,
                reload := r0 % u32Mod } with
            mActiveNodes := s.mActiveNodes + 1 }
          k (d0 % u32Mod)) := by
  simp only [scheduleReload, wmup]
  rw [if_neg hg, if_neg hact, hfree]
  simp only [node_set_self s k _ hklen]
  simp only [Scheduler.setNode, Scheduler.node]

/-- A successful registration (free slot found) links the fresh slot into the
chain at the sorted position for its delay: old members keep their cumulative
deltas, the new member's cumulative delta is the (truncated) requested delay,
and no other slot's callback or generation changes. -/
theorem scheduleReload_rep (s : Scheduler) (l : List Nat) (d0 r0 : Nat)
    (cb : Option Nat) (a : Nat) (hInv : Inv s l) (hcb : cb ≠ none)
    (hroom : s.mActiveNodes < s.maxNodes) (k : Nat)
    (hfree : getFreeSlot s = some k) :
    k ∉ l ∧
    ∃ A B, l = A ++ B
      ∧ Inv (scheduleReload s d0 r0 cb a).1 (A ++ k :: B)
      ∧ (∀ x ∈ A, cumOf s l x ≤ d0 % u32Mod)
      ∧ (∀ x ∈ B, d0 % u32Mod < cumOf s l x)
      ∧ cumOf (scheduleReload s d0 r0 cb a).1 (A ++ k :: B) k = d0 % u32Mod
      ∧ (∀ j ∈ l, cumOf (scheduleReload s d0 r0 cb a).1 (A ++ k :: B) j
          = cumOf s l j)
      ∧ ((scheduleReload s d0 r0 cb a).1.node k).callback = cb
      ∧ (∀ j, j ≠ k →
          ((scheduleReload s d0 r0 cb a).1.node j).callback = (s.node j).callback)
      ∧ (∀ j, j ≠ k →
          ((scheduleReload s d0 r0 cb a).1.node j).usedCounter
            = (s.node j).usedCounter)
      ∧ ((scheduleReload s d0 r0 cb a).1.node k).usedCounter
          = ((s.node k).usedCounter + 1) % 256
      ∧ (scheduleReload s d0 r0 cb a).1.maxNodes = s.maxNodes := by
  have hpos : 0 < s.maxNodes := hInv.1.maxpos
  obtain ⟨hklt, hkcb⟩ := getFreeSlot_sound s hpos k hfree
  have hklen : k < s.nodes.length := by rw [hInv.1.len]; exact hklt
  have hknot : k ∉ l := fun hm => ((hInv.2.1 k hklt).mpr hm) hkcb
  have hg : ¬(cb = none ∨ s.mActiveNodes ≥ s.maxNodes) := by
    push_neg
    exact ⟨hcb, hroom⟩
  have hu32 : 0 < u32Mod := by decide
  refine ⟨hknot, ?_⟩
  by_cases hact : s.mActiveNodes = 0
  · -- registration into the empty chain
    have hl : l = [] := by
      have h := hInv.2.2
      rw [hact] at h
      exact List.eq_nil_of_length_eq_zero h.symm
    subst hl
    rw [scheduleReload_eq_empty s d0 r0 cb a k hg hact hfree hklen]
    set N : ActionNode := { s.node k with
      usedCounter := ((s.node k).usedCounter + 1) % 256,
      previousNodeIdx := k,
      nextNodeIdx := k,
      delayToPrevious := d0 % u32Mod,
      callback := cb,
      arg := a,
      reload := r0 % u32Mod } with hN
    set s2 : Scheduler := { s.setNode k N with
      mNodeStartIdx := k, mNodeEndIdx := k,
      mActiveNodes := s.mActiveNodes + 1 } with hs2
    have hs2node : s2.node k = N := by
      show (s.setNode k N).node k = N
      exact node_set_self s k N hklen
    have hs2other : ∀ j, j ≠ k → s2.node j = s.node j := by
      intro j hj
      show (s.setNode k N).node j = s.node j
      exact node_set_ne s k j N hj
    have hs2len : s2.nodes.length = s.nodes.length := by
      show (s.setNode k N).nodes.length = s.nodes.length
      simp [Scheduler.setNode]
    have hs2max : s2.maxNodes = s.maxNodes := rfl
    have hdk : nodeDelta s2 k = d0 % u32Mod := by
      simp only [nodeDelta]; rw [hs2node, hN]
    have hrep2 : RepC s2 [k] :=
      { len := by rw [hs2len, hs2max]; exact hInv.1.len
        maxpos := by rw [hs2max]; exact hpos
        maxle := by rw [hs2max]; exact hInv.1.maxle
        nodup := List.nodup_singleton k
        memlt := by
          intro i hi
          rw [List.mem_singleton.mp hi, hs2max]; exact hklt
        startlt := by rw [hs2max]; exact hklt
        endlt := by rw [hs2max]; exact hklt
        head_start := by
          intro a' ha'
          exact (by simpa using ha' : k = a').symm
        last_end := by
          intro a' ha'
          exact (by simpa using ha' : k = a').symm
        empty_se := fun h => by simp at h
        links := List.chain'_singleton k
        head_prev := by
          intro a' ha'
          have : a' = k := (by simpa using ha' : k = a').symm
          rw [this, hs2node, hN]
        last_next := by
          intro a' ha'
          have : a' = k := (by simpa using ha' : k = a').symm
          rw [this, hs2node, hN]
        sumlt := by
          rw [sumD_cons, hdk]
          have : sumD s2 ([] : List Nat) = 0 := rfl
          rw [this]
          have := Nat.mod_lt d0 hu32
          omega
        reloadlt := by
          intro i hi
          rw [List.mem_singleton.mp hi, hs2node, hN]
          exact Nat.mod_lt r0 hu32 }
    have hOcc2 : Occ s2 [k] := by
      intro i hi
      rw [hs2max] at hi
      by_cases hik : i = k
      · subst hik
        rw [hs2node, hN]
        simp [hcb]
      · rw [hs2other i hik]
        have h0 := hInv.2.1 i hi
        simp only [List.not_mem_nil, iff_false] at h0
        simp [hik, not_not.mp h0]
    have hInv2 : Inv s2 [k] := ⟨hrep2, hOcc2, by show s.mActiveNodes + 1 = 1; omega⟩
    refine ⟨[], [], rfl, inv_wmup s2 [k] hInv2, by simp, by simp, ?_, by simp,
      ?_, ?_, ?_, ?_, ?_⟩
    · rw [List.nil_append, wmup_cum, cumOf_cons, if_pos rfl, hdk]
    · rw [wmup_node, hs2node, hN]
    · intro j hj
      rw [wmup_node, hs2other j hj]
    · intro j hj
      rw [wmup_node, hs2other j hj]
    · rw [wmup_node, hs2node, hN]
    · rw [wmup_max, hs2max]
  · -- registration into a nonempty chain
    have hlne : l ≠ [] := by
      intro h
      rw [h] at hInv
      exact hact (by simpa using hInv.2.2)
    rw [scheduleReload_eq_insert s d0 r0 cb a k hg hact hfree hklen]
    set N : ActionNode := { s.node k with
      usedCounter := ((s.node k).usedCounter + 1) % 256,
      callback := cb,
      arg := a,
      delayToPrevious := d0 % u32Mod,
      reload := r0 % u32Mod } with hN
    set s2 : Scheduler :=
      { s.setNode k N with mActiveNodes := s.mActiveNodes + 1 } with hs2
    have hs2node : s2.node k = N := by
      show (s.setNode k N).node k = N
      exact node_set_self s k N hklen
    have hs2other : ∀ j, j ≠ k → s2.node j = s.node j := by
      intro j hj
      show (s.setNode k N).node j = s.node j
      exact node_set_ne s k j N hj
    have hs2len : s2.nodes.length = s.nodes.length := by
      show (s.setNode k N).nodes.length = s.nodes.length
      simp [Scheduler.setNode]
    have hs2max : s2.maxNodes = s.maxNodes := rfl
    have hrep2 : RepC s2 l :=
      repC_congr s s2 l hInv.1
        (fun j hj => hs2other j (fun hc => hknot (hc ▸ hj)))
        hs2len hs2max rfl rfl
    have hrel2 : (s2.node k).reload < u32Mod := by
      rw [hs2node, hN]
      exact Nat.mod_lt r0 hu32
    have hc2 : ∀ j, cumOf s2 l j = cumOf s l j := by
      intro j
      refine cumOf_congr s s2 l j ?_
      intro i hi
      simp only [nodeDelta]
      rw [hs2other i (fun hc => hknot (hc ▸ hi))]
    obtain ⟨A, B, hAB, hrep', hcondA, hcondB, hcumk, hcums, hcbf, hrelf, hctrf,
      hact', hmax', hpt', hwm', hlen'⟩ :=
      insertNode_rep s2 l k (d0 % u32Mod) hrep2 hlne
        (by rw [hs2max]; exact hklt) hknot (Nat.mod_lt d0 hu32) hrel2
    have hOcc' : Occ (insertNode s2 k (d0 % u32Mod)) (A ++ k :: B) := by
      intro i hi
      rw [hmax', hs2max] at hi
      rw [hcbf i]
      by_cases hik : i = k
      · subst hik
        rw [hs2node, hN]
        simp [hcb]
      · rw [hs2other i hik]
        have h0 := hInv.2.1 i hi
        rw [hAB] at h0
        constructor
        · intro hne'
          rcases List.mem_append.mp (h0.mp hne') with h | h
          · exact List.mem_append_left _ h
          · exact List.mem_append_right _ (List.mem_cons_of_mem k h)
        · intro hmem
          refine h0.mpr ?_
          rcases List.mem_append.mp hmem with h | h
          · exact List.mem_append_left _ h
          · rcases List.mem_cons.mp h with h' | h'
            · exact absurd h' hik
            · exact List.mem_append_right _ h'
    have hInv' : Inv (insertNode s2 k (d0 % u32Mod)) (A ++ k :: B) := by
      refine ⟨hrep', hOcc', ?_⟩
      rw [hact']
      show s.mActiveNodes + 1 = _
      have hlen2 := hInv.2.2
      rw [hAB] at hlen2
      simp [hlen2]
      omega
    refine ⟨A, B, hAB, inv_wmup _ _ hInv', ?_, ?_, ?_, ?_, ?_, ?_, ?_, ?_, ?_⟩
    · intro x hx
      rw [← hc2 x]
      exact hcondA x hx
    · intro x hx
      rw [← hc2 x]
      exact hcondB x hx
    · rw [wmup_cum]; exact hcumk
    · intro j hj
      rw [wmup_cum, hcums j hj, hc2 j]
    · rw [wmup_node, hcbf k, hs2node, hN]
    · intro j hj
      rw [wmup_node, hcbf j, hs2other j hj]
    · intro j hj
      rw [wmup_node, hctrf j, hs2other j hj]
    · rw [wmup_node, hctrf k, hs2node, hN]
    · rw [wmup_max, hmax', hs2max]

/-! ### Characterization of `unschedule`, `clear` and the constructor -/

theorem unschedule_spec (s : Scheduler) (l : List Nat) (hInv : Inv s l) (h : Nat) :
    ((unschedule s h).1 = s ∧ (unschedule s h).2.1 = false)
    ∨ ((unschedule s h).2.1 = true
        ∧ h % u16Mod % 256 ∈ l
        ∧ RemovedFrom s (unschedule s h).1 l (h % u16Mod % 256)) := by
  by_cases h0 : h % u16Mod ≠ ACTION_SCHEDULER_ID_INVALID
  · by_cases hgd : h % u16Mod % 256 < s.maxNodes
        ∧ (s.node (h % u16Mod % 256)).callback ≠ none
        ∧ (s.node (h % u16Mod % 256)).usedCounter = h % u16Mod / 256
    · right
      have hres : unschedule s h
          = (removeNodeAt s (h % u16Mod % 256), true, ACTION_SCHEDULER_ID_INVALID) := by
        simp only [unschedule]
        rw [if_pos h0, if_pos hgd]
      have hmem : h % u16Mod % 256 ∈ l := (hInv.2.1 _ hgd.1).mp hgd.2.1
      refine ⟨by rw [hres], hmem, ?_⟩
      rw [hres]
      exact removeNodeAt_rep s l (h % u16Mod % 256) hInv.1 hInv.2.2 hmem
    · left
      have hres : unschedule s h = (s, false, h % u16Mod) := by
        simp only [unschedule]
        rw [if_pos h0, if_neg hgd]
      rw [hres]
      exact ⟨rfl, rfl⟩
  · left
    have hres : unschedule s h = (s, false, h % u16Mod) := by
      simp only [unschedule]
      rw [if_neg h0]
    rw [hres]
    exact ⟨rfl, rfl⟩

/-- A successful `unschedule` removes exactly the handle's slot from the chain,
preserving the survivors' cumulative deltas, every other slot's callback, and
every generation counter. -/
theorem unschedule_inv (s : Scheduler) (l : List Nat) (hInv : Inv s l) (h : Nat)
    (htrue : (unschedule s h).2.1 = true) :
    h % u16Mod % 256 ∈ l
    ∧ Inv (unschedule s h).1 (l.erase (h % u16Mod % 256))
    ∧ (∀ j ∈ l.erase (h % u16Mod % 256),
        cumOf (unschedule s h).1 (l.erase (h % u16Mod % 256)) j = cumOf s l j)
    ∧ (∀ j, ((unschedule s h).1.node j).callback
        = if j = h % u16Mod % 256 then none else (s.node j).callback)
    ∧ (∀ j, ((unschedule s h).1.node j).usedCounter = (s.node j).usedCounter)
    ∧ (unschedule s h).1.maxNodes = s.maxNodes := by
  rcases unschedule_spec s l hInv h with ⟨_, hf⟩ | ⟨_, hmem, hrm⟩
  · rw [htrue] at hf
    exact absurd hf (by simp)
  · obtain ⟨hrep, hactl, hcbf, hrelf, hctrf, hcums, hmax, hpt, hwm, hlen⟩ := hrm
    refine ⟨hmem, ⟨hrep, ?_, hactl⟩, hcums, hcbf, hctrf, hmax⟩
    intro i hi
    rw [hmax] at hi
    rw [hcbf i]
    by_cases hik : i = h % u16Mod % 256
    · rw [if_pos hik]
      constructor
      · intro hc; exact absurd rfl hc
      · intro hmem'
        exact absurd hik ((hInv.1.nodup.mem_erase_iff).mp hmem').1
    · rw [if_neg hik]
      rw [hInv.2.1 i hi]
      constructor
      · intro hil; exact (hInv.1.nodup.mem_erase_iff).mpr ⟨hik, hil⟩
      · intro hie; exact ((hInv.1.nodup.mem_erase_iff).mp hie).2

theorem getD_replicate_self {α : Type} (n i : Nat) (a : α) :
    (List.replicate n a).getD i a = a := by
  induction n generalizing i with
  | zero => simp [List.getD]
  | succ m ih =>
    cases i with
    | zero => rfl
    | succ j =>
      rw [List.replicate_succ]
      exact ih j

theorem clear_node (s : Scheduler) (i : Nat) :
    (clear s).node i = ActionNode.initial := by
  simp only [Scheduler.node, clear]
  exact getD_replicate_self s.maxNodes i ActionNode.initial

theorem clear_inv (s : Scheduler) (hpos : 0 < s.maxNodes)
    (hle : s.maxNodes ≤ 255) : Inv (clear s) [] := by
  refine ⟨?_, ?_, rfl⟩
  · exact
      { len := by simp [clear]
        maxpos := hpos
        maxle := hle
        nodup := List.nodup_nil
        memlt := by intro i hi; simp at hi
        startlt := hpos
        endlt := hpos
        head_start := by intro a ha; simp at ha
        last_end := by intro a ha; simp at ha
        empty_se := fun _ => rfl
        links := List.chain'_nil
        head_prev := by intro a ha; simp at ha
        last_next := by intro a ha; simp at ha
        sumlt := by show sumD _ [] < u32Mod; show 0 < u32Mod; decide
        reloadlt := by intro i hi; simp at hi }
  · intro i hi
    rw [clear_node]
    simp [ActionNode.initial]

theorem initialScheduler_inv (N : Nat) (h1 : 0 < N) (h255 : N ≤ 255) :
    Inv (initialScheduler N) [] := by
  unfold initialScheduler
  exact clear_inv _ h1 h255

/-! ### Characterization of one `proceed` loop iteration -/

theorem proceedIter_eq_multi (env : Nat → CbBehavior) (s : Scheduler)
    (b : Nat) (hb : (s.node s.mNodeStartIdx).nextNodeIdx = b)
    (hbne : b ≠ s.mNodeStartIdx)
    (hblen : b < s.nodes.length) (hslen : s.mNodeStartIdx < s.nodes.length)
    (hact : s.mActiveNodes - 1 > 0) :
    proceedIter env s =
      (let cur := s.mNodeStartIdx
       let s3 : Scheduler :=
         ({ { s with
              mProceedingTime := (s.mProceedingTime
                + (s.node cur).delayToPrevious) % u32Mod,
              mActiveNodes := s.mActiveNodes - 1 }.setNode b
                { s.node b with previousNodeIdx := b } with
            mNodeStartIdx := b }).setNode cur
           { s.node cur with nextNodeIdx := cur }
       let p := interpCb env s3 cur ((s.node cur).callback)
       let s5 :=
         match p.2 with
         | ActionReturn.oneshot =>
           p.1.setNode cur { (p.1).node cur with callback := none }
         | ActionReturn.reload =>
           if ((p.1).node cur).callback ≠ none then
             let s6 :=
               if (p.1).mActiveNodes = 0 then
                 (p.1).setNode cur
                   { (p.1).node cur with
                     delayToPrevious := ((p.1).node cur).reload }
               else insertNode (p.1) cur (((p.1).node cur).reload)
             { s6 with mActiveNodes := s6.mActiveNodes + 1 }
           else p.1
       (s5, (s.node cur).delayToPrevious,
        (cur, (s.node cur).callback))) := by
  have hsb : s.mNodeStartIdx ≠ b := Ne.symm hbne
  have hb' : (s.nodes.getD s.mNodeStartIdx ActionNode.initial).nextNodeIdx = b := hb
  simp only [proceedIter, Scheduler.node, Scheduler.setNode]
  rw [if_pos hact, hb']
  simp [getD_set_eq, getD_set_ne, hbne, hsb, List.set_set, hblen, hslen]

theorem proceedIter_eq_single (env : Nat → CbBehavior) (s : Scheduler)
    (hact : ¬(s.mActiveNodes - 1 > 0)) :
    proceedIter env s =
      (let cur := s.mNodeStartIdx
       let s3 : Scheduler :=
         { s with
           mProceedingTime := (s.mProceedingTime
             + (s.node cur).delayToPrevious) % u32Mod,
           mActiveNodes := s.mActiveNodes - 1 }.setNode cur
           { s.node cur with nextNodeIdx := cur }
       let p := interpCb env s3 cur ((s.node cur).callback)
       let s5 :=
         match p.2 with
         | ActionReturn.oneshot =>
           p.1.setNode cur { (p.1).node cur with callback := none }
         | ActionReturn.reload =>
           if ((p.1).node cur).callback ≠ none then
             let s6 :=
               if (p.1).mActiveNodes = 0 then
                 (p.1).setNode cur
                   { (p.1).node cur with
                     delayToPrevious := ((p.1).node cur).reload }
               else insertNode (p.1) cur (((p.1).node cur).reload)
             { s6 with mActiveNodes := s6.mActiveNodes + 1 }
           else p.1
       (s5, (s.node cur).delayToPrevious,
        (cur, (s.node cur).callback))) := by
  simp only [proceedIter, Scheduler.node, Scheduler.setNode]
  rw [if_neg hact]

theorem lor_handle (idx c : Nat) (hidx : idx < 256) :
    Nat.lor idx (c <<< 8) = 256 * c + idx := by
  have h28 : (2 : Nat) ^ 8 = 256 := by norm_num
  have hlt : idx < 2 ^ 8 := by rw [h28]; exact hidx
  have hkey := Nat.mul_add_lt_is_or hlt c
  rw [h28] at hkey
  show idx ||| c <<< 8 = 256 * c + idx
  rw [Nat.lor_comm, Nat.shiftLeft_eq, h28, Nat.mul_comm c 256, ← hkey]

theorem generateActionIdAt_spec (t : Scheduler) (idx : Nat) (hidx : idx < 256)
    (hc : (t.node idx).usedCounter < 256) :
    generateActionIdAt t idx = 256 * (t.node idx).usedCounter + idx := by
  unfold generateActionIdAt
  rw [lor_handle idx _ hidx]
  have hlt : 256 * (t.node idx).usedCounter + idx < u16Mod := by
    unfold u16Mod
    omega
  exact Nat.mod_eq_of_lt hlt

/-- A callback calling `unschedule` on its own handle while its slot is
detached either clears the slot's callback (the generation still matches) or,
when the packed handle happens to be the all-zero sentinel (slot 0 with wrapped
generation), does nothing. -/
theorem unschedule_detached (t : Scheduler) (R : List Nat) (cur : Nat)
    (hr : RepC t R) (hlen : t.mActiveNodes = R.length) (hnot : cur ∉ R)
    (hlt : cur < t.maxNodes)
    (hprev : (t.node cur).previousNodeIdx = cur)
    (hnext : (t.node cur).nextNodeIdx = cur)
    (hcb : (t.node cur).callback ≠ none)
    (hc : (t.node cur).usedCounter < 256) :
    (unschedule t (generateActionIdAt t cur)).1 = t
    ∨ (unschedule t (generateActionIdAt t cur)).1
        = t.setNode cur { t.node cur with callback := none } := by
  have hidx256 : cur < 256 := by
    have := hr.maxle
    omega
  have hgen := generateActionIdAt_spec t cur hidx256 hc
  by_cases h0 : generateActionIdAt t cur = 0
  · left
    simp only [unschedule]
    rw [if_neg (by simp [h0, ACTION_SCHEDULER_ID_INVALID])]
  · right
    have hlt16 : generateActionIdAt t cur < u16Mod := by
      rw [hgen]; unfold u16Mod; omega
    have hmod : generateActionIdAt t cur % u16Mod = generateActionIdAt t cur :=
      Nat.mod_eq_of_lt hlt16
    have hid : generateActionIdAt t cur % 256 = cur := by rw [hgen]; omega
    have hdiv : generateActionIdAt t cur / 256 = (t.node cur).usedCounter := by
      rw [hgen]; omega
    have hres : unschedule t (generateActionIdAt t cur)
        = (removeNodeAt t cur, true, ACTION_SCHEDULER_ID_INVALID) := by
      simp only [unschedule]
      rw [hmod, hid, hdiv]
      rw [if_pos (show generateActionIdAt t cur ≠ ACTION_SCHEDULER_ID_INVALID
        from h0)]
      rw [if_pos ⟨hlt, hcb, rfl⟩]
    rw [hres]
    exact removeNodeAt_notmem t R cur hr hlen hnot hlt hprev hnext

/-- Clearing the callback of a slot not on the chain preserves the invariant
and the cumulative deltas. -/
theorem freed_inv (s4 : Scheduler) (h : Nat) (R : List Nat)
    (hrep : RepC s4 R) (hact : s4.mActiveNodes = R.length)
    (hhR : h ∉ R) (hhlen : h < s4.nodes.length)
    (hocc : ∀ i, i < s4.maxNodes → i ≠ h →
      ((s4.node i).callback ≠ none ↔ i ∈ R)) :
    Inv (s4.setNode h { s4.node h with callback := none }) R
    ∧ ∀ j ∈ R, cumOf (s4.setNode h { s4.node h with callback := none }) R j
        = cumOf s4 R j := by
  have hfr : ∀ j, j ≠ h →
      (s4.setNode h { s4.node h with callback := none }).node j = s4.node j :=
    fun j hj => node_set_ne s4 h j _ hj
  constructor
  · refine ⟨repC_congr s4 _ R hrep
      (fun j hj => hfr j (fun hc => hhR (hc ▸ hj)))
      (by show (List.set _ _ _).length = _; simp) rfl rfl rfl, ?_, hact⟩
    intro i hi
    have hi' : i < s4.maxNodes := hi
    by_cases hih : i = h
    · subst hih
      rw [node_set_self s4 i _ hhlen]
      simp [hhR]
    · rw [hfr i hih]
      exact hocc i hi' hih
  · intro j hj
    refine cumOf_congr s4 _ R j ?_
    intro i hi
    simp only [nodeDelta]
    rw [hfr i (fun hc => hhR (hc ▸ hi))]

/-- Re-arming the only slot with its reload interval rebuilds a singleton
chain. -/
theorem rearm_single_inv (s4 : Scheduler) (h : Nat)
    (hmaxpos : 0 < s4.maxNodes) (hmaxle : s4.maxNodes ≤ 255)
    (hlen : s4.nodes.length = s4.maxNodes)
    (hhlt : h < s4.maxNodes)
    (hst : s4.mNodeStartIdx = h) (hen : s4.mNodeEndIdx = h)
    (hprev : (s4.node h).previousNodeIdx = h)
    (hnext : (s4.node h).nextNodeIdx = h)
    (hrel : (s4.node h).reload < u32Mod)
    (hcb : (s4.node h).callback ≠ none)
    (hocc0 : ∀ i, i < s4.maxNodes → i ≠ h → ¬((s4.node i).callback ≠ none))
    (hz : s4.mActiveNodes = 0) :
    Inv { s4.setNode h { s4.node h with delayToPrevious := (s4.node h).reload }
          with mActiveNodes :=
            (s4.setNode h { s4.node h with
              delayToPrevious := (s4.node h).reload }).mActiveNodes + 1 } [h] := by
  have hhlen : h < s4.nodes.length := by rw [hlen]; exact hhlt
  have hnodeh : (s4.setNode h { s4.node h with
      delayToPrevious := (s4.node h).reload }).node h
      = { s4.node h with delayToPrevious := (s4.node h).reload } :=
    node_set_self s4 h _ hhlen
  refine ⟨?_, ?_, ?_⟩
  · refine
      { len := by show (List.set _ _ _).length = s4.maxNodes; simp [hlen]
        maxpos := hmaxpos
        maxle := hmaxle
        nodup := List.nodup_singleton h
        memlt := by intro i hi; rw [List.mem_singleton.mp hi]; exact hhlt
        startlt := by show s4.mNodeStartIdx < s4.maxNodes; rw [hst]; exact hhlt
        endlt := by show s4.mNodeEndIdx < s4.maxNodes; rw [hen]; exact hhlt
        head_start := ?_
        last_end := ?_
        empty_se := fun hcon => by simp at hcon
        links := List.chain'_singleton h
        head_prev := ?_
        last_next := ?_
        sumlt := ?_
        reloadlt := ?_ }
    · intro a ha
      have haeq : a = h := (by simpa using ha : h = a).symm
      rw [haeq]
      show h = s4.mNodeStartIdx
      rw [hst]
    · intro a ha
      have haeq : a = h := (by simpa using ha : h = a).symm
      rw [haeq]
      show h = s4.mNodeEndIdx
      rw [hen]
    · intro a ha
      have haeq : a = h := (by simpa using ha : h = a).symm
      rw [haeq]
      show ((s4.setNode h { s4.node h with
        delayToPrevious := (s4.node h).reload }).node h).previousNodeIdx = h
      rw [hnodeh]
      exact hprev
    · intro a ha
      have haeq : a = h := (by simpa using ha : h = a).symm
      rw [haeq]
      show ((s4.setNode h { s4.node h with
        delayToPrevious := (s4.node h).reload }).node h).nextNodeIdx = h
      rw [hnodeh]
      exact hnext
    · rw [sumD_cons]
      have hd : nodeDelta { s4.setNode h { s4.node h with
          delayToPrevious := (s4.node h).reload } with mActiveNodes :=
            (s4.setNode h { s4.node h with
              delayToPrevious := (s4.node h).reload }).mActiveNodes + 1 } h
          = (s4.node h).reload := by
        simp only [nodeDelta]
        show ((s4.setNode h { s4.node h with
          delayToPrevious := (s4.node h).reload }).node h).delayToPrevious = _
        rw [hnodeh]
      rw [hd]
      simp only [sumD, List.map_nil, List.sum_nil, Nat.add_zero]
      exact hrel
    · intro i hi
      rw [List.mem_singleton.mp hi]
      show ((s4.setNode h { s4.node h with
        delayToPrevious := (s4.node h).reload }).node h).reload < u32Mod
      rw [hnodeh]
      exact hrel
  · intro i hi
    have hi' : i < s4.maxNodes := hi
    by_cases hih : i = h
    · subst hih
      show ((s4.setNode i { s4.node i with
        delayToPrevious := (s4.node i).reload }).node i).callback ≠ none
          ↔ i ∈ [i]
      rw [hnodeh]
      simpa using hcb
    · show ((s4.setNode h { s4.node h with
        delayToPrevious := (s4.node h).reload }).node i).callback ≠ none
          ↔ i ∈ [h]
      rw [node_set_ne s4 h i _ hih]
      constructor
      · intro hc
        exact absurd hc (hocc0 i hi' hih)
      · intro hmem
        exact absurd (List.mem_singleton.mp hmem) hih
  · show (s4.setNode h _).mActiveNodes + 1 = 1
    show s4.mActiveNodes + 1 = 1
    rw [hz]

/-- Re-arming the fired slot into a nonempty chain at its reload interval. -/
theorem rearm_insert_inv (s4 : Scheduler) (h : Nat) (R : List Nat)
    (hrep : RepC s4 R) (hact : s4.mActiveNodes = R.length) (hRne : R ≠ [])
    (hhlt : h < s4.maxNodes) (hhR : h ∉ R)
    (hrel : (s4.node h).reload < u32Mod)
    (hcb : (s4.node h).callback ≠ none)
    (hocc : ∀ i, i < s4.maxNodes → i ≠ h →
      ((s4.node i).callback ≠ none ↔ i ∈ R)) :
    ∃ A B, R = A ++ B
      ∧ Inv { insertNode s4 h ((s4.node h).reload) with
              mActiveNodes :=
                (insertNode s4 h ((s4.node h).reload)).mActiveNodes + 1 }
          (A ++ h :: B)
      ∧ (∀ j ∈ R,
          cumOf { insertNode s4 h ((s4.node h).reload) with
              mActiveNodes :=
                (insertNode s4 h ((s4.node h).reload)).mActiveNodes + 1 }
            (A ++ h :: B) j = cumOf s4 R j)
      ∧ (∀ i, ((insertNode s4 h ((s4.node h).reload)).node i).callback
          = (s4.node i).callback)
      ∧ (∀ i, ((insertNode s4 h ((s4.node h).reload)).node i).reload
          = (s4.node i).reload)
      ∧ (∀ i, ((insertNode s4 h ((s4.node h).reload)).node i).usedCounter
          = (s4.node i).usedCounter)
      ∧ (insertNode s4 h ((s4.node h).reload)).maxNodes = s4.maxNodes
      ∧ (insertNode s4 h ((s4.node h).reload)).nodes.length = s4.nodes.length
      ∧ (insertNode s4 h ((s4.node h).reload)).mActiveNodesWaterMark
          = s4.mActiveNodesWaterMark := by
  obtain ⟨A, B, hAB, hrep', hcondA, hcondB, hcumk, hcums, hcbf, hrelf, hctrf,
    hact', hmax', hpt', hwm', hlen'⟩ :=
    insertNode_rep s4 R h ((s4.node h).reload) hrep hRne hhlt hhR hrel hrel
  refine ⟨A, B, hAB, ⟨?_, ?_, ?_⟩, ?_, hcbf, hrelf, hctrf, hmax', hlen', hwm'⟩
  · exact repC_congr _ _ _ hrep' (fun j _ => rfl) rfl rfl rfl rfl
  · intro i hi
    have hi' : i < s4.maxNodes := by
      have : i < (insertNode s4 h ((s4.node h).reload)).maxNodes := hi
      rwa [hmax'] at this
    show ((insertNode s4 h ((s4.node h).reload)).node i).callback ≠ none ↔ _
    rw [hcbf i]
    by_cases hih : i = h
    · subst hih
      simp [hcb]
    · rw [hocc i hi' hih, hAB]
      constructor
      · intro hmem
        rcases List.mem_append.mp hmem with h' | h'
        · exact List.mem_append_left _ h'
        · exact List.mem_append_right _ (List.mem_cons_of_mem h h')
      · intro hmem
        rcases List.mem_append.mp hmem with h' | h'
        · exact List.mem_append_left _ h'
        · rcases List.mem_cons.mp h' with h'' | h''
          · exact absurd h'' hih
          · exact List.mem_append_right _ h''
  · show (insertNode s4 h ((s4.node h).reload)).mActiveNodes + 1 = _
    rw [hact', hact, hAB]
    simp
    omega
  · intro j hj
    have hstep : cumOf { insertNode s4 h ((s4.node h).reload) with
        mActiveNodes :=
          (insertNode s4 h ((s4.node h).reload)).mActiveNodes + 1 }
        (A ++ h :: B) j
        = cumOf (insertNode s4 h ((s4.node h).reload)) (A ++ h :: B) j :=
      cumOf_congr _ _ _ j (fun i _ => rfl)
    rw [hstep]
    exact hcums j hj

/-- One firing iteration of the `proceed` loop, on a state whose chain is
`h :: R`: the head's delta is consumed and logged together with the head's
callback; the surviving tail keeps its relative order and its cumulative
deltas shrink by exactly the consumed delta; the head is either freed
(one-shot, or cancelled from inside its own callback) or re-inserted at its
reload interval; no other slot's callback, reload or generation changes. -/
theorem proceedIter_inv (env : Nat → CbBehavior) (s : Scheduler) (h : Nat)
    (R : List Nat) (hInv : Inv s (h :: R))
    (hctr : ∀ i, (s.node i).usedCounter < 256) :
    (proceedIter env s).2.1 = nodeDelta s h
    ∧ (proceedIter env s).2.2 = (h, (s.node h).callback)
    ∧ (proceedIter env s).1.maxNodes = s.maxNodes
    ∧ (proceedIter env s).1.nodes.length = s.nodes.length
    ∧ (proceedIter env s).1.mActiveNodesWaterMark = s.mActiveNodesWaterMark
    ∧ (∀ i, ((proceedIter env s).1.node i).usedCounter = (s.node i).usedCounter)
    ∧ (∀ i, ((proceedIter env s).1.node i).reload = (s.node i).reload)
    ∧ (∀ i, i ≠ h →
        ((proceedIter env s).1.node i).callback = (s.node i).callback)
    ∧ ∃ l', Inv (proceedIter env s).1 l'
        ∧ (l' = R ∨ ∃ A B, R = A ++ B ∧ l' = A ++ h :: B)
        ∧ (∀ j ∈ R, cumOf (proceedIter env s).1 l' j + nodeDelta s h
            = cumOf s (h :: R) j) := by
  have hcur : h = s.mNodeStartIdx := hInv.1.head_start h (by simp)
  have hhlt : h < s.maxNodes := hInv.1.memlt h (by simp)
  have hhlen : h < s.nodes.length := by rw [hInv.1.len]; exact hhlt
  have hhR : h ∉ R := (List.nodup_cons.mp hInv.1.nodup).1
  have hactlen : s.mActiveNodes = R.length + 1 := by simpa using hInv.2.2
  have hprevh : (s.node h).previousNodeIdx = h := hInv.1.head_prev h (by simp)
  obtain ⟨s3, heq, hrep3, hact3, hse3, hn3h, hn3o, hmax3, hlen3, hwm3⟩ :
    ∃ s3 : Scheduler,
      proceedIter env s =
        (let p := interpCb env s3 h ((s.node h).callback)
         let s5 :=
           match p.2 with
           | ActionReturn.oneshot =>
             p.1.setNode h { (p.1).node h with callback := none }
           | ActionReturn.reload =>
             if ((p.1).node h).callback ≠ none then
               let s6 :=
                 if (p.1).mActiveNodes = 0 then
                   (p.1).setNode h
                     { (p.1).node h with
                       delayToPrevious := ((p.1).node h).reload }
                 else insertNode (p.1) h (((p.1).node h).reload)
               { s6 with mActiveNodes := s6.mActiveNodes + 1 }
             else p.1
         (s5, (s.node h).delayToPrevious, (h, (s.node h).callback)))
      ∧ RepC s3 R
      ∧ s3.mActiveNodes = R.length
      ∧ (R = [] → s3.mNodeStartIdx = h ∧ s3.mNodeEndIdx = h)
      ∧ s3.node h = { s.node h with nextNodeIdx := h }
      ∧ (∀ j, j ≠ h →
          (s3.node j).callback = (s.node j).callback
          ∧ (s3.node j).reload = (s.node j).reload
          ∧ (s3.node j).usedCounter = (s.node j).usedCounter
          ∧ (s3.node j).delayToPrevious = (s.node j).delayToPrevious)
      ∧ s3.maxNodes = s.maxNodes
      ∧ s3.nodes.length = s.nodes.length
      ∧ s3.mActiveNodesWaterMark = s.mActiveNodesWaterMark := by
    cases R with
    | nil =>
      have hone : s.mActiveNodes = 1 := by simpa using hactlen
      have hact0 : ¬(s.mActiveNodes - 1 > 0) := by omega
      have hend : h = s.mNodeEndIdx := hInv.1.last_end h (by simp)
      refine ⟨({ s with
          mProceedingTime := (s.mProceedingTime
            + (s.node h).delayToPrevious) % u32Mod,
          mActiveNodes := s.mActiveNodes - 1 }).setNode h
            { s.node h with nextNodeIdx := h },
        ?_, ?_, ?_, ?_, ?_, ?_, rfl, ?_, rfl⟩
      · rw [proceedIter_eq_single env s hact0, ← hcur]
      · exact
          { len := by
              show (List.set _ _ _).length = s.maxNodes
              simp [hInv.1.len]
            maxpos := hInv.1.maxpos
            maxle := hInv.1.maxle
            nodup := List.nodup_nil
            memlt := by intro i hi; simp at hi
            startlt := hInv.1.startlt
            endlt := hInv.1.endlt
            head_start := by intro a ha; simp at ha
            last_end := by intro a ha; simp at ha
            empty_se := fun _ => by
              show s.mNodeStartIdx = s.mNodeEndIdx
              rw [← hcur, ← hend]
            links := List.chain'_nil
            head_prev := by intro a ha; simp at ha
            last_next := by intro a ha; simp at ha
            sumlt := by show (0 : Nat) < u32Mod; decide
            reloadlt := by intro i hi; simp at hi }
      · show s.mActiveNodes - 1 = 0
        omega
      · intro _
        exact ⟨hcur.symm, hend.symm⟩
      · exact node_set_self _ h _ hhlen
      · intro j hj
        rw [node_set_ne _ h j _ hj]
        exact ⟨rfl, rfl, rfl, rfl⟩
      · show (List.set _ _ _).length = s.nodes.length
        simp
    | cons b R' =>
      have hbR : b ∈ h :: b :: R' := by simp
      have hbh : b ≠ h := by
        intro hc
        exact hhR (hc ▸ List.mem_cons_self b R')
      have hb : (s.node h).nextNodeIdx = b :=
        (List.chain'_cons.mp hInv.1.links).1.1
      have hbS : (s.node s.mNodeStartIdx).nextNodeIdx = b := by
        rw [← hcur]; exact hb
      have hbne : b ≠ s.mNodeStartIdx := by rw [← hcur]; exact hbh
      have hblt : b < s.maxNodes := hInv.1.memlt b hbR
      have hblen : b < s.nodes.length := by rw [hInv.1.len]; exact hblt
      have hslen : s.mNodeStartIdx < s.nodes.length := by rw [← hcur]; exact hhlen
      have hact' : s.mActiveNodes - 1 > 0 := by
        rw [hactlen]; simp
      have hhb : h ≠ b := Ne.symm hbh
      refine ⟨({ { s with
            mProceedingTime := (s.mProceedingTime
              + (s.node h).delayToPrevious) % u32Mod,
            mActiveNodes := s.mActiveNodes - 1 }.setNode b
              { s.node b with previousNodeIdx := b } with
          mNodeStartIdx := b }).setNode h
            { s.node h with nextNodeIdx := h },
        ?_, ?_, ?_, ?_, ?_, ?_, rfl, ?_, rfl⟩
      · rw [proceedIter_eq_multi env s b hbS hbne hblen hslen hact', ← hcur]
      · -- RepC of the detached state on the tail chain
        have hnb : (({ { s with
              mProceedingTime := (s.mProceedingTime
                + (s.node h).delayToPrevious) % u32Mod,
              mActiveNodes := s.mActiveNodes - 1 }.setNode b
                { s.node b with previousNodeIdx := b } with
            mNodeStartIdx := b }).setNode h
              { s.node h with nextNodeIdx := h }).node b
            = { s.node b with previousNodeIdx := b } := by
          rw [node_set_ne _ h b _ hbh]
          exact node_set_self _ b _ hblen
        have hno : ∀ j, j ≠ h → j ≠ b → (({ { s with
              mProceedingTime := (s.mProceedingTime
                + (s.node h).delayToPrevious) % u32Mod,
              mActiveNodes := s.mActiveNodes - 1 }.setNode b
                { s.node b with previousNodeIdx := b } with
            mNodeStartIdx := b }).setNode h
              { s.node h with nextNodeIdx := h }).node j = s.node j := by
          intro j hjh hjb
          rw [node_set_ne _ h j _ hjh]
          exact node_set_ne _ b j _ hjb
        have hnodupT : (b :: R').Nodup := (List.nodup_cons.mp hInv.1.nodup).2
        have hbnotR' : b ∉ R' := (List.nodup_cons.mp hnodupT).1
        have hchainT : List.Chain' (linkRel s) (b :: R') :=
          (List.chain'_cons.mp hInv.1.links).2
        refine
          { len := by
              show (List.set _ _ _).length = s.maxNodes
              simp [hInv.1.len]
            maxpos := hInv.1.maxpos
            maxle := hInv.1.maxle
            nodup := hnodupT
            memlt := fun i hi => hInv.1.memlt i (List.mem_cons_of_mem h hi)
            startlt := hblt
            endlt := hInv.1.endlt
            head_start := ?_
            last_end := ?_
            empty_se := fun hcon => by simp at hcon
            links := ?_
            head_prev := ?_
            last_next := ?_
            sumlt := ?_
            reloadlt := ?_ }
        · intro a ha
          exact (by simpa using ha : b = a).symm
        · intro a ha
          refine hInv.1.last_end a ?_
          rw [List.getLast?_cons_cons]
          exact ha
        · refine chain'_of_congr s _ (b :: R') hchainT ?_ ?_
          · intro a ha
            have hamem : a ∈ b :: R' := List.mem_of_mem_dropLast ha
            have h1 : a ≠ h := fun hc => hhR (hc ▸ hamem)
            by_cases h2 : a = b
            · rw [h2, hnb]
            · rw [hno a h1 h2]
          · intro a ha
            have hamem : a ∈ R' := by simpa using ha
            have h1 : a ≠ h := fun hc => hhR (hc ▸ List.mem_cons_of_mem b hamem)
            have h2 : a ≠ b := fun hc => hbnotR' (hc ▸ hamem)
            rw [hno a h1 h2]
        · intro a ha
          have haeq : a = b := (by simpa using ha : b = a).symm
          rw [haeq, hnb]
        · intro a ha
          have hamem : a ∈ b :: R' := List.mem_of_mem_getLast? ha
          have h1 : a ≠ h := fun hc => hhR (hc ▸ hamem)
          have horig : (s.node a).nextNodeIdx = a := by
            refine hInv.1.last_next a ?_
            rw [List.getLast?_cons_cons]
            exact ha
          by_cases h2 : a = b
          · rw [h2] at horig ⊢
            rw [hnb]
            exact horig
          · rw [hno a h1 h2]
            exact horig
        · have hsum : sumD
              (({ { s with
                  mProceedingTime := (s.mProceedingTime
                    + (s.node h).delayToPrevious) % u32Mod,
                  mActiveNodes := s.mActiveNodes - 1 }.setNode b
                    { s.node b with previousNodeIdx := b } with
                mNodeStartIdx := b }).setNode h
                  { s.node h with nextNodeIdx := h }) (b :: R')
              = sumD s (b :: R') := by
            refine sumD_congr s _ (b :: R') ?_
            intro i hi
            have h1 : i ≠ h := fun hc => hhR (hc ▸ hi)
            by_cases h2 : i = b
            · simp only [nodeDelta]; rw [h2, hnb]
            · simp only [nodeDelta]; rw [hno i h1 h2]
          rw [hsum]
          have := hInv.1.sumlt
          rw [sumD_cons] at this
          omega
        · intro i hi
          have h1 : i ≠ h := fun hc => hhR (hc ▸ hi)
          by_cases h2 : i = b
          · rw [h2, hnb]
            exact hInv.1.reloadlt b hbR
          · rw [hno i h1 h2]
            exact hInv.1.reloadlt i (List.mem_cons_of_mem h hi)
      · show s.mActiveNodes - 1 = (b :: R').length
        rw [hactlen]
        simp
      · intro hcon
        exact absurd hcon (by simp)
      · exact node_set_self _ h _ (by simpa [Scheduler.setNode] using hhlen)
      · intro j hj
        rw [node_set_ne _ h j _ hj]
        by_cases h2 : j = b
        · have hTj : ({ { s with
              mProceedingTime := (s.mProceedingTime
                + (s.node h).delayToPrevious) % u32Mod,
              mActiveNodes := s.mActiveNodes - 1 }.setNode b
                { s.node b with previousNodeIdx := b } with
            mNodeStartIdx := b }).node j
              = { s.node b with previousNodeIdx := b } := by
            rw [h2]
            show ({ s with
              mProceedingTime := (s.mProceedingTime
                + (s.node h).delayToPrevious) % u32Mod,
              mActiveNodes := s.mActiveNodes - 1 }.setNode b
                { s.node b with previousNodeIdx := b }).node b = _
            exact node_set_self _ b _ hblen
          rw [hTj, h2]
          exact ⟨rfl, rfl, rfl, rfl⟩
        · have hTj : ({ { s with
              mProceedingTime := (s.mProceedingTime
                + (s.node h).delayToPrevious) % u32Mod,
              mActiveNodes := s.mActiveNodes - 1 }.setNode b
                { s.node b with previousNodeIdx := b } with
            mNodeStartIdx := b }).node j = s.node j := by
            show ({ s with
              mProceedingTime := (s.mProceedingTime
                + (s.node h).delayToPrevious) % u32Mod,
              mActiveNodes := s.mActiveNodes - 1 }.setNode b
                { s.node b with previousNodeIdx := b }).node j = s.node j
            exact node_set_ne _ b j _ h2
          rw [hTj]
          exact ⟨rfl, rfl, rfl, rfl⟩
      · show (List.set _ _ _).length = s.nodes.length
        simp
  obtain ⟨k, hk⟩ : ∃ k, (s.node h).callback = some k :=
    Option.ne_none_iff_exists'.mp ((hInv.2.1 h hhlt).mpr (by simp))
  obtain ⟨s4, rv, hp, hs4⟩ : ∃ s4 rv,
      interpCb env s3 h ((s.node h).callback) = (s4, rv)
      ∧ (s4 = s3 ∨ s4 = s3.setNode h { s3.node h with callback := none }) := by
    cases henv : env k with
    | ret r =>
      exact ⟨s3, r, by rw [hk]; simp [interpCb, henv], Or.inl rfl⟩
    | unschedSelf r =>
      refine ⟨(unschedule s3 (generateActionIdAt s3 h)).1, r,
        by rw [hk]; simp [interpCb, henv], ?_⟩
      refine unschedule_detached s3 R h hrep3 hact3 hhR
        (by rw [hmax3]; exact hhlt) ?_ ?_ ?_ ?_
      · rw [hn3h]
        exact hprevh
      · rw [hn3h]
      · rw [hn3h]
        show (s.node h).callback ≠ none
        rw [hk]
        simp
      · rw [hn3h]
        exact hctr h
  have hlen3' : h < s3.nodes.length := by rw [hlen3]; exact hhlen
  have hn4o : ∀ j, j ≠ h →
      (s4.node j).callback = (s.node j).callback
      ∧ (s4.node j).reload = (s.node j).reload
      ∧ (s4.node j).usedCounter = (s.node j).usedCounter
      ∧ (s4.node j).delayToPrevious = (s.node j).delayToPrevious := by
    intro j hj
    rcases hs4 with rfl | rfl
    · exact hn3o j hj
    · rw [node_set_ne s3 h j _ hj]
      exact hn3o j hj
  have hn4h : (s4.node h).usedCounter = (s.node h).usedCounter
      ∧ (s4.node h).reload = (s.node h).reload
      ∧ (s4.node h).previousNodeIdx = h
      ∧ (s4.node h).nextNodeIdx = h := by
    rcases hs4 with rfl | rfl
    · rw [hn3h]
      exact ⟨rfl, rfl, hprevh, rfl⟩
    · rw [node_set_self s3 h _ hlen3', hn3h]
      exact ⟨rfl, rfl, hprevh, rfl⟩
  have hrep4 : RepC s4 R := by
    rcases hs4 with rfl | rfl
    · exact hrep3
    · exact repC_congr s3 _ R hrep3
        (fun j hj => node_set_ne s3 h j _ (fun hc => hhR (hc ▸ hj)))
        (by show (List.set _ _ _).length = _; simp) rfl rfl rfl
  have hact4 : s4.mActiveNodes = R.length := by
    rcases hs4 with rfl | rfl
    · exact hact3
    · exact hact3
  have hse4 : R = [] → s4.mNodeStartIdx = h ∧ s4.mNodeEndIdx = h := by
    intro h0
    rcases hs4 with rfl | rfl
    · exact hse3 h0
    · exact hse3 h0
  have hmax4 : s4.maxNodes = s.maxNodes := by
    rcases hs4 with rfl | rfl
    · exact hmax3
    · exact hmax3
  have hlen4 : s4.nodes.length = s.nodes.length := by
    rcases hs4 with rfl | rfl
    · exact hlen3
    · show (List.set _ _ _).length = _
      simp [hlen3]
  have hwm4 : s4.mActiveNodesWaterMark = s.mActiveNodesWaterMark := by
    rcases hs4 with rfl | rfl
    · exact hwm3
    · exact hwm3
  have hhlt4 : h < s4.maxNodes := by rw [hmax4]; exact hhlt
  have hhlen4 : h < s4.nodes.length := by rw [hlen4]; exact hhlen
  have hocc4 : ∀ i, i < s4.maxNodes → i ≠ h →
      ((s4.node i).callback ≠ none ↔ i ∈ R) := by
    intro i hi hih
    rw [(hn4o i hih).1]
    rw [hInv.2.1 i (by rw [← hmax4]; exact hi)]
    constructor
    · intro hmem
      rcases List.mem_cons.mp hmem with h' | h'
      · exact absurd h' hih
      · exact h'
    · intro hmem
      exact List.mem_cons_of_mem h hmem
  have hcum4 : ∀ j ∈ R, cumOf s4 R j = cumOf s R j := by
    intro j hj
    refine cumOf_congr s s4 R j ?_
    intro i hi
    simp only [nodeDelta]
    exact (hn4o i (fun hc => hhR (hc ▸ hi))).2.2.2
  have hrel4 : (s4.node h).reload < u32Mod := by
    rw [hn4h.2.1]
    exact hInv.1.reloadlt h (by simp)
  have hcons : ∀ j ∈ R, cumOf s (h :: R) j = nodeDelta s h + cumOf s R j := by
    intro j hj
    rw [cumOf_cons, if_neg (fun hc : h = j => hhR (by rw [hc]; exact hj))]
  rw [heq]
  simp only [hp]
  cases rv with
  | oneshot =>
    obtain ⟨hInv5, hcum5⟩ := freed_inv s4 h R hrep4 hact4 hhR hhlen4 hocc4
    refine ⟨by trivial, by trivial, hmax4, ?_, hwm4, ?_, ?_, ?_, ?_⟩
    · show (List.set _ _ _).length = _
      simp [hlen4]
    · intro i
      by_cases hih : i = h
      · subst hih
        have h1 : ((s4.setNode i { s4.node i with callback := none }).node
            i).usedCounter = (s4.node i).usedCounter := by
          rw [node_set_self s4 i _ hhlen4]
        exact h1.trans hn4h.1
      · have h1 : ((s4.setNode h { s4.node h with callback := none }).node
            i).usedCounter = (s4.node i).usedCounter := by
          rw [node_set_ne s4 h i _ hih]
        exact h1.trans (hn4o i hih).2.2.1
    · intro i
      by_cases hih : i = h
      · subst hih
        have h1 : ((s4.setNode i { s4.node i with callback := none }).node
            i).reload = (s4.node i).reload := by
          rw [node_set_self s4 i _ hhlen4]
        exact h1.trans hn4h.2.1
      · have h1 : ((s4.setNode h { s4.node h with callback := none }).node
            i).reload = (s4.node i).reload := by
          rw [node_set_ne s4 h i _ hih]
        exact h1.trans (hn4o i hih).2.1
    · intro i hih
      have h1 : ((s4.setNode h { s4.node h with callback := none }).node
          i).callback = (s4.node i).callback := by
        rw [node_set_ne s4 h i _ hih]
      exact h1.trans (hn4o i hih).1
    · refine ⟨R, hInv5, Or.inl rfl, ?_⟩
      intro j hj
      show cumOf (s4.setNode h { s4.node h with callback := none }) R j
        + nodeDelta s h = cumOf s (h :: R) j
      rw [hcons j hj, ← hcum4 j hj, hcum5 j hj]
      omega
  | reload =>
    by_cases hcbn : (s4.node h).callback ≠ none
    · by_cases hz : s4.mActiveNodes = 0
      · have hR0 : R = [] := by
          have h1 := hact4
          rw [hz] at h1
          exact List.eq_nil_of_length_eq_zero h1.symm
        subst hR0
        obtain ⟨hst4, hen4⟩ := hse4 rfl
        have hocc0 : ∀ i, i < s4.maxNodes → i ≠ h →
            ¬((s4.node i).callback ≠ none) := by
          intro i hi hih
          rw [hocc4 i hi hih]
          simp
        have hrep5 := rearm_single_inv s4 h (by rw [hmax4]; exact hInv.1.maxpos)
          (by rw [hmax4]; exact hInv.1.maxle)
          (by rw [hlen4, hmax4]; exact hInv.1.len)
          hhlt4 hst4 hen4 hn4h.2.2.1 hn4h.2.2.2 hrel4 hcbn hocc0 hz
        simp only [if_pos hcbn, if_pos hz]
        refine ⟨by trivial, by trivial, hmax4, ?_, hwm4, ?_, ?_, ?_, ?_⟩
        · show (List.set _ _ _).length = _
          simp [hlen4]
        · intro i
          by_cases hih : i = h
          · subst hih
            have h1 : ((s4.setNode i { s4.node i with
                delayToPrevious := (s4.node i).reload }).node
                i).usedCounter = (s4.node i).usedCounter := by
              rw [node_set_self s4 i _ hhlen4]
            exact h1.trans hn4h.1
          · have h1 : ((s4.setNode h { s4.node h with
                delayToPrevious := (s4.node h).reload }).node
                i).usedCounter = (s4.node i).usedCounter := by
              rw [node_set_ne s4 h i _ hih]
            exact h1.trans (hn4o i hih).2.2.1
        · intro i
          by_cases hih : i = h
          · subst hih
            have h1 : ((s4.setNode i { s4.node i with
                delayToPrevious := (s4.node i).reload }).node
                i).reload = (s4.node i).reload := by
              rw [node_set_self s4 i _ hhlen4]
            exact h1.trans hn4h.2.1
          · have h1 : ((s4.setNode h { s4.node h with
                delayToPrevious := (s4.node h).reload }).node
                i).reload = (s4.node i).reload := by
              rw [node_set_ne s4 h i _ hih]
            exact h1.trans (hn4o i hih).2.1
        · intro i hih
          have h1 : ((s4.setNode h { s4.node h with
              delayToPrevious := (s4.node h).reload }).node
              i).callback = (s4.node i).callback := by
            rw [node_set_ne s4 h i _ hih]
          exact h1.trans (hn4o i hih).1
        · refine ⟨[h], hrep5, Or.inr ⟨[], [], rfl, rfl⟩, ?_⟩
          intro j hj
          exact absurd hj (List.not_mem_nil j)
      · have hRne : R ≠ [] := by
          intro h0
          rw [h0] at hact4
          exact hz (by simpa using hact4)
        obtain ⟨A, B, hAB, hInv5, hcum5, hcbf5, hrelf5, hctrf5, hmax5, hlen5,
            hwm5⟩ :=
          rearm_insert_inv s4 h R hrep4 hact4 hRne hhlt4 hhR hrel4 hcbn hocc4
        simp only [if_pos hcbn, if_neg hz]
        refine ⟨by trivial, by trivial, ?_, ?_, ?_, ?_, ?_, ?_, ?_⟩
        · exact hmax5.trans hmax4
        · exact hlen5.trans hlen4
        · exact hwm5.trans hwm4
        · intro i
          by_cases hih : i = h
          · subst hih
            exact (hctrf5 i).trans hn4h.1
          · exact (hctrf5 i).trans (hn4o i hih).2.2.1
        · intro i
          by_cases hih : i = h
          · subst hih
            exact (hrelf5 i).trans hn4h.2.1
          · exact (hrelf5 i).trans (hn4o i hih).2.1
        · intro i hih
          exact (hcbf5 i).trans (hn4o i hih).1
        · refine ⟨A ++ h :: B, hInv5, Or.inr ⟨A, B, hAB, rfl⟩, ?_⟩
          intro j hj
          rw [hcons j hj, ← hcum4 j hj]
          rw [hcum5 j hj]
          omega
    · have hcbnone : (s4.node h).callback = none := not_not.mp hcbn
      simp only [if_neg hcbn]
      refine ⟨by trivial, by trivial, hmax4, hlen4, hwm4, ?_, ?_, ?_, ?_⟩
      · intro i
        by_cases hih : i = h
        · subst hih
          exact hn4h.1
        · exact (hn4o i hih).2.2.1
      · intro i
        by_cases hih : i = h
        · subst hih
          exact hn4h.2.1
        · exact (hn4o i hih).2.1
      · intro i hih
        exact (hn4o i hih).1
      · refine ⟨R, ⟨hrep4, ?_, hact4⟩, Or.inl rfl, ?_⟩
        · intro i hi
          by_cases hih : i = h
          · subst hih
            rw [hcbnone]
            simp [hhR]
          · exact hocc4 i hi hih
        · intro j hj
          rw [hcons j hj, ← hcum4 j hj]
          omega

/-- The `proceed` firing loop preserves the invariant; its log grows only with
chain members, the remaining elapsed time never grows, survivors that did not
fire have their remaining times reduced by exactly the consumed time, and no
generation counter and no off-chain callback changes. -/
theorem proceedLoop_inv (env : Nat → CbBehavior) :
    ∀ fuel (s : Scheduler) (l : List Nat) (e : Nat)
      (log : List (Nat × Option Nat)),
      Inv s l → (∀ i, (s.node i).usedCounter < 256) →
      ∃ l' new c,
        Inv (proceedLoop env fuel s e log).1 l'
        ∧ (proceedLoop env fuel s e log).2.2 = log ++ new
        ∧ (proceedLoop env fuel s e log).2.1 + c = e
        ∧ (∀ entry ∈ new, entry.1 ∈ l)
        ∧ (∀ j ∈ l', j ∈ l)
        ∧ (∀ j ∈ l', j ∉ new.map Prod.fst →
            cumOf (proceedLoop env fuel s e log).1 l' j + c = cumOf s l j)
        ∧ (∀ i, ((proceedLoop env fuel s e log).1.node i).usedCounter
            = (s.node i).usedCounter)
        ∧ (∀ i, i ∉ l →
            ((proceedLoop env fuel s e log).1.node i).callback
              = (s.node i).callback)
        ∧ (proceedLoop env fuel s e log).1.maxNodes = s.maxNodes
        ∧ (proceedLoop env fuel s e log).1.nodes.length = s.nodes.length
        ∧ (proceedLoop env fuel s e log).1.mActiveNodesWaterMark
            = s.mActiveNodesWaterMark := by
  intro fuel
  induction fuel with
  | zero =>
    intro s l e log hInv hctr
    exact ⟨l, [], 0, hInv, by simp [proceedLoop], rfl, by simp,
      fun j hj => hj, fun j hj _ => rfl, fun i => rfl, fun i _ => rfl,
      rfl, rfl, rfl⟩
  | succ n ih =>
    intro s l e log hInv hctr
    by_cases hcond : (s.node s.mNodeStartIdx).delayToPrevious ≤ e
        ∧ s.mActiveNodes > 0
    · have hlne : l ≠ [] := by
        intro h0
        rw [h0] at hInv
        have h1 := hInv.2.2
        simp at h1
        omega
      obtain ⟨h, R, rfl⟩ : ∃ h R, l = h :: R := by
        cases l with
        | nil => exact absurd rfl hlne
        | cons a as => exact ⟨a, as, rfl⟩
      have hstep : proceedLoop env (n + 1) s e log
          = proceedLoop env n (proceedIter env s).1
            (e - (proceedIter env s).2.1) (log ++ [(proceedIter env s).2.2]) := by
        simp only [proceedLoop]
        rw [if_pos hcond]
      obtain ⟨hd0, hlog0, hmax0, hlen0, hwm0, hctr0, hrel0, hcb0, l1, hInv1,
        hl1, hcum1⟩ := proceedIter_inv env s h R hInv hctr
      have hctr1 : ∀ i, ((proceedIter env s).1.node i).usedCounter < 256 := by
        intro i
        rw [hctr0 i]
        exact hctr i
      obtain ⟨l', new', c', hInv', hlog', he', hent', hmem', hcum', hctrL, hcbL,
        hmaxL, hlenL, hwmL⟩ :=
        ih (proceedIter env s).1 l1 (e - (proceedIter env s).2.1)
          (log ++ [(proceedIter env s).2.2]) hInv1 hctr1
      rw [hstep]
      have hhs : h = s.mNodeStartIdx := hInv.1.head_start h (by simp)
      have hde : nodeDelta s h ≤ e := by
        have := hcond.1
        rw [← hhs] at this
        exact this
      have hhR : h ∉ R := (List.nodup_cons.mp hInv.1.nodup).1
      have hl1sub : ∀ j ∈ l1, j ∈ h :: R := by
        rcases hl1 with rfl | ⟨A, B, hAB, rfl⟩
        · exact fun j hj => List.mem_cons_of_mem h hj
        · intro j hj
          rcases List.mem_append.mp hj with h' | h'
          · exact List.mem_cons_of_mem h (hAB ▸ List.mem_append_left _ h')
          · rcases List.mem_cons.mp h' with h'' | h''
            · rw [h'']
              exact List.mem_cons_self h R
            · exact List.mem_cons_of_mem h (hAB ▸ List.mem_append_right _ h'')
      have hl1R : ∀ j ∈ l1, j ≠ h → j ∈ R := by
        rcases hl1 with rfl | ⟨A, B, hAB, rfl⟩
        · exact fun j hj _ => hj
        · intro j hj hjh
          rcases List.mem_append.mp hj with h' | h'
          · exact hAB ▸ List.mem_append_left _ h'
          · rcases List.mem_cons.mp h' with h'' | h''
            · exact absurd h'' hjh
            · exact hAB ▸ List.mem_append_right _ h''
      refine ⟨l', (h, (s.node h).callback) :: new', nodeDelta s h + c',
        hInv', ?_, ?_, ?_, ?_, ?_, ?_, ?_, ?_, ?_, ?_⟩
      · rw [hlog', hlog0]
        simp
      · rw [← hd0]
        rw [← hd0] at hde
        omega
      · intro entry hentry
        rcases List.mem_cons.mp hentry with h' | h'
        · rw [h']
          exact List.mem_cons_self h R
        · exact hl1sub entry.1 (hent' entry h')
      · intro j hj
        exact hl1sub j (hmem' j hj)
      · intro j hj hjnot
        have hjh : j ≠ h := by
          intro hc
          exact hjnot (by rw [hc]; simp)
        have hjnew' : j ∉ new'.map Prod.fst := by
          intro hc
          exact hjnot (by simp [hc])
        have h1 := hcum' j hj hjnew'
        have hjR : j ∈ R := hl1R j (hmem' j hj) hjh
        have h2 := hcum1 j hjR
        omega
      · intro i
        rw [hctrL i, hctr0 i]
      · intro i hi
        have hih : i ≠ h := fun hc => hi (hc ▸ List.mem_cons_self h R)
        have hil1 : i ∉ l1 := fun hc => hi (hl1sub i hc)
        rw [hcbL i hil1, hcb0 i hih]
      · rw [hmaxL, hmax0]
      · rw [hlenL, hlen0]
      · rw [hwmL, hwm0]
    · have hstep : proceedLoop env (n + 1) s e log = (s, e, log) := by
        simp only [proceedLoop]
        rw [if_neg hcond]
      rw [hstep]
      exact ⟨l, [], 0, hInv, by simp, rfl, by simp, fun j hj => hj,
        fun j hj _ => rfl, fun i => rfl, fun i _ => rfl, rfl, rfl, rfl⟩

/-- The epilogue of `proceed` keeps the invariant and the log; when the loop
exited properly, every chain member's remaining time shrinks by exactly the
leftover elapsed time. -/
theorem proceedPost_inv (s1 : Scheduler) (eLeft : Nat)
    (log : List (Nat × Option Nat)) (l : List Nat) (hInv : Inv s1 l) :
    Inv (proceedPost (s1, eLeft, log)).1 l
    ∧ (proceedPost (s1, eLeft, log)).2.2 = log
    ∧ (∀ i, ((proceedPost (s1, eLeft, log)).1.node i).usedCounter
        = (s1.node i).usedCounter)
    ∧ (∀ i, ((proceedPost (s1, eLeft, log)).1.node i).callback
        = (s1.node i).callback)
    ∧ (proceedPost (s1, eLeft, log)).1.maxNodes = s1.maxNodes
    ∧ (proceedPost (s1, eLeft, log)).1.nodes.length = s1.nodes.length
    ∧ (proceedPost (s1, eLeft, log)).1.mActiveNodesWaterMark
        = s1.mActiveNodesWaterMark
    ∧ (¬((s1.node s1.mNodeStartIdx).delayToPrevious ≤ eLeft
          ∧ s1.mActiveNodes > 0) →
        ∀ j ∈ l, cumOf (proceedPost (s1, eLeft, log)).1 l j + eLeft
          = cumOf s1 l j) := by
  by_cases hact : s1.mActiveNodes > 0
  · have hlne : l ≠ [] := by
      intro h0
      rw [h0] at hInv
      have h1 := hInv.2.2
      simp at h1
      omega
    obtain ⟨hd, R, rfl⟩ : ∃ hd R, l = hd :: R := by
      cases l with
      | nil => exact absurd rfl hlne
      | cons a as => exact ⟨a, as, rfl⟩
    have hhs : hd = s1.mNodeStartIdx := hInv.1.head_start hd (by simp)
    have hhlt : hd < s1.maxNodes := hInv.1.memlt hd (by simp)
    have hhlen : hd < s1.nodes.length := by rw [hInv.1.len]; exact hhlt
    have hhR : hd ∉ R := (List.nodup_cons.mp hInv.1.nodup).1
    have hspec : proceedPost (s1, eLeft, log)
        = ({ s1.setNode s1.mNodeStartIdx
              { s1.node s1.mNodeStartIdx with
                delayToPrevious :=
                  (s1.node s1.mNodeStartIdx).delayToPrevious - eLeft } with
            mProceedingTime :=
              ((s1.setNode s1.mNodeStartIdx
                { s1.node s1.mNodeStartIdx with
                  delayToPrevious :=
                    (s1.node s1.mNodeStartIdx).delayToPrevious
                      - eLeft }).mProceedingTime + eLeft) % u32Mod },
          !log.isEmpty, log) := by
      simp only [proceedPost]
      rw [if_pos hact]
    rw [hspec, ← hhs]
    have hnodeh : ((s1.setNode hd
        { s1.node hd with
          delayToPrevious := (s1.node hd).delayToPrevious - eLeft }).node hd)
        = { s1.node hd with
            delayToPrevious := (s1.node hd).delayToPrevious - eLeft } :=
      node_set_self s1 hd _ hhlen
    have hnodeo : ∀ j, j ≠ hd → ((s1.setNode hd
        { s1.node hd with
          delayToPrevious := (s1.node hd).delayToPrevious - eLeft }).node j)
        = s1.node j :=
      fun j hj => node_set_ne s1 hd j _ hj
    have hrepX : RepC (s1.setNode hd
        { s1.node hd with
          delayToPrevious := (s1.node hd).delayToPrevious - eLeft }) (hd :: R) := by
      refine
        { len := by show (List.set _ _ _).length = _; simp [hInv.1.len]
          maxpos := hInv.1.maxpos
          maxle := hInv.1.maxle
          nodup := hInv.1.nodup
          memlt := hInv.1.memlt
          startlt := hInv.1.startlt
          endlt := hInv.1.endlt
          head_start := hInv.1.head_start
          last_end := hInv.1.last_end
          empty_se := hInv.1.empty_se
          links := ?_
          head_prev := ?_
          last_next := ?_
          sumlt := ?_
          reloadlt := ?_ }
      · refine chain'_of_congr s1 _ (hd :: R) hInv.1.links ?_ ?_
        · intro a ha
          by_cases h2 : a = hd
          · rw [h2, hnodeh]
          · rw [hnodeo a h2]
        · intro a ha
          have hamem : a ∈ R := by simpa using ha
          have h2 : a ≠ hd := fun hc => hhR (hc ▸ hamem)
          rw [hnodeo a h2]
      · intro a ha
        have haeq : a = hd := (by simpa using ha : hd = a).symm
        rw [haeq, hnodeh]
        exact hInv.1.head_prev hd (by simp)
      · intro a ha
        have horig : (s1.node a).nextNodeIdx = a := hInv.1.last_next a ha
        by_cases h2 : a = hd
        · rw [h2] at horig ⊢
          rw [hnodeh]
          exact horig
        · rw [hnodeo a h2]
          exact horig
      · have hsum : sumD (s1.setNode hd
            { s1.node hd with
              delayToPrevious := (s1.node hd).delayToPrevious - eLeft }) R
            = sumD s1 R := by
          refine sumD_congr s1 _ R ?_
          intro i hi
          simp only [nodeDelta]
          rw [hnodeo i (fun hc => hhR (hc ▸ hi))]
        have hdel : nodeDelta (s1.setNode hd
            { s1.node hd with
              delayToPrevious := (s1.node hd).delayToPrevious - eLeft }) hd
            = (s1.node hd).delayToPrevious - eLeft := by
          simp only [nodeDelta]
          rw [hnodeh]
        have horig := hInv.1.sumlt
        rw [sumD_cons] at horig
        rw [sumD_cons, hsum, hdel]
        simp only [nodeDelta] at horig
        omega
      · intro i hi
        by_cases h2 : i = hd
        · rw [h2, hnodeh]
          exact hInv.1.reloadlt hd (by simp)
        · rw [hnodeo i h2]
          exact hInv.1.reloadlt i hi
    have hOccX : Occ (s1.setNode hd
        { s1.node hd with
          delayToPrevious := (s1.node hd).delayToPrevious - eLeft }) (hd :: R) := by
      intro i hi
      have hi2 : i < s1.maxNodes := hi
      by_cases h2 : i = hd
      · rw [h2, hnodeh]
        exact hInv.2.1 hd hhlt
      · rw [hnodeo i h2]
        exact hInv.2.1 i hi2
    refine ⟨⟨?_, hOccX, hInv.2.2⟩, by trivial, ?_, ?_, by trivial, ?_, by trivial, ?_⟩
    · exact repC_congr _ _ _ hrepX (fun j _ => rfl) rfl rfl rfl rfl
    · intro i
      by_cases h2 : i = hd
      · show ((s1.setNode hd _).node i).usedCounter = _
        rw [h2, hnodeh]
      · show ((s1.setNode hd _).node i).usedCounter = _
        rw [hnodeo i h2]
    · intro i
      by_cases h2 : i = hd
      · show ((s1.setNode hd _).node i).callback = _
        rw [h2, hnodeh]
      · show ((s1.setNode hd _).node i).callback = _
        rw [hnodeo i h2]
    · show (List.set _ _ _).length = _
      simp
    · intro hdone j hj
      show cumOf ({ s1.setNode hd
          { s1.node hd with
            delayToPrevious := (s1.node hd).delayToPrevious - eLeft } with
          mProceedingTime :=
            ((s1.setNode hd
              { s1.node hd with
                delayToPrevious :=
                  (s1.node hd).delayToPrevious - eLeft }).mProceedingTime
              + eLeft) % u32Mod }) (hd :: R) j + eLeft = cumOf s1 (hd :: R) j
      have hlt_e : eLeft < (s1.node hd).delayToPrevious := by
        by_contra hcon
        exact hdone ⟨by omega, hact⟩
      have hb : nodeDelta s1 hd = eLeft + nodeDelta ({ s1.setNode hd
          { s1.node hd with
            delayToPrevious := (s1.node hd).delayToPrevious - eLeft } with
          mProceedingTime :=
            ((s1.setNode hd
              { s1.node hd with
                delayToPrevious :=
                  (s1.node hd).delayToPrevious - eLeft }).mProceedingTime
              + eLeft) % u32Mod }) hd := by
        have hdel : nodeDelta ({ s1.setNode hd
            { s1.node hd with
              delayToPrevious := (s1.node hd).delayToPrevious - eLeft } with
            mProceedingTime :=
            ((s1.setNode hd
              { s1.node hd with
                delayToPrevious :=
                  (s1.node hd).delayToPrevious - eLeft }).mProceedingTime
              + eLeft) % u32Mod }) hd
            = (s1.node hd).delayToPrevious - eLeft := by
          simp only [nodeDelta]
          show ((s1.setNode hd _).node hd).delayToPrevious = _
          rw [hnodeh]
        rw [hdel]
        simp only [nodeDelta]
        omega
      have hB : ∀ i ∈ R, nodeDelta s1 i = nodeDelta ({ s1.setNode hd
          { s1.node hd with
            delayToPrevious := (s1.node hd).delayToPrevious - eLeft } with
          mProceedingTime :=
            ((s1.setNode hd
              { s1.node hd with
                delayToPrevious :=
                  (s1.node hd).delayToPrevious - eLeft }).mProceedingTime
              + eLeft) % u32Mod }) i := by
        intro i hi
        simp only [nodeDelta]
        show _ = ((s1.setNode hd _).node i).delayToPrevious
        rw [hnodeo i (fun hc => hhR (hc ▸ hi))]
      have hbump := cumOf_head_bump _ s1 hd R eLeft hb hB j
      omega
  · have hspec : proceedPost (s1, eLeft, log) = (s1, !log.isEmpty, log) := by
      simp only [proceedPost]
      rw [if_neg hact]
    rw [hspec]
    refine ⟨hInv, rfl, fun i => rfl, fun i => rfl, rfl, rfl, rfl, ?_⟩
    intro _ j hj
    have h1 := hInv.2.2
    have h2 : l = [] := by
      cases l with
      | nil => rfl
      | cons a as =>
        rw [h1] at hact
        simp at hact
    rw [h2] at hj
    simp at hj

def loopDone (r : Scheduler × Nat × List (Nat × Option Nat)) : Prop :=
  ¬ ((r.1.node r.1.mNodeStartIdx).delayToPrevious ≤ r.2.1 ∧ r.1.mActiveNodes > 0)

instance (r : Scheduler × Nat × List (Nat × Option Nat)) : Decidable (loopDone r) := by
  unfold loopDone
  infer_instance

theorem proceedPost_inv' (q : Scheduler × Nat × List (Nat × Option Nat))
    (l : List Nat) (hInv : Inv q.1 l) :
    Inv (proceedPost q).1 l
    ∧ (proceedPost q).2.2 = q.2.2
    ∧ (∀ i, ((proceedPost q).1.node i).usedCounter = (q.1.node i).usedCounter)
    ∧ (∀ i, ((proceedPost q).1.node i).callback = (q.1.node i).callback)
    ∧ (proceedPost q).1.maxNodes = q.1.maxNodes
    ∧ (proceedPost q).1.nodes.length = q.1.nodes.length
    ∧ (proceedPost q).1.mActiveNodesWaterMark = q.1.mActiveNodesWaterMark
    ∧ (loopDone q →
        ∀ j ∈ l, cumOf (proceedPost q).1 l j + q.2.1 = cumOf q.1 l j) := by
  obtain ⟨s1, eLeft, log⟩ := q
  exact proceedPost_inv s1 eLeft log l hInv

/-- `proceed` (with its full log) preserves the invariant: every fired slot
was a chain member, the surviving chain is a subset of the old one, no
generation counter changes, no off-chain callback changes, and — whenever the
firing loop terminated properly — every surviving member that did not fire has
its remaining time reduced by exactly the (truncated) elapsed time. -/
theorem proceedFull_inv (env : Nat → CbBehavior) (t : Scheduler) (e0 : Nat)
    (l : List Nat) (hInv : Inv t l)
    (hctr : ∀ i, (t.node i).usedCounter < 256) :
    ∃ l', Inv (proceedFull env t e0).1 l'
      ∧ (∀ j ∈ l', j ∈ l)
      ∧ (∀ entry ∈ (proceedFull env t e0).2.2, entry.1 ∈ l)
      ∧ (∀ i, ((proceedFull env t e0).1.node i).usedCounter
          = (t.node i).usedCounter)
      ∧ (∀ i, i ∉ l →
          ((proceedFull env t e0).1.node i).callback = (t.node i).callback)
      ∧ (proceedFull env t e0).1.maxNodes = t.maxNodes
      ∧ (proceedFull env t e0).1.nodes.length = t.nodes.length
      ∧ (proceedFull env t e0).1.mActiveNodesWaterMark = t.mActiveNodesWaterMark
      ∧ (loopDone (proceedLoop env (proceedFuel t (e0 % u32Mod)) t
            (e0 % u32Mod) []) →
          ∀ j ∈ l', j ∉ (proceedFull env t e0).2.2.map Prod.fst →
            cumOf (proceedFull env t e0).1 l' j + e0 % u32Mod = cumOf t l j) := by
  obtain ⟨l', new, c, hInvL, hlogL, heL, hentL, hmemL, hcumL, hctrL, hcbL,
    hmaxL, hlenL, hwmL⟩ :=
    proceedLoop_inv env (proceedFuel t (e0 % u32Mod)) t l (e0 % u32Mod) []
      hInv hctr
  obtain ⟨hInvP, hlogP, hctrP, hcbP, hmaxP, hlenP, hwmP, hcumP⟩ :=
    proceedPost_inv' (proceedLoop env (proceedFuel t (e0 % u32Mod)) t
      (e0 % u32Mod) []) l' hInvL
  have hunf : proceedFull env t e0
      = proceedPost (proceedLoop env (proceedFuel t (e0 % u32Mod)) t
          (e0 % u32Mod) []) := rfl
  rw [hunf]
  have hnew : (proceedLoop env (proceedFuel t (e0 % u32Mod)) t
      (e0 % u32Mod) []).2.2 = new := by simpa using hlogL
  refine ⟨l', hInvP, hmemL, ?_, ?_, ?_, ?_, ?_, ?_, ?_⟩
  · intro entry hentry
    rw [hlogP, hnew] at hentry
    exact hentL entry hentry
  · intro i
    rw [hctrP i, hctrL i]
  · intro i hi
    rw [hcbP i, hcbL i hi]
  · rw [hmaxP, hmaxL]
  · rw [hlenP, hlenL]
  · rw [hwmP, hwmL]
  · intro hdone j hj hfired
    have h1 := hcumP hdone j hj
    have h2 : j ∉ new.map Prod.fst := by
      intro hc
      apply hfired
      rw [hlogP, hnew]
      exact hc
    have h3 := hcumL j hj h2
    omega

/-! ### Characterization of the `unscheduleAll` walk -/

theorem unscheduleAllLoop_inv (cb : Option Nat) :
    ∀ fuel (t : Scheduler) (K : List Nat) (c : Nat) (V' : List Nat)
      (ret : Bool),
      (c :: V').length ≤ fuel → Inv t (K ++ c :: V') →
      ∃ K2, (∀ j ∈ K2, j ∈ c :: V')
        ∧ Inv (unscheduleAllLoop cb fuel t c ret).1 (K ++ K2)
        ∧ (∀ i, ((unscheduleAllLoop cb fuel t c ret).1.node i).usedCounter
            = (t.node i).usedCounter)
        ∧ (∀ i, i ∉ c :: V' →
            ((unscheduleAllLoop cb fuel t c ret).1.node i).callback
              = (t.node i).callback)
        ∧ (unscheduleAllLoop cb fuel t c ret).1.maxNodes = t.maxNodes
        ∧ (unscheduleAllLoop cb fuel t c ret).1.nodes.length = t.nodes.length
        ∧ (unscheduleAllLoop cb fuel t c ret).1.mActiveNodesWaterMark
            = t.mActiveNodesWaterMark := by
  intro fuel
  induction fuel with
  | zero =>
    intro t K c V' ret hlen hInv
    simp at hlen
  | succ n ih =>
    intro t K c V' ret hlen hInv
    have hcmem : c ∈ K ++ c :: V' :=
      List.mem_append_right _ (List.mem_cons_self c V')
    have hnodup := hInv.1.nodup
    obtain ⟨hndK, hndV, hdisj⟩ := List.nodup_append.mp hnodup
    have hcK : c ∉ K := fun hc => hdisj hc (List.mem_cons_self c V')
    have hcV' : c ∉ V' := (List.nodup_cons.mp hndV).1
    by_cases hend : c = t.mNodeEndIdx
    · have hV'nil : V' = [] := by
        cases V' with
        | nil => rfl
        | cons b V'' =>
          exfalso
          have hg : (K ++ c :: b :: V'').getLast?
              = (b :: V'').getLast? := by
            rw [List.getLast?_append_of_ne_nil K (by simp),
              List.getLast?_cons_cons]
          have hgl : (b :: V'').getLast? = some ((b :: V'').getLast (by simp)) :=
            List.getLast?_eq_getLast _ _
          have hge : (b :: V'').getLast (by simp) = t.mNodeEndIdx := by
            refine hInv.1.last_end _ ?_
            rw [hg, hgl]
            rfl
          have hgmem : (b :: V'').getLast (by simp) ∈ b :: V'' :=
            List.getLast_mem _
          rw [hge, ← hend] at hgmem
          exact hcV' hgmem
      subst hV'nil
      by_cases hmatch : (t.node c).callback = cb
      · have hres : unscheduleAllLoop cb (n + 1) t c ret
            = (removeNodeAt t c, true) := by
          simp only [unscheduleAllLoop]
          rw [if_pos hmatch, if_pos hend]
        rw [hres]
        obtain ⟨hrep', hact', hcbf, hrelf, hctrf, hcums, hmax', hpt', hwm',
          hlen'⟩ := removeNodeAt_rep t (K ++ [c]) c hInv.1 hInv.2.2 (by simp)
        have herase : (K ++ [c]).erase c = K := by
          rw [List.erase_append_right _ hcK, List.erase_cons_head]
          simp
        rw [herase] at hrep' hact'
        refine ⟨[], by simp, ⟨by simpa using hrep', ?_, by simpa using hact'⟩,
          hctrf, ?_, hmax', hlen', hwm'⟩
        · intro i hi
          rw [hmax'] at hi
          rw [hcbf i]
          by_cases hic : i = c
          · rw [if_pos hic]
            constructor
            · intro hc
              exact absurd rfl hc
            · intro hmem
              rw [← List.append_nil K] at hcK
              exact absurd (hic ▸ hmem) (by simpa using hcK)
          · rw [if_neg hic]
            rw [hInv.2.1 i hi]
            constructor
            · intro hmem
              rcases List.mem_append.mp hmem with h' | h'
              · simpa using h'
              · exact absurd (by simpa using h') hic
            · intro hmem
              exact List.mem_append_left _ (by simpa using hmem)
        · intro i hi
          have hic : i ≠ c := by simpa using hi
          rw [hcbf i, if_neg hic]
      · have hres : unscheduleAllLoop cb (n + 1) t c ret = (t, ret) := by
          simp only [unscheduleAllLoop]
          rw [if_neg hmatch, if_pos hend]
        rw [hres]
        exact ⟨[c], fun j hj => hj, hInv, fun i => rfl, fun i _ => rfl,
          rfl, rfl, rfl⟩
    · obtain ⟨b, V'', rfl⟩ : ∃ b V'', V' = b :: V'' := by
        cases V' with
        | nil =>
          exfalso
          have hg : (K ++ [c]).getLast? = some c := by
            rw [List.getLast?_append_of_ne_nil K (by simp)]
            rfl
          exact hend (hInv.1.last_end c (by rw [hg]; rfl))
        | cons b V'' => exact ⟨b, V'', rfl⟩
      have hchainR : List.Chain' (linkRel t) (c :: b :: V'') :=
        (List.chain'_append.mp (hInv.1.links)).2.1
      have hnext : (t.node c).nextNodeIdx = b :=
        (List.chain'_cons.mp hchainR).1.1
      have hlen2 : (b :: V'').length ≤ n := by
        simp at hlen ⊢
        omega
      by_cases hmatch : (t.node c).callback = cb
      · have hres : unscheduleAllLoop cb (n + 1) t c ret
            = unscheduleAllLoop cb n (removeNodeAt t c)
                ((t.node c).nextNodeIdx) true := by
          simp only [unscheduleAllLoop]
          rw [if_pos hmatch, if_neg hend]
        obtain ⟨hrep', hact', hcbf, hrelf, hctrf, hcums, hmax', hpt', hwm',
          hlen'⟩ := removeNodeAt_rep t (K ++ c :: b :: V'') c hInv.1 hInv.2.2
            (by simp)
        have herase : (K ++ c :: b :: V'').erase c = K ++ b :: V'' := by
          rw [List.erase_append_right _ hcK, List.erase_cons_head]
        rw [herase] at hrep' hact'
        have hInv2 : Inv (removeNodeAt t c) (K ++ b :: V'') := by
          refine ⟨hrep', ?_, hact'⟩
          intro i hi
          rw [hmax'] at hi
          rw [hcbf i]
          by_cases hic : i = c
          · rw [if_pos hic]
            constructor
            · intro hc
              exact absurd rfl hc
            · intro hmem
              rcases List.mem_append.mp (hic ▸ hmem) with h' | h'
              · exact (hcK h').elim
              · exact (hcV' h').elim
          · rw [if_neg hic]
            rw [hInv.2.1 i hi]
            constructor
            · intro hmem
              rcases List.mem_append.mp hmem with h' | h'
              · exact List.mem_append_left _ h'
              · rcases List.mem_cons.mp h' with h'' | h''
                · exact absurd h'' hic
                · exact List.mem_append_right _ h''
            · intro hmem
              rcases List.mem_append.mp hmem with h' | h'
              · exact List.mem_append_left _ h'
              · exact List.mem_append_right _ (List.mem_cons_of_mem c h')
        obtain ⟨K2, hK2, hInvR, hctrR, hcbR, hmaxR, hlenR, hwmR⟩ :=
          ih (removeNodeAt t c) K b V'' true hlen2 hInv2
        rw [hres, hnext]
        refine ⟨K2, fun j hj => List.mem_cons_of_mem c (hK2 j hj), hInvR,
          ?_, ?_, ?_, ?_, ?_⟩
        · intro i
          rw [hctrR i, hctrf i]
        · intro i hi
          have hic : i ≠ c := fun hc => hi (hc ▸ List.mem_cons_self c _)
          have hibV : i ∉ b :: V'' := fun hc => hi (List.mem_cons_of_mem c hc)
          rw [hcbR i hibV, hcbf i, if_neg hic]
        · rw [hmaxR, hmax']
        · rw [hlenR, hlen']
        · rw [hwmR, hwm']
      · have hres : unscheduleAllLoop cb (n + 1) t c ret
            = unscheduleAllLoop cb n t ((t.node c).nextNodeIdx) ret := by
          simp only [unscheduleAllLoop]
          rw [if_neg hmatch, if_neg hend]
        have hInv2 : Inv t ((K ++ [c]) ++ b :: V'') := by
          have : (K ++ [c]) ++ b :: V'' = K ++ c :: b :: V'' := by simp
          rw [this]
          exact hInv
        obtain ⟨K2, hK2, hInvR, hctrR, hcbR, hmaxR, hlenR, hwmR⟩ :=
          ih t (K ++ [c]) b V'' ret hlen2 hInv2
        rw [hres, hnext]
        refine ⟨c :: K2, ?_, ?_, hctrR, ?_, hmaxR, hlenR, hwmR⟩
        · intro j hj
          rcases List.mem_cons.mp hj with h' | h'
          · rw [h']
            exact List.mem_cons_self c _
          · exact List.mem_cons_of_mem c (hK2 j h')
        · have : K ++ c :: K2 = (K ++ [c]) ++ K2 := by simp
          rw [this]
          exact hInvR
        · intro i hi
          have hibV : i ∉ b :: V'' := fun hc => hi (List.mem_cons_of_mem c hc)
          exact hcbR i hibV

/-- `unscheduleAll` preserves the invariant: the surviving chain is a
subsequence of the old members, and counters and off-chain callbacks are
untouched. -/
theorem unscheduleAll_inv (t : Scheduler) (cb : Option Nat) (l : List Nat)
    (hInv : Inv t l) :
    ∃ l2, (∀ j ∈ l2, j ∈ l)
      ∧ Inv (unscheduleAll t cb).1 l2
      ∧ (∀ i, ((unscheduleAll t cb).1.node i).usedCounter
          = (t.node i).usedCounter)
      ∧ (∀ i, i ∉ l →
          ((unscheduleAll t cb).1.node i).callback = (t.node i).callback)
      ∧ (unscheduleAll t cb).1.maxNodes = t.maxNodes
      ∧ (unscheduleAll t cb).1.nodes.length = t.nodes.length
      ∧ (unscheduleAll t cb).1.mActiveNodesWaterMark
          = t.mActiveNodesWaterMark := by
  cases l with
  | nil =>
    have hse : t.mNodeStartIdx = t.mNodeEndIdx := hInv.1.empty_se rfl
    have hslt : t.mNodeStartIdx < t.maxNodes := hInv.1.startlt
    have hslen : t.mNodeStartIdx < t.nodes.length := by
      rw [hInv.1.len]
      exact hslt
    have hscb : (t.node t.mNodeStartIdx).callback = none := by
      have h0 := hInv.2.1 t.mNodeStartIdx hslt
      simp only [List.not_mem_nil, iff_false] at h0
      exact not_not.mp h0
    have hact0 : t.mActiveNodes = 0 := by simpa using hInv.2.2
    have hfuel : ∃ m, t.maxNodes + 1 = m + 1 := ⟨t.maxNodes, rfl⟩
    obtain ⟨m, hm⟩ := hfuel
    by_cases hmatch : (t.node t.mNodeStartIdx).callback = cb
    · have hres : unscheduleAll t cb
          = (removeNodeAt t t.mNodeStartIdx, true) := by
        unfold unscheduleAll
        rw [hm]
        simp only [unscheduleAllLoop]
        rw [if_pos hmatch, if_pos hse]
      have hrm : removeNodeAt t t.mNodeStartIdx
          = t.setNode t.mNodeStartIdx
              { t.node t.mNodeStartIdx with callback := none } :=
        removeNodeAt_zero_spec t t.mNodeStartIdx hslt hact0
      rw [hres, hrm]
      refine ⟨[], by simp, ⟨?_, ?_, ?_⟩, ?_, ?_, rfl, ?_, rfl⟩
      · refine repC_congr t _ [] hInv.1
          (fun j hj => absurd hj (List.not_mem_nil j)) ?_ rfl rfl rfl
        simp [Scheduler.setNode]
      · intro i hi
        simp only [List.not_mem_nil, iff_false, not_not]
        by_cases his : i = t.mNodeStartIdx
        · subst his
          rw [node_set_self t _ _ hslen]
        · rw [node_set_ne t _ i _ his]
          have h0 := hInv.2.1 i hi
          simp only [List.not_mem_nil, iff_false, not_not] at h0
          exact h0
      · exact hact0
      · intro i
        by_cases his : i = t.mNodeStartIdx
        · subst his
          rw [node_set_self t _ _ hslen]
        · rw [node_set_ne t _ i _ his]
      · intro i _
        by_cases his : i = t.mNodeStartIdx
        · subst his
          rw [node_set_self t _ _ hslen]
          simp [hscb]
        · rw [node_set_ne t _ i _ his]
      · simp [Scheduler.setNode]
    · have hres : unscheduleAll t cb = (t, false) := by
        unfold unscheduleAll
        rw [hm]
        simp only [unscheduleAllLoop]
        rw [if_neg hmatch, if_pos hse]
      rw [hres]
      exact ⟨[], by simp, hInv, fun i => rfl, fun i _ => rfl, rfl, rfl, rfl⟩
  | cons hd rest =>
    have hhs : hd = t.mNodeStartIdx := hInv.1.head_start hd (by simp)
    have hfuel : (hd :: rest).length ≤ t.maxNodes + 1 :=
      Nat.le_succ_of_le (rep_length_le t _ hInv.1)
    obtain ⟨K2, hK2, hInvR, hctrR, hcbR, hmaxR, hlenR, hwmR⟩ :=
      unscheduleAllLoop_inv cb (t.maxNodes + 1) t [] hd rest false hfuel
        (by simpa using hInv)
    have hres : unscheduleAll t cb
        = unscheduleAllLoop cb (t.maxNodes + 1) t hd false := by
      unfold unscheduleAll
      rw [← hhs]
    rw [hres]
    exact ⟨K2, hK2, by simpa using hInvR, hctrR, hcbR, hmaxR, hlenR, hwmR⟩

/-- A public operation of the scheduler, for quantifying over operation
sequences. -/
inductive Op where
  | schedule (d : Nat) (cb : Option Nat) (arg : Nat)
  | scheduleReload (d r : Nat) (cb : Option Nat) (arg : Nat)
  | unschedule (h : Nat)
  | unscheduleAll (cb : Option Nat)
  | proceed (e : Nat)
  | clear

/-- Execute one public operation (discarding return values). -/
def execOp (env : Nat → CbBehavior) (s : Scheduler) : Op → Scheduler
  | Op.schedule d cb a => (schedule s d cb a).1
  | Op.scheduleReload d r cb a => (scheduleReload s d r cb a).1
  | Op.unschedule h => (unschedule s h).1
  | Op.unscheduleAll cb => (unscheduleAll s cb).1
  | Op.proceed e => (proceed env s e).1
  | Op.clear => clear s

/-- Execute a sequence of public operations. -/
def execOps (env : Nat → CbBehavior) (s : Scheduler) (ops : List Op) : Scheduler :=
  ops.foldl (execOp env) s

/-- The concatenated invocation logs of a sequence of `proceed` calls. -/
def proceedTrace (env : Nat → CbBehavior) :
    Scheduler → List Nat → List (Nat × Option Nat)
  | _, [] => []
  | s, e :: es =>
    let r := proceedFull env s e
    r.2.2 ++ proceedTrace env r.1 es

/-! ### The global invariant carried across public operations -/

/-- Well-formedness together with in-range generation counters: the inductive
invariant of the public API. -/
def GInv (s : Scheduler) : Prop :=
  Wf s ∧ ∀ i, (s.node i).usedCounter < 256

theorem scheduleReload_ginv (s : Scheduler) (d0 r0 : Nat) (cb : Option Nat)
    (a : Nat) (h : GInv s) : GInv (scheduleReload s d0 r0 cb a).1 := by
  obtain ⟨hwf, hctr⟩ := h
  have hInv := wf_inv s hwf
  by_cases hg : cb = none ∨ s.mActiveNodes ≥ s.maxNodes
  · rw [scheduleReload_fail_guard s d0 r0 cb a hg]
    exact ⟨hwf, hctr⟩
  · cases hfree : getFreeSlot s with
    | none =>
      rw [scheduleReload_fail_noslot s d0 r0 cb a hg hfree]
      exact ⟨hwf, hctr⟩
    | some k =>
      have hg' := hg
      push_neg at hg'
      obtain ⟨hknot, A, B, hAB, hInv', hcondA, hcondB, hcumk, hcums, hcbk,
        hcbf, hctrf, hctrk, hmax⟩ :=
        scheduleReload_rep s (chainList s) d0 r0 cb a hInv hg'.1 hg'.2 k hfree
      refine ⟨inv_wf _ _ hInv', ?_⟩
      intro i
      by_cases hik : i = k
      · rw [hik, hctrk]
        exact Nat.mod_lt _ (by decide)
      · rw [hctrf i hik]
        exact hctr i

theorem unschedule_ginv (s : Scheduler) (h : Nat) (hg : GInv s) :
    GInv (unschedule s h).1 := by
  obtain ⟨hwf, hctr⟩ := hg
  have hInv := wf_inv s hwf
  rcases unschedule_spec s (chainList s) hInv h with ⟨heq, _⟩ | ⟨htrue, _, _⟩
  · rw [heq]
    exact ⟨hwf, hctr⟩
  · obtain ⟨_, hInv', _, _, hctrf, _⟩ :=
      unschedule_inv s (chainList s) hInv h htrue
    refine ⟨inv_wf _ _ hInv', ?_⟩
    intro i
    rw [hctrf i]
    exact hctr i

theorem unscheduleAll_ginv (s : Scheduler) (cb : Option Nat) (hg : GInv s) :
    GInv (unscheduleAll s cb).1 := by
  obtain ⟨hwf, hctr⟩ := hg
  obtain ⟨l2, _, hInv', hctrf, _⟩ :=
    unscheduleAll_inv s cb (chainList s) (wf_inv s hwf)
  refine ⟨inv_wf _ _ hInv', ?_⟩
  intro i
  rw [hctrf i]
  exact hctr i

theorem proceed_ginv (env : Nat → CbBehavior) (s : Scheduler) (e : Nat)
    (hg : GInv s) : GInv (proceed env s e).1 := by
  show GInv (proceedFull env s e).1
  obtain ⟨hwf, hctr⟩ := hg
  obtain ⟨l', hInv', _, _, hctrf, _, _, _, _⟩ :=
    proceedFull_inv env s e (chainList s) (wf_inv s hwf) hctr
  refine ⟨inv_wf _ _ hInv', ?_⟩
  intro i
  rw [hctrf i]
  exact hctr i

theorem clear_ginv (s : Scheduler) (hg : GInv s) : GInv (clear s) := by
  obtain ⟨hwf, _⟩ := hg
  have hInv := wf_inv s hwf
  refine ⟨inv_wf _ [] (clear_inv s hInv.1.maxpos hInv.1.maxle), ?_⟩
  intro i
  rw [clear_node]
  decide

theorem execOp_ginv (env : Nat → CbBehavior) (s : Scheduler) (op : Op)
    (h : GInv s) : GInv (execOp env s op) := by
  cases op with
  | schedule d cb a => exact scheduleReload_ginv s d d cb a h
  | scheduleReload d r cb a => exact scheduleReload_ginv s d r cb a h
  | unschedule hh => exact unschedule_ginv s hh h
  | unscheduleAll cb => exact unscheduleAll_ginv s cb h
  | proceed e => exact proceed_ginv env s e h
  | clear => exact clear_ginv s h

theorem execOps_ginv (env : Nat → CbBehavior) (ops : List Op) :
    ∀ s : Scheduler, GInv s → GInv (execOps env s ops) := by
  induction ops with
  | nil =>
    intro s h
    exact h
  | cons op rest ih =>
    intro s h
    exact ih (execOp env s op) (execOp_ginv env s op h)

theorem initialScheduler_ginv (N : Nat) (h1 : 0 < N) (h255 : N ≤ 255) :
    GInv (initialScheduler N) := by
  refine ⟨inv_wf _ [] (initialScheduler_inv N h1 h255), ?_⟩
  intro i
  unfold initialScheduler
  rw [clear_node]
  decide

/-! ### A `proceed` that does not reach the head deadline -/

theorem proceed_nofire (env : Nat → CbBehavior) (s : Scheduler) (e : Nat)
    (hd : Nat) (R : List Nat) (hInv : Inv s (hd :: R))
    (hlt : e % u32Mod < nodeDelta s hd) :
    (proceedFull env s e).2.2 = []
    ∧ Inv (proceedFull env s e).1 (hd :: R)
    ∧ nodeDelta (proceedFull env s e).1 hd = nodeDelta s hd - e % u32Mod
    ∧ (∀ j, j ≠ hd → (proceedFull env s e).1.node j = s.node j)
    ∧ ((proceedFull env s e).1.node hd).callback = (s.node hd).callback
    ∧ ((proceedFull env s e).1.node hd).reload = (s.node hd).reload
    ∧ ((proceedFull env s e).1.node hd).usedCounter = (s.node hd).usedCounter
    ∧ (∀ j ∈ hd :: R,
        cumOf (proceedFull env s e).1 (hd :: R) j + e % u32Mod
          = cumOf s (hd :: R) j) := by
  have hhs : hd = s.mNodeStartIdx := hInv.1.head_start hd (by simp)
  have hdelta : (s.node s.mNodeStartIdx).delayToPrevious = nodeDelta s hd := by
    rw [← hhs]
    rfl
  have hcond : ¬((s.node s.mNodeStartIdx).delayToPrevious ≤ e % u32Mod
      ∧ s.mActiveNodes > 0) := by
    intro hc
    rw [hdelta] at hc
    omega
  obtain ⟨m, hm⟩ : ∃ m, proceedFuel s (e % u32Mod) = m + 1 := by
    have : 0 < proceedFuel s (e % u32Mod) := by
      unfold proceedFuel
      exact Nat.mul_pos (by omega) (by omega)
    exact ⟨proceedFuel s (e % u32Mod) - 1, by omega⟩
  have hloop : proceedLoop env (proceedFuel s (e % u32Mod)) s (e % u32Mod) []
      = (s, e % u32Mod, []) := by
    rw [hm]
    simp only [proceedLoop]
    rw [if_neg hcond]
  have hfull : proceedFull env s e = proceedPost (s, e % u32Mod, []) := by
    show proceedPost (proceedLoop env (proceedFuel s (e % u32Mod)) s
      (e % u32Mod) []) = _
    rw [hloop]
  have hdone : loopDone ((s, e % u32Mod, []) :
      Scheduler × Nat × List (Nat × Option Nat)) := hcond
  obtain ⟨hInvP, hlogP, hctrP, hcbP, hmaxP, hlenP, hwmP, hcumP⟩ :=
    proceedPost_inv' (s, e % u32Mod, []) (hd :: R) hInv
  have hact : s.mActiveNodes > 0 := by
    have := hInv.2.2
    simp at this
    omega
  have hslen : s.mNodeStartIdx < s.nodes.length := by
    rw [hInv.1.len]
    exact hInv.1.startlt
  have hstate : (proceedPost (s, e % u32Mod, [])).1
      = { s.setNode s.mNodeStartIdx
            { s.node s.mNodeStartIdx with
              delayToPrevious :=
                (s.node s.mNodeStartIdx).delayToPrevious - e % u32Mod } with
          mProceedingTime :=
            ((s.setNode s.mNodeStartIdx
              { s.node s.mNodeStartIdx with
                delayToPrevious :=
                  (s.node s.mNodeStartIdx).delayToPrevious
                    - e % u32Mod }).mProceedingTime + e % u32Mod) % u32Mod } := by
    simp only [proceedPost]
    rw [if_pos hact]
  refine ⟨by rw [hfull]; rfl, by rw [hfull]; exact hInvP, ?_, ?_, ?_, ?_, ?_,
    ?_⟩
  · rw [hfull, hstate]
    show ((s.setNode s.mNodeStartIdx _).node hd).delayToPrevious = _
    rw [hhs, node_set_self s _ _ hslen]
    rfl
  · intro j hj
    rw [hfull, hstate]
    show (s.setNode s.mNodeStartIdx _).node j = s.node j
    exact node_set_ne s _ j _ (by rw [← hhs]; exact hj)
  · rw [hfull]
    rw [hcbP hd]
  · rw [hfull, hstate]
    show ((s.setNode s.mNodeStartIdx _).node hd).reload = _
    rw [hhs, node_set_self s _ _ hslen]
  · rw [hfull]
    rw [hctrP hd]
  · intro j hj
    rw [hfull]
    exact hcumP hdone j hj

/-! ## Concrete environments and states used by the scenario theorems -/

/-- An environment where every callback purely returns the reload
disposition. -/
def envReload : Nat → CbBehavior := fun _ => CbBehavior.ret ActionReturn.reload

/-- An environment where every callback purely returns the one-shot
disposition. -/
def envOneshot : Nat → CbBehavior := fun _ => CbBehavior.ret ActionReturn.oneshot

/-- An environment where every callback first unschedules its own handle and
then returns the reload disposition. -/
def envUnschedSelf : Nat → CbBehavior :=
  fun _ => CbBehavior.unschedSelf ActionReturn.reload

/-- One registration/cancellation cycle on a capacity-2 scheduler.  Each cycle
allocates one slot (slots 0 and 1 alternate because the free-slot scan starts
just after `mNodeEndIdx`) and bumps that slot's generation counter. -/
def c2cycle (s : Scheduler) : Scheduler :=
  (unscheduleAll (scheduleReload s 5 5 (some 0) 0).1 (some 0)).1

/-- The capacity-2 scheduler after `k` registration/cancellation cycles.
After `2*m` cycles, slot 0 has been allocated `m` times, so its generation
counter is `m % 256`. -/
def c2state : Nat → Scheduler
  | 0 => initialScheduler 2
  | k+1 => c2cycle (c2state k)

/-- `n`-fold application of `c2cycle`. -/
def c2cycleN : Nat → Scheduler → Scheduler
  | 0, s => s
  | n+1, s => c2cycle (c2cycleN n s)

/-- The shape of the capacity-2 scheduler after an even number `2*m` of
registration/cancellation cycles (for `1 ≤ m ≤ 255`): both slots free, both
generation counters equal to `m`. -/
def c2even (m : Nat) : Scheduler :=
  { maxNodes := 2,
    nodes := [
      { callback := none, delayToPrevious := 5, reload := 5, arg := 0,
        usedCounter := m, previousNodeIdx := 0, nextNodeIdx := 0 },
      { callback := none, delayToPrevious := 5, reload := 5, arg := 0,
        usedCounter := m, previousNodeIdx := 1, nextNodeIdx := 1 }],
    mNodeStartIdx := 0, mNodeEndIdx := 0, mActiveNodes := 0,
    mProceedingTime := 0, mActiveNodesWaterMark := 1 }

theorem c2state_add (m n : Nat) : c2state (m + n) = c2cycleN n (c2state m) := by
  induction n with
  | zero => rfl
  | succ n ih =>
    show c2state ((m + n) + 1) = c2cycle (c2cycleN n (c2state m))
    rw [c2state, ih]

theorem c2state_64 : c2state 64 = c2even 32 := by decide

theorem c2state_128 : c2state 128 = c2even 64 := by
  rw [show (128 : Nat) = 64 + 64 from rfl, c2state_add, c2state_64]
  decide

theorem c2state_192 : c2state 192 = c2even 96 := by
  rw [show (192 : Nat) = 128 + 64 from rfl, c2state_add, c2state_128]
  decide

theorem c2state_256 : c2state 256 = c2even 128 := by
  rw [show (256 : Nat) = 192 + 64 from rfl, c2state_add, c2state_192]
  decide

theorem c2state_320 : c2state 320 = c2even 160 := by
  rw [show (320 : Nat) = 256 + 64 from rfl, c2state_add, c2state_256]
  decide

theorem c2state_384 : c2state 384 = c2even 192 := by
  rw [show (384 : Nat) = 320 + 64 from rfl, c2state_add, c2state_320]
  decide

theorem c2state_448 : c2state 448 = c2even 224 := by
  rw [show (448 : Nat) = 384 + 64 from rfl, c2state_add, c2state_384]
  decide

theorem c2state_510 : c2state 510 = c2even 255 := by
  rw [show (510 : Nat) = 448 + 62 from rfl, c2state_add, c2state_448]
  decide

/-- A capacity-2 scheduler in which slot 0 holds a fresh registration
(callback token 7) whose generation counter has wrapped around to 1, the same
generation a long-freed earlier registration of slot 0 once had. -/
def sC7 : Scheduler :=
  (scheduleReload (scheduleReload (c2state 512) 99 99 (some 5) 0).1
    77 77 (some 7) 0).1

/-- A capacity-4 scheduler with all four slots occupied. -/
def s8 : Scheduler :=
  (schedule ((schedule ((schedule ((schedule (initialScheduler 4) 10 (some 0) 0).1)
    20 (some 1) 0).1) 30 (some 2) 0).1) 40 (some 3) 0).1

/-- The default-capacity scheduler right after `scheduleReload(100, 100, C)`
with callback token 0 standing for `C`. -/
def c5s1 : Scheduler :=
  (scheduleReload (initialScheduler 64) 100 100 (some 0) 0).1

/-! ## Fuel stability of the firing loop

`proceedLoop` is fuelled; once the loop condition has become false, adding
fuel does not change the result.  This lets scenario proofs evaluate the loop
with a small concrete fuel and transfer the result to the large fuel bound
used by `proceedFull`. -/

/-- The firing loop's exit condition holds of a loop result. -/
theorem proceedLoop_add (env : Nat → CbBehavior) (k j : Nat) (s : Scheduler)
    (e : Nat) (log : List (Nat × Option Nat))
    (h : loopDone (proceedLoop env k s e log)) :
    proceedLoop env (k + j) s e log = proceedLoop env k s e log := by
  induction k generalizing s e log with
  | zero =>
    rw [Nat.zero_add]
    match j with
    | 0 => rfl
    | j'+1 =>
      simp only [proceedLoop] at h ⊢
      rw [if_neg h]
  | succ k ih =>
    rw [Nat.succ_add]
    simp only [proceedLoop] at h ⊢
    by_cases hc : (s.node s.mNodeStartIdx).delayToPrevious ≤ e ∧ s.mActiveNodes > 0
    · rw [if_pos hc] at h
      rw [if_pos hc, if_pos hc]
      exact ih _ _ _ h
    · rw [if_neg hc, if_neg hc]

theorem proceedLoop_eq_of_done (env : Nat → CbBehavior) (k m : Nat)
    (s : Scheduler) (e : Nat) (log : List (Nat × Option Nat)) (hkm : k ≤ m)
    (h : loopDone (proceedLoop env k s e log)) :
    proceedLoop env m s e log = proceedLoop env k s e log := by
  obtain ⟨j, rfl⟩ := Nat.exists_eq_add_of_le hkm
  exact proceedLoop_add env k j s e log h

theorem proceedFull_fuel (env : Nat → CbBehavior) (s : Scheduler) (e k : Nat)
    (hk : k ≤ proceedFuel s (e % u32Mod))
    (h : loopDone (proceedLoop env k s (e % u32Mod) [])) :
    proceedFull env s e = proceedPost (proceedLoop env k s (e % u32Mod) []) := by
  simp only [proceedFull]
  rw [proceedLoop_eq_of_done env k _ s (e % u32Mod) [] hk h]

/-- A slot whose callback is `NULL` on a state satisfying the operation
invariant never appears in the invocation log of any subsequent sequence of
`proceed` calls: fired slots are always chain members, free slots never
rejoin the chain without a registration, and `proceed` preserves the
invariant. -/
theorem proceedTrace_avoid (env : Nat → CbBehavior) (i : Nat) :
    ∀ (es : List Nat) (t : Scheduler), GInv t → (t.node i).callback = none →
      ∀ entry ∈ proceedTrace env t es, entry.1 ≠ i := by
  intro es
  induction es with
  | nil =>
    intro t _ _ entry hentry
    simp [proceedTrace] at hentry
  | cons e es' ih =>
    intro t hg hnone entry hentry
    obtain ⟨hwf, hctr⟩ := hg
    have hinot : i ∉ chainList t := by
      intro hmem
      have hlt : i < t.maxNodes := hwf.1.memlt i hmem
      exact ((wf_inv t hwf).2.1 i hlt).mpr hmem hnone
    obtain ⟨l', hInv', hmem', hent', hctr', hcb', _, _, _⟩ :=
      proceedFull_inv env t e (chainList t) (wf_inv t hwf) hctr
    simp only [proceedTrace] at hentry
    rcases List.mem_append.mp hentry with hin | hin
    · intro hc
      have hmem := hent' entry hin
      rw [hc] at hmem
      exact hinot hmem
    · have hg2 : GInv (proceedFull env t e).1 := proceed_ginv env t e ⟨hwf, hctr⟩
      have hnone2 : ((proceedFull env t e).1.node i).callback = none := by
        rw [hcb' i hinot]
        exact hnone
      exact ih (proceedFull env t e).1 hg2 hnone2 entry hin

/-! ## Claim theorems: error handling and concrete scenarios -/

/-- C1: the timeline invariant.  (A) Starting from a freshly constructed
scheduler of any capacity 1..255, every sequence of public operations
(schedule, scheduleReload, unschedule, unscheduleAll, proceed, clear), under
any behaviour of the registered callbacks, leaves the state well-formed: the
occupied nodes form the chain read off from `mNodeStartIdx` along next
links, with consistent bookkeeping.  (B) On every well-formed state the
chain is ordered by non-decreasing remaining time, where the remaining time
of a node is the sum of the delta-to-previous values from the chain head up
to and including that node.  (C) A successful registration splices the new
slot into the chain at the position given by its requested delay, the new
node's sum of deltas equals exactly that (truncated) delay, and the sum of
deltas of every previously occupied node is unchanged.  (D) A successful
cancellation removes exactly the handle's slot from the chain and leaves
every other occupied node's sum of deltas unchanged.  (E) A `proceed` whose
(truncated) elapsed time is below the head's delta decrements only the head
node's delta, by exactly the elapsed time: the chain is unchanged, every
non-head slot is bit-for-bit untouched, and every occupied node's remaining
time drops by exactly the elapsed time. -/
theorem claim_C1 :
    (∀ (N : Nat), 0 < N → N ≤ 255 →
      ∀ (env : Nat → CbBehavior) (ops : List Op),
        Wf (execOps env (initialScheduler N) ops))
    ∧ (∀ s : Scheduler, Wf s →
        (chainList s).Pairwise
          (fun i j => cumOf s (chainList s) i ≤ cumOf s (chainList s) j))
    ∧ (∀ (s : Scheduler) (d r : Nat) (cb : Option Nat) (a k : Nat), Wf s →
        cb ≠ none → s.mActiveNodes < s.maxNodes → getFreeSlot s = some k →
        ∃ A B, chainList s = A ++ B
          ∧ chainList (scheduleReload s d r cb a).1 = A ++ k :: B
          ∧ cumOf (scheduleReload s d r cb a).1 (A ++ k :: B) k = d % u32Mod
          ∧ ∀ j ∈ chainList s,
              cumOf (scheduleReload s d r cb a).1 (A ++ k :: B) j
                = cumOf s (chainList s) j)
    ∧ (∀ (s : Scheduler) (h : Nat), Wf s → (unschedule s h).2.1 = true →
        chainList (unschedule s h).1 = (chainList s).erase (h % u16Mod % 256)
        ∧ ∀ j ∈ (chainList s).erase (h % u16Mod % 256),
            cumOf (unschedule s h).1 ((chainList s).erase (h % u16Mod % 256)) j
              = cumOf s (chainList s) j)
    ∧ (∀ (env : Nat → CbBehavior) (s : Scheduler) (e hd : Nat) (R : List Nat),
        Inv s (hd :: R) → e % u32Mod < nodeDelta s hd →
        chainList (proceedFull env s e).1 = hd :: R
        ∧ nodeDelta (proceedFull env s e).1 hd = nodeDelta s hd - e % u32Mod
        ∧ (∀ j, j ≠ hd → (proceedFull env s e).1.node j = s.node j)
        ∧ ∀ j ∈ hd :: R,
            cumOf (proceedFull env s e).1 (hd :: R) j + e % u32Mod
              = cumOf s (hd :: R) j) := by
  refine ⟨?_, ?_, ?_, ?_, ?_⟩
  · intro N h1 h255 env ops
    exact (execOps_ginv env ops (initialScheduler N)
      (initialScheduler_ginv N h1 h255)).1
  · intro s hwf
    exact cum_pairwise s (chainList s) hwf.1.nodup
  · intro s d r cb a k hwf hcb hroom hfree
    obtain ⟨hknot, A, B, hAB, hInv', hcondA, hcondB, hcumk, hcums, hcbk, hcbf,
      hctrf, hctrk, hmax⟩ :=
      scheduleReload_rep s (chainList s) d r cb a (wf_inv s hwf) hcb hroom
        k hfree
    exact ⟨A, B, hAB, inv_chainList _ _ hInv', hcumk, hcums⟩
  · intro s h hwf hsucc
    obtain ⟨hmem, hInv', hcums, _⟩ :=
      unschedule_inv s (chainList s) (wf_inv s hwf) h hsucc
    exact ⟨inv_chainList _ _ hInv', hcums⟩
  · intro env s e hd R hInv hlt
    obtain ⟨hlog, hInv', hdelta, hframe, _, _, _, hcums⟩ :=
      proceed_nofire env s e hd R hInv hlt
    exact ⟨inv_chainList _ _ hInv', hdelta, hframe, hcums⟩

/-- Witness for `claim_C1`: a concrete capacity, environment and operation
sequence satisfying the hypotheses of its first conjunct. -/
theorem claim_C1_witness :
    Wf (execOps envReload (initialScheduler 4)
      [Op.schedule 5 (some 1) 0, Op.proceed 3]) :=
  claim_C1.1 4 (by decide) (by decide) envReload
    [Op.schedule 5 (some 1) 0, Op.proceed 3]

/-- C2: a successful registration can return the reserved all-zero invalid
handle.  On a capacity-2 pool, after 511 registration/cancellation cycles the
next `scheduleReload` succeeds — it links a node into the chain
(`mActiveNodes = 1`, slot 0 occupied by the new callback) — yet returns
`ACTION_SCHEDULER_ID_INVALID`, because slot 0's 8-bit generation counter has
wrapped to 0 and the packed handle `0 | (0 << 8)` equals the sentinel.  This
contradicts the claim that the sentinel is returned exactly on failure. -/
theorem claim_C2_code_bug :
    (scheduleReload (c2state 511) 5 5 (some 0) 0).2 = ACTION_SCHEDULER_ID_INVALID
    ∧ (scheduleReload (c2state 511) 5 5 (some 0) 0).1.mActiveNodes = 1
    ∧ ((scheduleReload (c2state 511) 5 5 (some 0) 0).1.node 0).callback = some 0
    ∧ ((scheduleReload (c2state 511) 5 5 (some 0) 0).1.node 0).usedCounter = 0 := by
  rw [show (511 : Nat) = 510 + 1 from rfl, c2state_add, c2state_510]
  decide

/-- C3: `clear()` does not reset the high-water mark.  After one registration
(watermark 1) followed by `clear()`, `getActiveNodesWaterMark` still returns 1
even though no slot has been occupied since the `clear()`; the claim (and the
header documentation, "since the last clear") says it should reflect only
occupancy after that `clear()`, i.e. be 0. -/
theorem claim_C3_code_bug :
    getActiveNodesWaterMark (clear ((schedule (initialScheduler 4) 10 (some 0) 0).1)) = 1
    ∧ (clear ((schedule (initialScheduler 4) 10 (some 0) 0).1)).mActiveNodes = 0 := by
  decide

/-- C4: with pool capacity 1, registration always fails even on an empty
scheduler.  The free-slot scan starts at `(mNodeEndIdx + 1) % 1 = mNodeEndIdx`
and never examines any slot, so `scheduleReload` returns the invalid sentinel
and mutates nothing, although 0 < 1 slots are occupied.  This contradicts the
claim that an unsaturated pool (for every capacity 1..255) accepts a
registration. -/
theorem claim_C4_code_bug :
    ∀ (d r k a : Nat),
      scheduleReload (initialScheduler 1) d r (some k) a
        = (initialScheduler 1, ACTION_SCHEDULER_ID_INVALID) :=
  fun _ _ _ _ => rfl

/-- C5: after `scheduleReload(100, 100, C)` on an empty scheduler (callback
token 0 standing for `C`, registered in slot 1), one `proceed(250)` call
invokes `C` exactly twice — the invocation log is `[(1, C), (1, C)]` —
returns `true`, and `getNextEventDelay()` afterwards returns 50. -/
theorem claim_C5 :
    (proceedFull envReload c5s1 250).2.2 = [(1, some 0), (1, some 0)]
    ∧ (proceed envReload c5s1 250).2 = true
    ∧ getNextEventDelay (proceed envReload c5s1 250).1 = 50 := by
  have h := proceedFull_fuel envReload c5s1 250 3 (by decide) (by decide)
  refine ⟨?_, ?_, ?_⟩ <;> simp only [proceed, h] <;> decide

/-- C6 (concrete instance): a callback that unschedules its own handle during
execution and then returns the reload disposition is not reinserted.  On a
capacity-4 scheduler, `schedule(10, k)` registers slot 1; `proceed(10)` fires
it once; the self-cancelling callback nulls the slot, so the reload
disposition does not rearm it: the chain ends empty and the slot free. -/
theorem claim_C6 :
    ((proceedFull envUnschedSelf ((schedule (initialScheduler 4) 10 (some 3) 0).1) 10).2.2
        = [(1, some 3)])
    ∧ (proceedFull envUnschedSelf ((schedule (initialScheduler 4) 10 (some 3) 0).1) 10).1.mActiveNodes = 0
    ∧ ((proceedFull envUnschedSelf ((schedule (initialScheduler 4) 10 (some 3) 0).1) 10).1.node 1).callback
        = none := by
  have h := proceedFull_fuel envUnschedSelf
    ((schedule (initialScheduler 4) 10 (some 3) 0).1) 10 2 (by decide) (by decide)
  refine ⟨?_, ?_, ?_⟩ <;> simp only [h] <;> decide

/-- C7 counterexample: a stale handle can cancel a different, newer
registration.  Handle 256 packs slot 0 with generation 1; that registration
(the second ever, from the trace `c2state`) was freed long ago, and after
slot 0 was reused 256 more times its generation counter wrapped back to 1.
The slot now holds a different registration (callback token 7), yet
`unschedule` with the stale handle returns `true` and frees it — the claim
says it must return `false` and leave the new registration untouched. -/
theorem claim_C7_counterexample :
    (sC7.node 0).callback = some 7
    ∧ (sC7.node 0).usedCounter = 1
    ∧ (unschedule sC7 256).2.1 = true
    ∧ ((unschedule sC7 256).1.node 0).callback = none := by
  simp only [sC7]
  rw [show (512 : Nat) = 510 + 2 from rfl, c2state_add, c2state_510]
  decide

/-- C7 (amended): `unschedule` with a nonzero handle returns `false` and
leaves the state untouched whenever the slot's current generation counter
differs from the handle's generation byte.  (As stated the claim fails: the
generation counter is 8 bits and wraps, so a slot freed and then reused a
multiple-of-256 number of times reaches the old generation again, and the
stale handle wrongly cancels the new registration — see the
counterexample.) -/
theorem claim_C7 :
    ∀ (s : Scheduler) (h : Nat), h % u16Mod ≠ 0 →
      (s.node (h % u16Mod % 256)).usedCounter ≠ h % u16Mod / 256 →
      unschedule s h = (s, false, h % u16Mod) := by
  intro s h h0 hc
  simp only [unschedule, ACTION_SCHEDULER_ID_INVALID]
  rw [if_pos h0, if_neg]
  intro hcontra
  exact hc hcontra.2.2

/-- Witness for `claim_C7`: handle 513 (slot 1, generation 2) against a fresh
capacity-4 scheduler whose slot 1 has generation 0. -/
theorem claim_C7_witness :
    ((513 : Nat) % u16Mod ≠ 0
      ∧ ((initialScheduler 4).node (513 % u16Mod % 256)).usedCounter ≠ 513 % u16Mod / 256)
    ∧ unschedule (initialScheduler 4) 513 = (initialScheduler 4, false, 513 % u16Mod) :=
  ⟨⟨by decide, by decide⟩, claim_C7 (initialScheduler 4) 513 (by decide) (by decide)⟩

/-- C8: registration on a saturated pool is an atomic failure.  Whenever
`mActiveNodes ≥ maxNodes`, `schedule` returns the untouched state together
with the invalid-handle sentinel, so every prior registration, the timeline
order, all deltas and all handles remain intact. -/
theorem claim_C8 :
    ∀ (s : Scheduler) (d : Nat) (cb : Option Nat) (a : Nat),
      s.mActiveNodes ≥ s.maxNodes →
      schedule s d cb a = (s, ACTION_SCHEDULER_ID_INVALID) := by
  intro s d cb a h
  simp only [schedule, scheduleReload]
  rw [if_pos (Or.inr h)]

/-- Witness for `claim_C8`: a capacity-4 pool holding four registrations
rejects a fifth without mutating anything. -/
theorem claim_C8_witness :
    s8.mActiveNodes ≥ s8.maxNodes
    ∧ schedule s8 9 (some 9) 0 = (s8, ACTION_SCHEDULER_ID_INVALID) :=
  ⟨by decide, claim_C8 s8 9 (some 9) 0 (by decide)⟩

/-- C9: once `unschedule` returns success, the cancelled node never fires.
On any state satisfying the operation invariant, if `unschedule s h`
returns `true` then the handle's slot index appears in no invocation-log
entry of any subsequent sequence of `proceed` calls, whatever the elapsed
times and whatever the environment's callbacks do. -/
theorem claim_C9 (env : Nat → CbBehavior) (s : Scheduler) (h : Nat)
    (hg : GInv s) (hsucc : (unschedule s h).2.1 = true) (es : List Nat) :
    h % u16Mod % 256 ∉
      (proceedTrace env (unschedule s h).1 es).map Prod.fst := by
  intro hmem
  obtain ⟨entry, hent, hfst⟩ := List.mem_map.mp hmem
  obtain ⟨_, hInv', _, hcbf, _⟩ :=
    unschedule_inv s (chainList s) (wf_inv s hg.1) h hsucc
  have hnone : ((unschedule s h).1.node (h % u16Mod % 256)).callback
      = none := by
    rw [hcbf (h % u16Mod % 256)]
    rw [if_pos rfl]
  exact proceedTrace_avoid env (h % u16Mod % 256) es (unschedule s h).1
    (unschedule_ginv s h hg) hnone entry hent hfst

/-- Witness for `claim_C9`: on a capacity-4 scheduler holding one
registration (slot 1, generation 1, handle 257), cancelling it by its
handle succeeds and two subsequent `proceed` calls fire nothing from its
slot. -/
theorem claim_C9_witness :
    257 % u16Mod % 256 ∉
      (proceedTrace envReload
        (unschedule (execOps envReload (initialScheduler 4)
          [Op.schedule 5 (some 1) 0]) 257).1 [3, 10]).map Prod.fst :=
  claim_C9 envReload
    (execOps envReload (initialScheduler 4) [Op.schedule 5 (some 1) 0]) 257
    (execOps_ginv envReload [Op.schedule 5 (some 1) 0] (initialScheduler 4)
      (initialScheduler_ginv 4 (by decide) (by decide)))
    (by decide) [3, 10]

/-- C10: `isCallbackArmed` called with a `NULL` callback returns `true` on a
fresh default-capacity scheduler with no active nodes, because when the head
slot does not match it scans the other pool slots and free slots are marked
precisely by a `NULL` callback field — even though a `NULL` callback can
never be successfully registered (`scheduleReload` rejects it on any state
without mutating anything). -/
theorem claim_C10 :
    isCallbackArmed (initialScheduler 64) none = true
    ∧ (initialScheduler 64).mActiveNodes = 0
    ∧ ∀ (s : Scheduler) (d r a : Nat),
        scheduleReload s d r none a = (s, ACTION_SCHEDULER_ID_INVALID) :=
  ⟨by decide, by decide, fun _ _ _ _ => rfl⟩

end ASched
